import Mathlib

/-!
# Verification development for the `focus` outliner engine

Shallow embedding of the event-sourced document engine of the `focus`
repository (an event-log-backed hierarchical bullet editor) together with
proofs about it.

The embedding covers, faithfully to the TypeScript source:

* the monotone logical clock `nextTimestamp` (`src/lib/store.ts`);
* the pure event replayer (`src/lib/event-replayer.ts`), modelled as a heap
  of nodes keyed by id (the source keeps a `Map` of mutable node objects that
  alias into the result tree; since every id maps to exactly one object, the
  heap-with-child-id-lists presentation is observationally equivalent);
* the synthetic creation-event generator `createCreationEvents`
  (`src/lib/store.ts`);
* the in-memory tree commands `indentBullet`, `outdentBullet`,
  `deleteBullet`, `createEmptyBullet` of the document store
  (`src/lib/store.ts`), modelled as pure forest transformers;
* the workspace lock/unlock protocol (`src/lib/store.ts`), with the browser
  primitives (WebCrypto AES-GCM, `JSON.stringify`/`JSON.parse`) modelled
  symbolically: a ciphertext is a term recording the key, nonce and
  plaintext, and authenticated decryption succeeds exactly when key and
  nonce match — the standard symbolic model of an AEAD scheme;
* `listWorkspaces` of the durable event store.
-/

set_option autoImplicit false

namespace Focus

/-! ## The logical clock

Source (`src/lib/store.ts`):
```
function nextTimestamp(): number {
  const now = Date.now()
  if (now <= lastTimestamp) {
    lastTimestamp += 1
  } else {
    lastTimestamp = now
  }
  return lastTimestamp
}
```
The mutable module global `lastTimestamp` is threaded explicitly; `Date.now`
becomes the parameter `now`.  The returned value is the new `lastTimestamp`.
-/

def nextTimestamp (now lastTimestamp : Nat) : Nat :=
  if now ≤ lastTimestamp then lastTimestamp + 1 else now

/-- The sequence of timestamps emitted by consecutive `nextTimestamp` calls
when the wall clock reads `nows` (one reading per call), starting from the
stored value `last0`. -/
def emittedTimestamps (last0 : Nat) : List Nat → List Nat
  | [] => []
  | now :: nows =>
    let t := nextTimestamp now last0
    t :: emittedTimestamps t nows

theorem nextTimestamp_gt (now lastTimestamp : Nat) :
    lastTimestamp < nextTimestamp now lastTimestamp := by
  unfold nextTimestamp
  split
  · omega
  · omega

theorem emittedTimestamps_chain (last0 : Nat) (nows : List Nat) :
    List.Chain (· < ·) last0 (emittedTimestamps last0 nows) := by
  induction nows generalizing last0 with
  | nil => exact List.Chain.nil
  | cons now nows ih =>
    exact List.Chain.cons (nextTimestamp_gt now last0) (ih _)

/-! ## Bullets

`PersistedBullet` from `src/lib/event-replayer.ts`; the same record shape is
used by the mobx-state-tree `Bullet` model of the document store. -/

inductive PersistedBullet : Type where
  | mk (id content context : String) (collapsed checked : Bool)
      (createdAt : Int) (children : List PersistedBullet)

namespace PersistedBullet

def id : PersistedBullet → String
  | .mk i _ _ _ _ _ _ => i

def content : PersistedBullet → String
  | .mk _ c _ _ _ _ _ => c

def context : PersistedBullet → String
  | .mk _ _ c _ _ _ _ => c

def collapsed : PersistedBullet → Bool
  | .mk _ _ _ c _ _ _ => c

def checked : PersistedBullet → Bool
  | .mk _ _ _ _ c _ _ => c

def createdAt : PersistedBullet → Int
  | .mk _ _ _ _ _ c _ => c

def children : PersistedBullet → List PersistedBullet
  | .mk _ _ _ _ _ _ cs => cs

def setChildren : PersistedBullet → List PersistedBullet → PersistedBullet
  | .mk i c x cl ch ca _, cs => .mk i c x cl ch ca cs

@[simp] theorem id_mk (i c x : String) (cl ch : Bool) (ca : Int)
    (cs : List PersistedBullet) : (PersistedBullet.mk i c x cl ch ca cs).id = i := rfl

@[simp] theorem children_mk (i c x : String) (cl ch : Bool) (ca : Int)
    (cs : List PersistedBullet) :
    (PersistedBullet.mk i c x cl ch ca cs).children = cs := rfl

@[simp] theorem setChildren_mk (i c x : String) (cl ch : Bool) (ca : Int)
    (cs cs' : List PersistedBullet) :
    (PersistedBullet.mk i c x cl ch ca cs).setChildren cs' =
      .mk i c x cl ch ca cs' := rfl

@[simp] theorem setChildren_children (b : PersistedBullet) :
    b.setChildren b.children = b := by cases b; rfl

/-- Structural equality test (spelled out because the type nests through
`List`). -/
def beq : PersistedBullet → PersistedBullet → Bool
  | .mk i c x cl ch ca cs, .mk i' c' x' cl' ch' ca' cs' =>
    i == i' && c == c' && x == x' && cl == cl' && ch == ch' && ca == ca' &&
      beqList cs cs'
where
  beqList : List PersistedBullet → List PersistedBullet → Bool
    | [], [] => true
    | a :: as, b :: bs => beq a b && beqList as bs
    | _, _ => false

mutual

theorem beq_iff : ∀ a b : PersistedBullet, beq a b = true ↔ a = b
  | .mk i c x cl ch ca cs, .mk i' c' x' cl' ch' ca' cs' => by
    rw [beq]
    simp only [Bool.and_eq_true, beq_iff_eq, mk.injEq]
    rw [beqList_iff cs cs']
    tauto

theorem beqList_iff : ∀ as bs : List PersistedBullet,
    beq.beqList as bs = true ↔ as = bs
  | [], [] => by simp [beq.beqList]
  | a :: as, b :: bs => by
    rw [beq.beqList]
    simp only [Bool.and_eq_true, List.cons.injEq]
    rw [beq_iff a b, beqList_iff as bs]
  | [], _ :: _ => by simp [beq.beqList]
  | _ :: _, [] => by simp [beq.beqList]

end

instance : DecidableEq PersistedBullet := fun a b =>
  decidable_of_iff _ (beq_iff a b)

end PersistedBullet

/-! ## Events

`ParentId`, `EventType` and the payload shapes of `EventPayloadMap` from
`src/lib/event-store.ts`.  The store keeps each event as
`{type, payload, timestamp}` (plus store-assigned `id` and `workspaceId`,
irrelevant here: all claims are about a single workspace's ordered log).

A stored payload is either a plain (JSON) payload or the tagged encrypted
envelope `{__encrypted: true, iv, data}` produced by `lockWorkspace`.
The browser primitives are modelled symbolically:

* a `Ciphertext` (an AES-GCM ciphertext, a base64 string in the source)
  is a term recording the key, nonce and plaintext used to build it, and
  `decryptString` succeeds exactly when key and nonce match — the standard
  symbolic model of an AEAD scheme (authenticated decryption under a wrong
  key fails);
* a `PlainText` (a JavaScript string fed to `encryptString`) is either a raw
  verification token, the `JSON.stringify` image of a plain payload, or the
  `JSON.stringify` image of an encrypted envelope; `JSON.parse` inverts the
  two stringify images and fails on a raw token (a random base64 token is
  not JSON). -/

abbrev ParentId : Type := Option String

inductive EventType : Type where
  | bullet_created
  | bullet_deleted
  | bullet_moved
  | bullet_indented
  | bullet_outdented
  | bullet_content_updated
  | bullet_context_updated
  | bullet_collapsed_updated
  | bullet_checked_updated
  | workspace_created
  | workspace_renamed
  | workspace_deleted
  deriving DecidableEq, Repr

/-- `event.type.startsWith('workspace_')` on the closed union of tags. -/
def EventType.isWorkspaceType : EventType → Bool
  | .workspace_created => true
  | .workspace_renamed => true
  | .workspace_deleted => true
  | _ => false

/-- Payload of a `bullet_created` event (`EventPayloadMap['bullet_created']`). -/
structure CreatedPayload : Type where
  id : String
  parentId : ParentId
  index : Int
  content : String
  context : String
  collapsed : Bool
  createdAt : Int
  deriving DecidableEq, Repr

/-- The plain (unencrypted JSON) payload variants of `EventPayloadMap`. -/
inductive PlainPayload : Type where
  | created (p : CreatedPayload)
  | deleted (id : String) (parentId : ParentId) (index : Int)
  | moved (id : String) (parentId : ParentId) (fromIndex toIndex : Int)
  | indented (id : String) (fromParentId : ParentId) (fromIndex : Int)
      (toParentId : String) (toIndex : Int)
  | outdented (id : String) (fromParentId : String) (fromIndex : Int)
      (toParentId : ParentId) (toIndex : Int)
  | contentUpdated (id content : String)
  | contextUpdated (id context : String)
  | collapsedUpdated (id : String) (collapsed : Bool)
  | checkedUpdated (id : String) (checked : Bool)
  | workspaceCreated (id name : String) (createdAt : Int)
  | workspaceRenamed (id name : String) (updatedAt : Int)
  | workspaceDeleted (id : String) (deletedAt : Int)
  deriving DecidableEq, Repr

/-- A derived AES-GCM key; PBKDF2 is deterministic in password and salt, so
the key is modelled by that pair. -/
structure DerivedKey : Type where
  password : String
  salt : String
  deriving DecidableEq, Repr

mutual

/-- A JavaScript string that is fed to `encryptString` (symbolic). -/
inductive PlainText : Type where
  | str (s : String)
  | payloadJson (p : PlainPayload)
  | envelopeJson (iv : String) (data : Ciphertext)

/-- A symbolic AES-GCM ciphertext (a base64 string in the source). -/
inductive Ciphertext : Type where
  | mk (key : DerivedKey) (iv : String) (pt : PlainText)

end

mutual

def PlainText.beq : PlainText → PlainText → Bool
  | .str a, .str b => a == b
  | .payloadJson a, .payloadJson b => a == b
  | .envelopeJson i a, .envelopeJson j b => i == j && Ciphertext.beq a b
  | .str _, .payloadJson _ => false
  | .str _, .envelopeJson _ _ => false
  | .payloadJson _, .str _ => false
  | .payloadJson _, .envelopeJson _ _ => false
  | .envelopeJson _ _, .str _ => false
  | .envelopeJson _ _, .payloadJson _ => false

def Ciphertext.beq : Ciphertext → Ciphertext → Bool
  | .mk k i p, .mk k' i' p' => k == k' && i == i' && PlainText.beq p p'

end

/-- A stored event payload: plain JSON or the tagged envelope
`{__encrypted: true, iv, data}`. -/
inductive StorePayload : Type where
  | plain (p : PlainPayload)
  | encrypted (iv : String) (data : Ciphertext)

/-- An event as stored in the per-workspace log. -/
structure EventRecord : Type where
  type : EventType
  payload : StorePayload
  timestamp : Nat

/-! ## The event replayer (`src/lib/event-replayer.ts`)

The source keeps `ReplayState` as a mutable forest of node objects plus a
`Map` from id to node object and a `Map` from id to current parent id; the
node map aliases into the forest.  Since `nodes.set` only ever runs for an
id not yet in the map, each id denotes at most one object, and the state is
modelled as a heap: insertion-ordered association lists from id to node
data (children stored as a list of ids) and to parent id, plus the list of
root ids.  `replayEvents` materializes the root list back into
`PersistedBullet` trees at the end. -/

/-- `Map.get` on an insertion-ordered association list. -/
def mapGet {α : Type} (m : List (String × α)) (k : String) : Option α :=
  (m.find? (fun e => e.1 = k)).map (·.2)

/-- `Map.set`: overwrite in place if the key is present, else append. -/
def mapSet {α : Type} (m : List (String × α)) (k : String) (v : α) :
    List (String × α) :=
  match m with
  | [] => [(k, v)]
  | e :: rest => if e.1 = k then (k, v) :: rest else e :: mapSet rest k v

/-- `Map.delete`. -/
def mapDelete {α : Type} (m : List (String × α)) (k : String) :
    List (String × α) :=
  match m with
  | [] => []
  | e :: rest => if e.1 = k then rest else e :: mapDelete rest k

/-- Node data held in the heap; `children` is the ordered list of child ids. -/
structure NodeData : Type where
  content : String
  context : String
  collapsed : Bool
  checked : Bool
  createdAt : Int
  children : List String
  deriving DecidableEq, Repr

@[ext]
structure ReplayState : Type where
  root : List String
  nodes : List (String × NodeData)
  parents : List (String × ParentId)

def ReplayState.initial : ReplayState := ⟨[], [], []⟩

/-- `getChildren`: the root list for a null parent id, the parent's child
list if the parent is known, `null` otherwise.  (JavaScript treats the empty
string as falsy too; generated ids are never empty.) -/
def getChildren (s : ReplayState) (parentId : ParentId) : Option (List String) :=
  match parentId with
  | none => some s.root
  | some pid => (mapGet s.nodes pid).map (·.children)

/-- Write back the child list read by `getChildren` (the source mutates the
returned array in place). -/
def setChildrenAt (s : ReplayState) (parentId : ParentId) (cs : List String) :
    ReplayState :=
  match parentId with
  | none => { s with root := cs }
  | some pid =>
    { s with nodes :=
        match mapGet s.nodes pid with
        | none => s.nodes
        | some nd => mapSet s.nodes pid { nd with children := cs } }

/-- `removeFromParent`: locate the node via the parents map (absent entry
and stored `null` both mean the root list), splice it out of its sibling
list; `none` when the sibling list is unknown or the node is not in it. -/
def removeFromParent (s : ReplayState) (id : String) : Option ReplayState :=
  let parentId := (mapGet s.parents id).getD none
  match getChildren s parentId with
  | none => none
  | some siblings =>
    match siblings.findIdx? (· = id) with
    | none => none
    | some i => some (setChildrenAt s parentId (siblings.eraseIdx i))

/-- `insertNode`: no-op if the parent is unknown; otherwise splice the id in
at `Math.min(Math.max(index, 0), siblings.length)` and record its parent. -/
def insertNode (s : ReplayState) (nodeId : String) (parentId : ParentId)
    (index : Int) : ReplayState :=
  match getChildren s parentId with
  | none => s
  | some siblings =>
    let insertIndex := (max index 0).toNat.min siblings.length
    let s1 := setChildrenAt s parentId (siblings.insertIdx insertIndex nodeId)
    { s1 with parents := mapSet s1.parents nodeId parentId }

/-- `ensureNode`: no-op when the id is already known; otherwise register a
node built from the payload (note `checked` is hard-coded to `false` by the
source — the creation payload carries no `checked` field) and insert it. -/
def ensureNode (s : ReplayState) (p : CreatedPayload) : ReplayState :=
  if (mapGet s.nodes p.id).isSome then s
  else
    let nd : NodeData :=
      { content := p.content, context := p.context, collapsed := p.collapsed
        checked := false, createdAt := p.createdAt, children := [] }
    let s1 := { s with nodes := mapSet s.nodes p.id nd }
    insertNode s1 p.id p.parentId p.index

/-- `deleteSubtree`: purge a node and its descendants from both maps.  The
source recurses through the live node objects; the heap model reads the
child ids before deleting the entry.  The fuel is an upper bound on the
subtree size (callers pass `heap size + 1`, always sufficient). -/
def deleteSubtree : Nat → ReplayState → String → ReplayState
  | 0, s, _ => s
  | fuel + 1, s, id =>
    let childIds := ((mapGet s.nodes id).map (·.children)).getD []
    let s1 : ReplayState :=
      { s with nodes := mapDelete s.nodes id, parents := mapDelete s.parents id }
    childIds.foldl (deleteSubtree fuel) s1

def applyBulletDeleted (s : ReplayState) (id : String) : ReplayState :=
  match removeFromParent s id with
  | none => s
  | some s1 => deleteSubtree (s1.nodes.length + 1) s1 id

/-- `applyMove`: detach by id, reinsert at `(toParentId, toIndex)`; shared by
`bullet_moved`, `bullet_indented` and `bullet_outdented`. -/
def applyMove (s : ReplayState) (id : String) (toParentId : ParentId)
    (toIndex : Int) : ReplayState :=
  match removeFromParent s id with
  | none => s
  | some s1 => insertNode s1 id toParentId toIndex

/-- Field update by id; silently ignored when the node is unknown. -/
def updateNodeData (s : ReplayState) (id : String) (f : NodeData → NodeData) :
    ReplayState :=
  match mapGet s.nodes id with
  | none => s
  | some nd => { s with nodes := mapSet s.nodes id (f nd) }

/-- One step of the replay loop.  `workspace_*` events are no-ops.  An event
whose payload does not match its tag (including a still-encrypted envelope)
makes the handler fault in the source and is skipped by the per-event
`try`/`catch`; it is modelled as a no-op. -/
def applyEvent (s : ReplayState) (e : EventRecord) : ReplayState :=
  match e.type, e.payload with
  | .bullet_created, .plain (.created p) => ensureNode s p
  | .bullet_deleted, .plain (.deleted id _ _) => applyBulletDeleted s id
  | .bullet_moved, .plain (.moved id parentId _ toIndex) =>
      applyMove s id parentId toIndex
  | .bullet_indented, .plain (.indented id _ _ toParentId toIndex) =>
      applyMove s id (some toParentId) toIndex
  | .bullet_outdented, .plain (.outdented id _ _ toParentId toIndex) =>
      applyMove s id toParentId toIndex
  | .bullet_content_updated, .plain (.contentUpdated id content) =>
      updateNodeData s id (fun nd => { nd with content := content })
  | .bullet_context_updated, .plain (.contextUpdated id context) =>
      updateNodeData s id (fun nd => { nd with context := context })
  | .bullet_collapsed_updated, .plain (.collapsedUpdated id collapsed) =>
      updateNodeData s id (fun nd => { nd with collapsed := collapsed })
  | .bullet_checked_updated, .plain (.checkedUpdated id checked) =>
      updateNodeData s id (fun nd => { nd with checked := checked })
  | .workspace_created, _ => s
  | .workspace_renamed, _ => s
  | .workspace_deleted, _ => s
  | _, _ => s

/-- Materialize the tree hanging off one heap id.  The fuel bounds the
depth; callers pass `heap size + 1`, which covers every state the replayer
can reach (the root component is always a forest of heap entries). -/
def nodeAt : Nat → ReplayState → String → Option PersistedBullet
  | 0, _, _ => none
  | fuel + 1, s, id =>
    (mapGet s.nodes id).map fun nd =>
      .mk id nd.content nd.context nd.collapsed nd.checked nd.createdAt
        (nd.children.filterMap (nodeAt fuel s))

/-- `replayEvents`: fold the handlers over the log and return the root
forest. -/
def replayEvents (events : List EventRecord) : List PersistedBullet :=
  let s := events.foldl applyEvent ReplayState.initial
  s.root.filterMap (nodeAt (s.nodes.length + 1) s)

/-! ### Association-map lemmas -/

section MapLemmas

variable {α : Type}

@[simp] theorem mapGet_nil (k : String) : mapGet ([] : List (String × α)) k = none := rfl

theorem mapGet_cons (k' : String) (v : α) (m : List (String × α)) (k : String) :
    mapGet ((k', v) :: m) k = if k' = k then some v else mapGet m k := by
  by_cases h : k' = k <;> simp [mapGet, List.find?_cons, h]

@[simp] theorem mapGet_cons_self (k : String) (v : α) (m : List (String × α)) :
    mapGet ((k, v) :: m) k = some v := by simp [mapGet_cons]

theorem mapGet_cons_ne (k' : String) (v : α) (m : List (String × α)) (k : String)
    (h : k' ≠ k) : mapGet ((k', v) :: m) k = mapGet m k := by
  simp [mapGet_cons, h]

@[simp] theorem mapSet_nil (k : String) (v : α) :
    mapSet ([] : List (String × α)) k v = [(k, v)] := rfl

theorem mapGet_mapSet_self (m : List (String × α)) (k : String) (v : α) :
    mapGet (mapSet m k v) k = some v := by
  induction m with
  | nil => simp
  | cons e rest ih =>
    rw [mapSet]
    by_cases h : e.1 = k
    · simp [h]
    · rw [if_neg h]
      rcases e with ⟨a, b⟩
      rw [mapGet_cons_ne _ _ _ _ h]
      exact ih

theorem mapGet_mapSet_ne (m : List (String × α)) (k k' : String) (v : α)
    (h : k ≠ k') : mapGet (mapSet m k v) k' = mapGet m k' := by
  induction m with
  | nil => simp [mapGet_cons_ne _ _ _ _ h]
  | cons e rest ih =>
    rw [mapSet]
    by_cases he : e.1 = k
    · subst he
      rw [if_pos rfl, mapGet_cons_ne _ _ _ _ h, mapGet_cons_ne _ _ _ _ h]
    · rw [if_neg he]
      rcases e with ⟨a, b⟩
      by_cases ha : a = k'
      · subst ha; simp
      · rw [mapGet_cons_ne _ _ _ _ ha, mapGet_cons_ne _ _ _ _ ha]
        exact ih

/-- Setting a key that is absent appends the new entry. -/
theorem mapSet_eq_append (m : List (String × α)) (k : String) (v : α)
    (h : mapGet m k = none) : mapSet m k v = m ++ [(k, v)] := by
  induction m with
  | nil => simp
  | cons e rest ih =>
    rcases e with ⟨a, b⟩
    rw [mapSet]
    by_cases ha : a = k
    · subst ha; simp at h
    · rw [if_neg ha, mapGet_cons_ne _ _ _ _ ha] at *
      rw [ih h]
      simp

theorem mapGet_append_left (m1 m2 : List (String × α)) (k : String) (v : α)
    (h : mapGet m1 k = some v) : mapGet (m1 ++ m2) k = some v := by
  induction m1 with
  | nil => simp at h
  | cons e rest ih =>
    rcases e with ⟨a, b⟩
    by_cases ha : a = k
    · subst ha; simp_all
    · rw [mapGet_cons_ne _ _ _ _ ha] at h
      rw [List.cons_append, mapGet_cons_ne _ _ _ _ ha]
      exact ih h

theorem mapGet_append_right (m1 m2 : List (String × α)) (k : String)
    (h : mapGet m1 k = none) : mapGet (m1 ++ m2) k = mapGet m2 k := by
  induction m1 with
  | nil => simp
  | cons e rest ih =>
    rcases e with ⟨a, b⟩
    by_cases ha : a = k
    · subst ha; simp at h
    · rw [mapGet_cons_ne _ _ _ _ ha] at h
      rw [List.cons_append, mapGet_cons_ne _ _ _ _ ha]
      exact ih h

theorem mapGet_mapDelete_ne (m : List (String × α)) (k k' : String)
    (h : k ≠ k') : mapGet (mapDelete m k) k' = mapGet m k' := by
  induction m with
  | nil => simp [mapDelete]
  | cons e rest ih =>
    rcases e with ⟨a, b⟩
    rw [mapDelete]
    by_cases ha : a = k
    · subst ha
      rw [if_pos rfl, mapGet_cons_ne _ _ _ _ h]
    · rw [if_neg ha]
      by_cases ha' : a = k'
      · subst ha'; simp
      · rw [mapGet_cons_ne _ _ _ _ ha', mapGet_cons_ne _ _ _ _ ha']
        exact ih

theorem mem_of_mem_mapSet {m : List (String × α)} {k : String} {v : α}
    {e : String × α} (he : e ∈ mapSet m k v) : e ∈ m ∨ e = (k, v) := by
  induction m with
  | nil => simp at he; right; exact he
  | cons e0 rest ih =>
    rw [mapSet] at he
    by_cases h0 : e0.1 = k
    · rw [if_pos h0] at he
      rcases List.mem_cons.mp he with h | h
      · right; exact h
      · left; exact List.mem_cons_of_mem _ h
    · rw [if_neg h0] at he
      rcases List.mem_cons.mp he with h | h
      · left; exact h ▸ List.mem_cons_self _ _
      · rcases ih h with h' | h'
        · left; exact List.mem_cons_of_mem _ h'
        · right; exact h'

theorem mem_of_mem_mapDelete {m : List (String × α)} {k : String}
    {e : String × α} (he : e ∈ mapDelete m k) : e ∈ m := by
  induction m with
  | nil => simp [mapDelete] at he
  | cons e0 rest ih =>
    rw [mapDelete] at he
    by_cases h0 : e0.1 = k
    · rw [if_pos h0] at he
      exact List.mem_cons_of_mem _ he
    · rw [if_neg h0] at he
      rcases List.mem_cons.mp he with h | h
      · exact h ▸ List.mem_cons_self _ _
      · exact List.mem_cons_of_mem _ (ih h)

end MapLemmas

/-! ## The synthetic creation-event generator (`src/lib/store.ts`)

```
function createCreationEvents(nodes, parentId) {
  const events = []
  nodes.forEach((node, index) => {
    events.push({ type: 'bullet_created', payload: { id, parentId, index,
      content, context, collapsed, createdAt }, timestamp: nextTimestamp() })
    if (node.children.length > 0) {
      events.push(...createCreationEvents(node.children, node.id))
    }
  })
  return events
}
```
The module-global clock read by `nextTimestamp` is threaded as an
`EmitClock` (wall-clock readings become the stream `nows`). -/

structure EmitClock : Type where
  nows : Nat → Nat
  calls : Nat
  lastTimestamp : Nat

/-- One `nextTimestamp()` call against the threaded clock state. -/
def EmitClock.tick (c : EmitClock) : Nat × EmitClock :=
  let t := nextTimestamp (c.nows c.calls) c.lastTimestamp
  (t, { c with calls := c.calls + 1, lastTimestamp := t })

/-- The `bullet_created` record pushed for one node. -/
def creationEvent (n : PersistedBullet) (parentId : ParentId) (index : Nat)
    (t : Nat) : EventRecord :=
  { type := .bullet_created
    payload := .plain (.created
      { id := n.id, parentId := parentId, index := (index : Int)
        content := n.content, context := n.context
        collapsed := n.collapsed, createdAt := n.createdAt })
    timestamp := t }

mutual

/-- The events pushed for one node of `createCreationEvents`: its own
`bullet_created` record followed by the recursive emission for its
children. -/
def createCreationEventsB :
    PersistedBullet → ParentId → Nat → EmitClock →
      List EventRecord × EmitClock
  | .mk i cnt ctx cl ch ca cs, parentId, index, c =>
    ((creationEvent (.mk i cnt ctx cl ch ca cs) parentId index ((c.tick).1)) ::
        (createCreationEventsF cs (some i) 0 ((c.tick).2)).1,
      (createCreationEventsF cs (some i) 0 ((c.tick).2)).2)

/-- `createCreationEvents` with the `forEach` index made explicit. -/
def createCreationEventsF :
    List PersistedBullet → ParentId → Nat → EmitClock →
      List EventRecord × EmitClock
  | [], _, _, c => ([], c)
  | n :: rest, parentId, index, c =>
    ((createCreationEventsB n parentId index c).1 ++
        (createCreationEventsF rest parentId (index + 1)
          ((createCreationEventsB n parentId index c).2)).1,
      (createCreationEventsF rest parentId (index + 1)
        ((createCreationEventsB n parentId index c).2)).2)

end

def createCreationEvents (nodes : List PersistedBullet) (parentId : ParentId)
    (c : EmitClock) : List EventRecord × EmitClock :=
  createCreationEventsF nodes parentId 0 c

/-! ## Claim C5: strictly monotone timestamps -/

/-- C5: timestamps produced by `nextTimestamp` are strictly monotonically
increasing within a process lifetime: every call returns strictly more than
the stored `lastTimestamp`, and for any sequence of wall-clock readings
(including readings equal to or less than the last emitted timestamp) the
emitted sequence is strictly increasing. -/
theorem claim_C5 :
    (∀ now lastTimestamp, lastTimestamp < nextTimestamp now lastTimestamp) ∧
      ∀ last0 nows, List.Chain (· < ·) last0 (emittedTimestamps last0 nows) :=
  ⟨nextTimestamp_gt, emittedTimestamps_chain⟩

/-! ## Claim C4: `bullet_created` replay semantics -/

theorem getChildren_parents_irrel (s : ReplayState) (q : List (String × ParentId))
    (parentId : ParentId) :
    getChildren ⟨s.root, s.nodes, q⟩ parentId = getChildren s parentId := by
  cases parentId <;> rfl

theorem insertNode_eq (s : ReplayState) (nodeId : String) (parentId : ParentId)
    (index : Int) (sibs : List String)
    (h : getChildren s parentId = some sibs) :
    insertNode s nodeId parentId index =
      ⟨(setChildrenAt s parentId
          (sibs.insertIdx ((max index 0).toNat.min sibs.length) nodeId)).root,
        (setChildrenAt s parentId
          (sibs.insertIdx ((max index 0).toNat.min sibs.length) nodeId)).nodes,
        mapSet (setChildrenAt s parentId
          (sibs.insertIdx ((max index 0).toNat.min sibs.length) nodeId)).parents
          nodeId parentId⟩ := by
  rw [insertNode, h]

theorem insertNode_of_getChildren_none (s : ReplayState) (nodeId : String)
    (parentId : ParentId) (index : Int)
    (h : getChildren s parentId = none) :
    insertNode s nodeId parentId index = s := by
  rw [insertNode, h]

@[simp] theorem setChildrenAt_parents (s : ReplayState) (parentId : ParentId)
    (cs : List String) : (setChildrenAt s parentId cs).parents = s.parents := by
  cases parentId with
  | none => rfl
  | some pid => simp only [setChildrenAt]

@[simp] theorem setChildrenAt_root_some (s : ReplayState) (pid : String)
    (cs : List String) : (setChildrenAt s (some pid) cs).root = s.root := by
  simp only [setChildrenAt]

theorem getChildren_setChildrenAt_self (s : ReplayState) (parentId : ParentId)
    (cs sibs : List String) (h : getChildren s parentId = some sibs) :
    getChildren (setChildrenAt s parentId cs) parentId = some cs := by
  cases parentId with
  | none => rfl
  | some pid =>
    simp only [getChildren] at h
    rcases Option.map_eq_some'.mp h with ⟨nd0, hnd0, _⟩
    simp only [getChildren, setChildrenAt, hnd0]
    rw [mapGet_mapSet_self]
    rfl

theorem mapGet_setChildrenAt_nodes_ne (s : ReplayState) (pid : String)
    (cs : List String) (k : String) (h : pid ≠ k) :
    mapGet (setChildrenAt s (some pid) cs).nodes k = mapGet s.nodes k := by
  simp only [setChildrenAt]
  cases hm : mapGet s.nodes pid with
  | none => rfl
  | some nd0 => exact mapGet_mapSet_ne _ _ _ _ h

/-- C4: replaying a `bullet_created` event whose id is already known is a
no-op; otherwise, provided the payload's parent resolves (the forest root
for a null `parentId`, a known node otherwise), a node built from the
payload is inserted into that parent's children at the payload index clamped
into `[0, siblingCount]`. -/
theorem claim_C4 (s : ReplayState) (p : CreatedPayload) (ts : Nat) :
    ((mapGet s.nodes p.id).isSome →
      applyEvent s ⟨.bullet_created, .plain (.created p), ts⟩ = s) ∧
    (mapGet s.nodes p.id = none →
      ∀ sibs, getChildren s p.parentId = some sibs →
        getChildren (applyEvent s ⟨.bullet_created, .plain (.created p), ts⟩)
            p.parentId =
          some (sibs.insertIdx ((max p.index 0).toNat.min sibs.length) p.id) ∧
        mapGet (applyEvent s ⟨.bullet_created, .plain (.created p), ts⟩).nodes
            p.id =
          some ⟨p.content, p.context, p.collapsed, false, p.createdAt, []⟩) := by
  constructor
  · intro h
    simp only [applyEvent, ensureNode, if_pos h]
  · intro h sibs hsibs
    have hdup : ¬(mapGet s.nodes p.id).isSome := by simp [h]
    simp only [applyEvent, ensureNode, if_neg hdup]
    set nd : NodeData :=
      { content := p.content, context := p.context, collapsed := p.collapsed
        checked := false, createdAt := p.createdAt, children := [] } with hnd
    set s1 : ReplayState := { s with nodes := mapSet s.nodes p.id nd } with hs1
    have hs1nodes : ∀ k, k ≠ p.id → mapGet s1.nodes k = mapGet s.nodes k := by
      intro k hk
      rw [hs1]
      exact mapGet_mapSet_ne _ _ _ _ (Ne.symm hk)
    have hs1self : mapGet s1.nodes p.id = some nd := by
      rw [hs1]; exact mapGet_mapSet_self _ _ _
    have hpid_ne : ∀ pid, p.parentId = some pid → pid ≠ p.id := by
      intro pid hp hcontra
      rw [hp] at hsibs
      simp only [getChildren] at hsibs
      rcases Option.map_eq_some'.mp hsibs with ⟨nd0, hnd0, _⟩
      rw [← hcontra, hnd0] at h
      exact Option.noConfusion h
    have hs1get : getChildren s1 p.parentId = some sibs := by
      cases hp : p.parentId with
      | none =>
        rw [hp] at hsibs
        simpa only [getChildren, hs1] using hsibs
      | some pid =>
        rw [hp] at hsibs
        simp only [getChildren] at hsibs ⊢
        rw [hs1nodes pid (hpid_ne pid hp)]
        exact hsibs
    rw [insertNode_eq s1 p.id p.parentId p.index sibs hs1get]
    rw [getChildren_parents_irrel]
    refine ⟨?_, ?_⟩
    · exact getChildren_setChildrenAt_self s1 p.parentId _ sibs hs1get
    · cases hp : p.parentId with
      | none =>
        exact hs1self
      | some pid =>
        show mapGet (setChildrenAt s1 (some pid) _).nodes p.id = some nd
        rw [mapGet_setChildrenAt_nodes_ne s1 pid _ p.id (hpid_ne pid hp)]
        exact hs1self

/-- Witness for C4: a fresh node `x` with payload index `5` lands as the
single child of `r` (clamped to position 0), and a duplicate `bullet_created`
for `r` is a no-op. -/
theorem claim_C4_witness :
    getChildren
        (applyEvent ⟨["r"], [("r", ⟨"R", "", false, false, 0, []⟩)], [("r", none)]⟩
          ⟨.bullet_created, .plain (.created ⟨"x", some "r", 5, "X", "", false, 1⟩), 3⟩)
        (some "r") = some ["x"] ∧
    mapGet
        (applyEvent ⟨["r"], [("r", ⟨"R", "", false, false, 0, []⟩)], [("r", none)]⟩
          ⟨.bullet_created, .plain (.created ⟨"x", some "r", 5, "X", "", false, 1⟩), 3⟩).nodes
        "x" = some ⟨"X", "", false, false, 1, []⟩ ∧
    applyEvent ⟨["r"], [("r", ⟨"R", "", false, false, 0, []⟩)], [("r", none)]⟩
        ⟨.bullet_created, .plain (.created ⟨"r", none, 0, "R2", "", false, 2⟩), 4⟩ =
      ⟨["r"], [("r", ⟨"R", "", false, false, 0, []⟩)], [("r", none)]⟩ := by
  have h2 := (claim_C4 ⟨["r"], [("r", ⟨"R", "", false, false, 0, []⟩)], [("r", none)]⟩
    ⟨"x", some "r", 5, "X", "", false, 1⟩ 3).2 (by rfl) [] (by rfl)
  have h1 := (claim_C4 ⟨["r"], [("r", ⟨"R", "", false, false, 0, []⟩)], [("r", none)]⟩
    ⟨"r", none, 0, "R2", "", false, 2⟩ 4).1 (by rfl)
  exact ⟨h2.1.trans (by rfl), h2.2.trans (by rfl), h1⟩

/-! ## Claim C3: replaying the synthetic creation events

Structural views of a bullet forest used to characterize the replay state
reached after processing `createCreationEvents`. -/

mutual

/-- All ids of a tree, in depth-first (preorder) order. -/
def idsOfB : PersistedBullet → List String
  | .mk i _ _ _ _ _ cs => i :: idsOfF cs

def idsOfF : List PersistedBullet → List String
  | [] => []
  | b :: rest => idsOfB b ++ idsOfF rest

end

/-- The ids of the top level of a forest, in order. -/
def topIds (ns : List PersistedBullet) : List String :=
  ns.map PersistedBullet.id

mutual

/-- The heap entries the replayer builds for a tree created via synthetic
creation events, in insertion (depth-first) order; `checked` is `false`
because `ensureNode` hard-codes it. -/
def entriesB : PersistedBullet → List (String × NodeData)
  | .mk i c x cl _ ca cs => (i, ⟨c, x, cl, false, ca, topIds cs⟩) :: entriesF cs

def entriesF : List PersistedBullet → List (String × NodeData)
  | [] => []
  | b :: rest => entriesB b ++ entriesF rest

end

mutual

/-- The parent-map entries for a tree inserted under `parentId`. -/
def parentEntriesB (parentId : ParentId) : PersistedBullet → List (String × ParentId)
  | .mk i _ _ _ _ _ cs => (i, parentId) :: parentEntriesF (some i) cs

def parentEntriesF (parentId : ParentId) : List PersistedBullet → List (String × ParentId)
  | [] => []
  | b :: rest => parentEntriesB parentId b ++ parentEntriesF parentId rest

end

mutual

/-- The forest with every `checked` flag forced to `false` (what replaying
creation events reconstructs, since the creation payload has no `checked`
field). -/
def clearCheckedB : PersistedBullet → PersistedBullet
  | .mk i c x cl _ ca cs => .mk i c x cl false ca (clearCheckedF cs)

def clearCheckedF : List PersistedBullet → List PersistedBullet
  | [] => []
  | b :: rest => clearCheckedB b :: clearCheckedF rest

end

mutual

def heightB : PersistedBullet → Nat
  | .mk _ _ _ _ _ _ cs => heightF cs + 1

def heightF : List PersistedBullet → Nat
  | [] => 0
  | b :: rest => max (heightB b) (heightF rest)

end

mutual

/-- Every checked flag of the tree is `false`. -/
def checkedFreeB : PersistedBullet → Prop
  | .mk _ _ _ _ ch _ cs => ch = false ∧ checkedFreeF cs

def checkedFreeF : List PersistedBullet → Prop
  | [] => True
  | b :: rest => checkedFreeB b ∧ checkedFreeF rest

end

mutual

theorem clearCheckedB_of_checkedFree : ∀ b : PersistedBullet,
    checkedFreeB b → clearCheckedB b = b
  | .mk i c x cl ch ca cs, h => by
    rw [checkedFreeB] at h
    rw [clearCheckedB, h.1, clearCheckedF_of_checkedFree cs h.2]

theorem clearCheckedF_of_checkedFree : ∀ ns : List PersistedBullet,
    checkedFreeF ns → clearCheckedF ns = ns
  | [], _ => rfl
  | b :: rest, h => by
    rw [checkedFreeF] at h
    rw [clearCheckedF, clearCheckedB_of_checkedFree b h.1,
      clearCheckedF_of_checkedFree rest h.2]

end

mutual

theorem keys_entriesB : ∀ b : PersistedBullet,
    (entriesB b).map (·.1) = idsOfB b
  | .mk i c x cl ch ca cs => by
    rw [entriesB, idsOfB, List.map_cons, keys_entriesF cs]

theorem keys_entriesF : ∀ ns : List PersistedBullet,
    (entriesF ns).map (·.1) = idsOfF ns
  | [] => rfl
  | b :: rest => by
    rw [entriesF, idsOfF, List.map_append, keys_entriesB b, keys_entriesF rest]

end

mutual

theorem keys_parentEntriesB : ∀ (p : ParentId) (b : PersistedBullet),
    (parentEntriesB p b).map (·.1) = idsOfB b
  | p, .mk i c x cl ch ca cs => by
    rw [parentEntriesB, idsOfB, List.map_cons, keys_parentEntriesF (some i) cs]

theorem keys_parentEntriesF : ∀ (p : ParentId) (ns : List PersistedBullet),
    (parentEntriesF p ns).map (·.1) = idsOfF ns
  | _, [] => rfl
  | p, b :: rest => by
    rw [parentEntriesF, idsOfF, List.map_append, keys_parentEntriesB p b,
      keys_parentEntriesF p rest]

end

mutual

theorem heightB_le_length_entriesB : ∀ b : PersistedBullet,
    heightB b ≤ (entriesB b).length
  | .mk i c x cl ch ca cs => by
    rw [heightB, entriesB, List.length_cons]
    exact Nat.succ_le_succ (heightF_le_length_entriesF cs)

theorem heightF_le_length_entriesF : ∀ ns : List PersistedBullet,
    heightF ns ≤ (entriesF ns).length
  | [] => Nat.le_refl 0
  | b :: rest => by
    rw [heightF, entriesF, List.length_append]
    exact max_le
      (le_trans (heightB_le_length_entriesB b) (Nat.le_add_right _ _))
      (le_trans (heightF_le_length_entriesF rest) (Nat.le_add_left _ _))

end

/-- Keys absent from an association list are not found. -/
theorem mapGet_eq_none_of_not_mem_keys {α : Type} {m : List (String × α)}
    {k : String} (h : k ∉ m.map (·.1)) : mapGet m k = none := by
  induction m with
  | nil => rfl
  | cons e rest ih =>
    rcases e with ⟨a, v⟩
    simp only [List.map_cons, List.mem_cons] at h
    push_neg at h
    rw [mapGet_cons_ne _ _ _ _ (Ne.symm h.1)]
    exact ih h.2

theorem mapSet_self_of_mem {α : Type} {m : List (String × α)} {k : String}
    {v : α} (h : mapGet m k = some v) : mapSet m k v = m := by
  induction m with
  | nil => simp at h
  | cons e rest ih =>
    rcases e with ⟨a, w⟩
    rw [mapSet]
    by_cases ha : a = k
    · subst ha
      rw [mapGet_cons_self] at h
      rw [if_pos rfl]
      injection h with h
      rw [h]
    · rw [mapGet_cons_ne _ _ _ _ ha] at h
      rw [if_neg ha, ih h]

theorem mapSet_append_left {α : Type} {A : List (String × α)} (B : List (String × α))
    {k : String} {w : α} (h : mapGet A k = some w) (v : α) :
    mapSet (A ++ B) k v = mapSet A k v ++ B := by
  induction A with
  | nil => simp at h
  | cons e rest ih =>
    rcases e with ⟨a, u⟩
    rw [List.cons_append, mapSet, mapSet]
    by_cases ha : a = k
    · rw [if_pos ha, if_pos ha]
      rfl
    · rw [if_neg ha, if_neg ha, mapGet_cons_ne _ _ _ _ ha] at *
      rw [ih h]
      rfl

theorem mapSet_append_right {α : Type} {A : List (String × α)} (B : List (String × α))
    {k : String} (h : mapGet A k = none) (v : α) :
    mapSet (A ++ B) k v = A ++ mapSet B k v := by
  induction A with
  | nil => simp
  | cons e rest ih =>
    rcases e with ⟨a, u⟩
    rw [List.cons_append, mapSet]
    by_cases ha : a = k
    · subst ha; simp at h
    · rw [if_neg ha, mapGet_cons_ne _ _ _ _ ha] at *
      rw [ih h]
      rfl

theorem mapSet_mapSet {α : Type} (m : List (String × α)) (k : String) (v1 v2 : α) :
    mapSet (mapSet m k v1) k v2 = mapSet m k v2 := by
  induction m with
  | nil => simp [mapSet]
  | cons e rest ih =>
    rcases e with ⟨a, u⟩
    by_cases ha : a = k
    · subst ha; simp [mapSet]
    · simp [mapSet, ha, ih]

/-- In a key-nodup association list every entry is found at its key. -/
theorem mapGet_of_mem_of_nodup {α : Type} {m : List (String × α)}
    (hn : (m.map (·.1)).Nodup) {e : String × α} (he : e ∈ m) :
    mapGet m e.1 = some e.2 := by
  induction m with
  | nil => simp at he
  | cons e0 rest ih =>
    rcases e0 with ⟨a, v⟩
    simp only [List.map_cons, List.nodup_cons] at hn
    rcases List.mem_cons.mp he with h | h
    · subst h
      exact mapGet_cons_self _ _ _
    · have hne : a ≠ e.1 := by
        intro hcontra
        exact hn.1 (hcontra ▸ List.mem_map_of_mem (·.1) h)
      rw [mapGet_cons_ne _ _ _ _ hne]
      exact ih hn.2 h

/-- Writing back the child list that is already stored is the identity. -/
theorem setChildrenAt_getChildren_self {s : ReplayState} {parentId : ParentId}
    {L : List String} (h : getChildren s parentId = some L) :
    setChildrenAt s parentId L = s := by
  cases parentId with
  | none =>
    simp only [getChildren, Option.some.injEq] at h
    simp only [setChildrenAt, ← h]
  | some pid =>
    simp only [getChildren] at h
    rcases Option.map_eq_some'.mp h with ⟨nd, hnd, hc⟩
    simp only [setChildrenAt, hnd]
    have : { nd with children := L } = nd := by
      rw [← hc]
    rw [this, mapSet_self_of_mem hnd]

theorem setChildrenAt_some_eq {s : ReplayState} {pid : String} {nd : NodeData}
    (h : mapGet s.nodes pid = some nd) (cs : List String) :
    setChildrenAt s (some pid) cs =
      { s with nodes := mapSet s.nodes pid { nd with children := cs } } := by
  simp only [setChildrenAt, h]

/-- The replay state reached after replaying the synthetic creation events
for the forest `ns` under `parentId`, starting from a state whose resolved
sibling list for `parentId` is `L`: the sibling list is extended by the top
ids in order, and the heaps gain the depth-first entries of `ns`. -/
def bulkState (s : ReplayState) (parentId : ParentId) (L : List String)
    (ns : List PersistedBullet) : ReplayState :=
  ⟨(setChildrenAt s parentId (L ++ topIds ns)).root,
    (setChildrenAt s parentId (L ++ topIds ns)).nodes ++ entriesF ns,
    s.parents ++ parentEntriesF parentId ns⟩

/-- Replaying one synthetic creation event for a fresh id appends the id to
the resolved sibling list (the payload index equals the current sibling
count) and appends fresh heap entries. -/
theorem applyEvent_creation_fresh
    (s : ReplayState) (i cnt ctx : String) (cl ch : Bool) (ca : Int)
    (cs : List PersistedBullet) (parentId : ParentId) (idx : Nat) (t : Nat)
    (L : List String)
    (hfresh : mapGet s.nodes i = none)
    (hfreshp : mapGet s.parents i = none)
    (hL : getChildren s parentId = some L)
    (hlen : L.length = idx) :
    applyEvent s (creationEvent (.mk i cnt ctx cl ch ca cs) parentId idx t) =
      ⟨(setChildrenAt s parentId (L ++ [i])).root,
        (setChildrenAt s parentId (L ++ [i])).nodes ++
          [(i, ⟨cnt, ctx, cl, false, ca, []⟩)],
        s.parents ++ [(i, parentId)]⟩ := by
  have hnotSome : ¬(mapGet s.nodes i).isSome := by simp [hfresh]
  show ensureNode s ⟨i, parentId, (idx : Int), cnt, ctx, cl, ca⟩ = _
  rw [ensureNode]
  simp only [if_neg hnotSome]
  set nd0 : NodeData := ⟨cnt, ctx, cl, false, ca, []⟩ with hnd0
  set s1 : ReplayState := { s with nodes := mapSet s.nodes i nd0 } with hs1
  have hs1nodes : s1.nodes = s.nodes ++ [(i, nd0)] := by
    rw [hs1]
    exact mapSet_eq_append _ _ _ hfresh
  have hs1get : getChildren s1 parentId = some L := by
    cases hp : parentId with
    | none =>
      rw [hp] at hL
      exact hL
    | some pid =>
      rw [hp] at hL
      simp only [getChildren] at hL ⊢
      rcases Option.map_eq_some'.mp hL with ⟨ndp, hndp, hcp⟩
      have hget1 : mapGet s1.nodes pid = some ndp := by
        rw [hs1nodes]
        exact mapGet_append_left _ _ _ _ hndp
      rw [show s1.nodes = mapSet s.nodes i nd0 from rfl] at hget1
      rw [hget1]
      simp [hcp]
  rw [insertNode_eq s1 i parentId (idx : Int) L hs1get]
  have hclamp : ((max (idx : Int) 0).toNat.min L.length) = L.length := by
    rw [max_eq_left (Int.ofNat_nonneg idx)]
    simp [hlen]
  rw [hclamp, List.insertIdx_length_self]
  have hparents1 : s1.parents = s.parents := rfl
  refine ReplayState.ext ?_ ?_ ?_
  · show (setChildrenAt s1 parentId (L ++ [i])).root =
      (setChildrenAt s parentId (L ++ [i])).root
    cases hp : parentId with
    | none => rfl
    | some pid =>
      rw [setChildrenAt_root_some, setChildrenAt_root_some]
  · show (setChildrenAt s1 parentId (L ++ [i])).nodes =
      (setChildrenAt s parentId (L ++ [i])).nodes ++ [(i, nd0)]
    cases hp : parentId with
    | none => exact hs1nodes
    | some pid =>
      rw [hp] at hL
      simp only [getChildren] at hL
      rcases Option.map_eq_some'.mp hL with ⟨ndp, hndp, hcp⟩
      have hndp1 : mapGet s1.nodes pid = some ndp := by
        rw [hs1nodes]
        exact mapGet_append_left _ _ _ _ hndp
      rw [setChildrenAt_some_eq hndp1, setChildrenAt_some_eq hndp]
      show mapSet s1.nodes pid _ = _
      rw [hs1nodes, mapSet_append_left _ hndp]
  · show mapSet (setChildrenAt s1 parentId (L ++ [i])).parents i parentId =
      s.parents ++ [(i, parentId)]
    rw [setChildrenAt_parents, hparents1]
    exact mapSet_eq_append _ _ _ hfreshp

/-- Rewriting a child list never makes an absent heap key appear. -/
theorem mapGet_setChildrenAt_nodes_fresh (s : ReplayState) (parentId : ParentId)
    (cs : List String) (id : String) (h : mapGet s.nodes id = none) :
    mapGet (setChildrenAt s parentId cs).nodes id = none := by
  cases parentId with
  | none => exact h
  | some pid =>
    simp only [setChildrenAt]
    cases hm : mapGet s.nodes pid with
    | none => exact h
    | some nd =>
      have hne : pid ≠ id := by
        intro hc
        rw [hc, h] at hm
        exact Option.noConfusion hm
      rw [mapGet_mapSet_ne _ _ _ _ hne]
      exact h

/-- Characterization of replaying the synthetic creation events: starting
from a state whose resolved sibling list for `parentId` is `L` of length
`idx` (the running `forEach` index) and in which every id of the forest `ns`
is fresh, the fold appends the top-level ids to that sibling list and the
depth-first heap entries of `ns` to the two maps. -/
theorem createCreation_replay :
    ∀ (ns : List PersistedBullet) (parentId : ParentId) (idx : Nat)
      (c : EmitClock) (s : ReplayState) (L : List String),
      (idsOfF ns).Nodup →
      (∀ id ∈ idsOfF ns, mapGet s.nodes id = none) →
      (∀ id ∈ idsOfF ns, mapGet s.parents id = none) →
      getChildren s parentId = some L →
      L.length = idx →
      List.foldl applyEvent s (createCreationEventsF ns parentId idx c).1 =
        bulkState s parentId L ns
  | [], parentId, idx, c, s, L, _, _, _, hL, _ => by
    rw [createCreationEventsF]
    simp only [List.foldl_nil]
    rw [bulkState]
    rw [show topIds [] = [] from rfl, List.append_nil,
      setChildrenAt_getChildren_self hL]
    rw [show entriesF [] = [] from rfl, show parentEntriesF parentId [] = [] from rfl]
    simp
  | .mk i cnt ctx cl ch ca cs :: rest, parentId, idx, c, s, L, h1, h2, h2p, hL, hlen => by
    have hidsUnfold :
        idsOfF (PersistedBullet.mk i cnt ctx cl ch ca cs :: rest) =
          (i :: idsOfF cs) ++ idsOfF rest := by
      rw [idsOfF, idsOfB]
    rw [hidsUnfold] at h1 h2 h2p
    have himem : i ∈ (i :: idsOfF cs) ++ idsOfF rest :=
      List.mem_append_left _ (List.mem_cons_self _ _)
    have hcsmem : ∀ id ∈ idsOfF cs, id ∈ (i :: idsOfF cs) ++ idsOfF rest :=
      fun id h => List.mem_append_left _ (List.mem_cons_of_mem _ h)
    have hrestmem : ∀ id ∈ idsOfF rest, id ∈ (i :: idsOfF cs) ++ idsOfF rest :=
      fun id h => List.mem_append_right _ h
    rw [List.nodup_append] at h1
    have hiNotCs : i ∉ idsOfF cs := (List.nodup_cons.mp h1.1).1
    have hnodupCs : (idsOfF cs).Nodup := (List.nodup_cons.mp h1.1).2
    have hnodupRest : (idsOfF rest).Nodup := h1.2.1
    have hiNotRest : i ∉ idsOfF rest := h1.2.2 (List.mem_cons_self _ _)
    have hcsNotRest : ∀ id ∈ idsOfF cs, id ∉ idsOfF rest :=
      fun id h => h1.2.2 (List.mem_cons_of_mem _ h)
    have hfresh : mapGet s.nodes i = none := h2 i himem
    have hfreshp : mapGet s.parents i = none := h2p i himem
    -- unfold the generated event list
    simp only [createCreationEventsF, createCreationEventsB,
      List.foldl_append, List.foldl_cons]
    rw [applyEvent_creation_fresh s i cnt ctx cl ch ca cs parentId idx
      ((c.tick).1) L hfresh hfreshp hL hlen]
    -- the state after the head creation event
    have hbaseFresh : ∀ id, mapGet s.nodes id = none →
        mapGet (setChildrenAt s parentId (L ++ [i])).nodes id = none :=
      fun id h => mapGet_setChildrenAt_nodes_fresh s parentId (L ++ [i]) id h
    have hAgetI : mapGet ((setChildrenAt s parentId (L ++ [i])).nodes ++
        [(i, (⟨cnt, ctx, cl, false, ca, []⟩ : NodeData))]) i =
        some ⟨cnt, ctx, cl, false, ca, []⟩ := by
      rw [mapGet_append_right _ _ _ (hbaseFresh i hfresh)]
      exact mapGet_cons_self _ _ _
    have IHcs := createCreation_replay cs (some i) 0 ((c.tick).2)
      ⟨(setChildrenAt s parentId (L ++ [i])).root,
        (setChildrenAt s parentId (L ++ [i])).nodes ++
          [(i, ⟨cnt, ctx, cl, false, ca, []⟩)],
        s.parents ++ [(i, parentId)]⟩ []
      hnodupCs
      (by
        intro id hid
        show mapGet ((setChildrenAt s parentId (L ++ [i])).nodes ++
          [(i, (⟨cnt, ctx, cl, false, ca, []⟩ : NodeData))]) id = none
        have hne : i ≠ id := fun hc => hiNotCs (hc ▸ hid)
        rw [mapGet_append_right _ _ _ (hbaseFresh id (h2 id (hcsmem id hid)))]
        rw [mapGet_cons_ne _ _ _ _ hne]
        rfl)
      (by
        intro id hid
        show mapGet (s.parents ++ [(i, parentId)]) id = none
        have hne : i ≠ id := fun hc => hiNotCs (hc ▸ hid)
        rw [mapGet_append_right _ _ _ (h2p id (hcsmem id hid))]
        rw [mapGet_cons_ne _ _ _ _ hne]
        rfl)
      (by
        show Option.map _ (mapGet ((setChildrenAt s parentId (L ++ [i])).nodes ++
          [(i, (⟨cnt, ctx, cl, false, ca, []⟩ : NodeData))]) i) = some []
        rw [hAgetI]
        rfl)
      rfl
    rw [IHcs]
    -- collapse the bulk state for the child forest
    have hbulkA :
        bulkState
          ⟨(setChildrenAt s parentId (L ++ [i])).root,
            (setChildrenAt s parentId (L ++ [i])).nodes ++
              [(i, ⟨cnt, ctx, cl, false, ca, []⟩)],
            s.parents ++ [(i, parentId)]⟩ (some i) [] cs =
        ⟨(setChildrenAt s parentId (L ++ [i])).root,
          (setChildrenAt s parentId (L ++ [i])).nodes ++
            entriesB (.mk i cnt ctx cl ch ca cs),
          s.parents ++ parentEntriesB parentId (.mk i cnt ctx cl ch ca cs)⟩ := by
      rw [bulkState, List.nil_append]
      rw [setChildrenAt_some_eq hAgetI]
      refine ReplayState.ext rfl ?_ ?_
      · show mapSet ((setChildrenAt s parentId (L ++ [i])).nodes ++
            [(i, (⟨cnt, ctx, cl, false, ca, []⟩ : NodeData))]) i
            ⟨cnt, ctx, cl, false, ca, topIds cs⟩ ++ entriesF cs = _
        rw [mapSet_append_right _ (hbaseFresh i hfresh)]
        rw [entriesB]
        simp [mapSet]
      · show (s.parents ++ [(i, parentId)]) ++ parentEntriesF (some i) cs = _
        rw [parentEntriesB]
        simp
    rw [hbulkA]
    -- process the remaining siblings from the collapsed state
    have hBgetPid : getChildren
        ⟨(setChildrenAt s parentId (L ++ [i])).root,
          (setChildrenAt s parentId (L ++ [i])).nodes ++
            entriesB (.mk i cnt ctx cl ch ca cs),
          s.parents ++ parentEntriesB parentId (.mk i cnt ctx cl ch ca cs)⟩
        parentId = some (L ++ [i]) := by
      cases hp : parentId with
      | none =>
        show some (setChildrenAt s none (L ++ [i])).root = some (L ++ [i])
        rfl
      | some pid =>
        rw [hp] at hL
        simp only [getChildren] at hL
        rcases Option.map_eq_some'.mp hL with ⟨ndp, hndp, hcp⟩
        show Option.map _ (mapGet ((setChildrenAt s (some pid) (L ++ [i])).nodes ++
          entriesB (.mk i cnt ctx cl ch ca cs)) pid) = some (L ++ [i])
        rw [setChildrenAt_some_eq hndp]
        show Option.map _ (mapGet (mapSet s.nodes pid { ndp with children := L ++ [i] } ++
          entriesB (.mk i cnt ctx cl ch ca cs)) pid) = some (L ++ [i])
        rw [mapGet_append_left _ _ _ _ (mapGet_mapSet_self s.nodes pid _)]
        rfl
    have hBfresh : ∀ id ∈ idsOfF rest, mapGet
        ((setChildrenAt s parentId (L ++ [i])).nodes ++
          entriesB (.mk i cnt ctx cl ch ca cs)) id = none := by
      intro id hid
      rw [mapGet_append_right _ _ _ (hbaseFresh id (h2 id (hrestmem id hid)))]
      apply mapGet_eq_none_of_not_mem_keys
      rw [keys_entriesB, idsOfB]
      intro hmem
      rcases List.mem_cons.mp hmem with hEq | hmem'
      · exact hiNotRest (hEq ▸ hid)
      · exact hcsNotRest id hmem' hid
    have hBfreshP : ∀ id ∈ idsOfF rest, mapGet
        (s.parents ++ parentEntriesB parentId (.mk i cnt ctx cl ch ca cs)) id =
          none := by
      intro id hid
      rw [mapGet_append_right _ _ _ (h2p id (hrestmem id hid))]
      apply mapGet_eq_none_of_not_mem_keys
      rw [keys_parentEntriesB, idsOfB]
      intro hmem
      rcases List.mem_cons.mp hmem with hEq | hmem'
      · exact hiNotRest (hEq ▸ hid)
      · exact hcsNotRest id hmem' hid
    have IHrest := createCreation_replay rest parentId (idx + 1)
      ((createCreationEventsF cs (some i) 0 ((c.tick).2)).2)
      ⟨(setChildrenAt s parentId (L ++ [i])).root,
        (setChildrenAt s parentId (L ++ [i])).nodes ++
          entriesB (.mk i cnt ctx cl ch ca cs),
        s.parents ++ parentEntriesB parentId (.mk i cnt ctx cl ch ca cs)⟩
      (L ++ [i])
      hnodupRest hBfresh hBfreshP hBgetPid (by simp [hlen])
    rw [IHrest]
    -- recombine into the bulk state for the whole forest
    rw [bulkState, bulkState]
    have htop : topIds (PersistedBullet.mk i cnt ctx cl ch ca cs :: rest) =
        i :: topIds rest := rfl
    rw [htop]
    have happ : L ++ i :: topIds rest = (L ++ [i]) ++ topIds rest := by simp
    rw [happ]
    refine ReplayState.ext ?_ ?_ ?_
    · cases hp : parentId with
      | none => rfl
      | some pid => simp only [setChildrenAt_root_some]
    · cases hp : parentId with
      | none =>
        show ((setChildrenAt s none (L ++ [i])).nodes ++
            entriesB (.mk i cnt ctx cl ch ca cs)) ++ entriesF rest =
          (setChildrenAt s none ((L ++ [i]) ++ topIds rest)).nodes ++
            entriesF (PersistedBullet.mk i cnt ctx cl ch ca cs :: rest)
        rw [entriesF]
        simp [setChildrenAt]
      | some pid =>
        rw [hp] at hL
        simp only [getChildren] at hL
        rcases Option.map_eq_some'.mp hL with ⟨ndp, hndp, hcp⟩
        have hndp2 : mapGet ((setChildrenAt s (some pid) (L ++ [i])).nodes ++
            entriesB (.mk i cnt ctx cl ch ca cs)) pid =
            some { ndp with children := L ++ [i] } := by
          rw [setChildrenAt_some_eq hndp]
          exact mapGet_append_left _ _ _ _ (mapGet_mapSet_self s.nodes pid _)
        rw [setChildrenAt_some_eq hndp2, setChildrenAt_some_eq hndp]
        simp only []
        rw [mapSet_append_left (entriesB (.mk i cnt ctx cl ch ca cs))
          (mapGet_mapSet_self s.nodes pid { ndp with children := L ++ [i] }),
          mapSet_mapSet, entriesF]
        simp [setChildrenAt_some_eq hndp]
    · show (s.parents ++ parentEntriesB parentId (.mk i cnt ctx cl ch ca cs)) ++
          parentEntriesF parentId rest =
        s.parents ++ parentEntriesF parentId (PersistedBullet.mk i cnt ctx cl ch ca cs :: rest)
      rw [parentEntriesF]
      simp

mutual

/-- Materializing an id whose depth-first entries all resolve in the heap
rebuilds the tree, with `checked` cleared. -/
theorem nodeAt_entries : ∀ (fuel : Nat) (b : PersistedBullet) (σ : ReplayState),
    heightB b < fuel →
    (∀ e ∈ entriesB b, mapGet σ.nodes e.1 = some e.2) →
    nodeAt fuel σ b.id = some (clearCheckedB b)
  | 0, b, _, hh, _ => absurd hh (Nat.not_lt_zero _)
  | fuel + 1, .mk i cnt ctx cl ch ca cs, σ, hh, he => by
    have hhead : mapGet σ.nodes i =
        some ⟨cnt, ctx, cl, false, ca, topIds cs⟩ := by
      have hmem : ((i, (⟨cnt, ctx, cl, false, ca, topIds cs⟩ : NodeData))) ∈
          entriesB (.mk i cnt ctx cl ch ca cs) := by
        rw [entriesB]
        exact List.mem_cons_self _ _
      exact he _ hmem
    rw [show (PersistedBullet.mk i cnt ctx cl ch ca cs).id = i from rfl]
    rw [nodeAt, hhead, Option.map_some']
    rw [clearCheckedB]
    have hch2 : (topIds cs).filterMap (nodeAt fuel σ) = clearCheckedF cs := by
      apply filterMap_nodeAt_entries fuel cs σ
      · have : heightB (.mk i cnt ctx cl ch ca cs) = heightF cs + 1 := rfl
        omega
      · intro e hecs
        apply he
        rw [entriesB]
        exact List.mem_cons_of_mem _ hecs
    rw [hch2]

theorem filterMap_nodeAt_entries : ∀ (fuel : Nat) (ns : List PersistedBullet)
    (σ : ReplayState),
    heightF ns < fuel →
    (∀ e ∈ entriesF ns, mapGet σ.nodes e.1 = some e.2) →
    (topIds ns).filterMap (nodeAt fuel σ) = clearCheckedF ns
  | _, [], _, _, _ => rfl
  | fuel, b :: rest, σ, hh, he => by
    have hmax : heightB b < fuel ∧ heightF rest < fuel := by
      rw [heightF] at hh
      omega
    rw [show topIds (b :: rest) = b.id :: topIds rest from rfl,
      List.filterMap_cons]
    rw [nodeAt_entries fuel b σ hmax.1 (by
      intro e heb
      apply he
      rw [entriesF]
      exact List.mem_append_left _ heb)]
    rw [filterMap_nodeAt_entries fuel rest σ hmax.2 (by
      intro e her
      apply he
      rw [entriesF]
      exact List.mem_append_right _ her)]
    rw [clearCheckedF]

end

/-- C3 (amended): replaying `createCreationEvents(T, null)` reconstructs `T`
with every `checked` flag reset to `false` — ids, content, context,
collapsed, createdAt and child order are all restored, but the creation
payload has no `checked` field and `ensureNode` hard-codes `checked: false`,
so a checked bullet comes back unchecked.  In particular the forest is
reconstructed exactly whenever no bullet of `T` is checked. -/
theorem claim_C3_amended (T : List PersistedBullet) (c : EmitClock)
    (h : (idsOfF T).Nodup) :
    replayEvents (createCreationEvents T none c).1 = clearCheckedF T ∧
    (checkedFreeF T → replayEvents (createCreationEvents T none c).1 = T) := by
  have hfold :
      List.foldl applyEvent ReplayState.initial
        (createCreationEventsF T none 0 c).1 =
      bulkState ReplayState.initial none [] T :=
    createCreation_replay T none 0 c ReplayState.initial [] h
      (fun _ _ => rfl) (fun _ _ => rfl) rfl rfl
  have hstate : bulkState ReplayState.initial none [] T =
      ⟨topIds T, entriesF T, parentEntriesF none T⟩ := by
    rw [bulkState]
    refine ReplayState.ext ?_ ?_ ?_ <;> simp [setChildrenAt, ReplayState.initial]
  have hmain : replayEvents (createCreationEvents T none c).1 = clearCheckedF T := by
    rw [replayEvents, createCreationEvents, hfold, hstate]
    apply filterMap_nodeAt_entries
    · exact Nat.lt_succ_of_le (heightF_le_length_entriesF T)
    · intro e he
      apply mapGet_of_mem_of_nodup _ he
      rw [keys_entriesF]
      exact h
  refine ⟨hmain, fun hcf => ?_⟩
  rw [hmain]
  exact clearCheckedF_of_checkedFree T hcf

/-- Counterexample to C3 as stated: a single checked bullet does not round
trip — the replayed node has `checked = false`. -/
theorem claim_C3_counterexample :
    replayEvents
        (createCreationEvents [PersistedBullet.mk "a" "" "" false true 0 []]
          none ⟨fun _ => 0, 0, 0⟩).1 ≠
      [PersistedBullet.mk "a" "" "" false true 0 []] := by
  decide

/-- Witness for the amended C3 at a concrete two-level checked tree. -/
theorem claim_C3_amended_witness :
    replayEvents
        (createCreationEvents
          [PersistedBullet.mk "a" "A" "" false true 5
            [PersistedBullet.mk "b" "B" "n" true false 6 []]]
          none ⟨fun k => 100 + k, 0, 0⟩).1 =
      [PersistedBullet.mk "a" "A" "" false false 5
        [PersistedBullet.mk "b" "B" "n" true false 6 []]] := by
  have h := (claim_C3_amended
    [PersistedBullet.mk "a" "A" "" false true 5
      [PersistedBullet.mk "b" "B" "n" true false 6 []]]
    ⟨fun k => 100 + k, 0, 0⟩ (by decide)).1
  exact h.trans (by decide)

/-! ## Claim C10: a `bullet_created` event with an unresolvable parent

An id can occur in three places of the replay state: the root list, the
child lists inside heap entries, and the two maps.  `notInTree x s` says `x`
occurs in none of the lists and has no parent entry; `orphanInv x s`
additionally records that `x` is registered in the node map (this is exactly
the state `ensureNode` leaves behind when `insertNode` finds no parent:
`nodes.set` has already run, the insertion has not). -/

def notInTree (x : String) (s : ReplayState) : Prop :=
  x ∉ s.root ∧ (∀ e ∈ s.nodes, x ∉ e.2.children) ∧ mapGet s.parents x = none

def orphanInv (x : String) (s : ReplayState) : Prop :=
  (mapGet s.nodes x).isSome ∧ notInTree x s

def unknownIn (x : String) (s : ReplayState) : Prop :=
  mapGet s.nodes x = none ∧ notInTree x s

/-- The id a `bullet_created` event would register, if any. -/
def createdIdOf (e : EventRecord) : Option String :=
  match e.type, e.payload with
  | .bullet_created, .plain (.created q) => some q.id
  | _, _ => none

theorem mem_insertIdx_imp {α : Type} {y a : α} :
    ∀ {n : Nat} {l : List α}, y ∈ List.insertIdx n a l → y = a ∨ y ∈ l
  | 0, l, h => by
    rw [List.insertIdx_zero] at h
    exact List.mem_cons.mp h
  | n + 1, [], h => by
    rw [List.insertIdx_succ_nil] at h
    simp at h
  | n + 1, b :: l, h => by
    rw [List.insertIdx_succ_cons] at h
    rcases List.mem_cons.mp h with h | h
    · right; exact h ▸ List.mem_cons_self _ _
    · rcases mem_insertIdx_imp h with h | h
      · left; exact h
      · right; exact List.mem_cons_of_mem _ h

theorem findIdx?_eq_none_of_not_mem {x : String} {l : List String}
    (h : x ∉ l) : l.findIdx? (· = x) = none := by
  rw [List.findIdx?_eq_none_iff]
  intro y hy
  simp only [decide_eq_false_iff_not]
  exact fun hc => h (hc ▸ hy)

/-- Membership of a key makes the lookup succeed. -/
theorem mapGet_ne_none_of_mem {α : Type} {m : List (String × α)}
    {e : String × α} (he : e ∈ m) : mapGet m e.1 ≠ none := by
  induction m with
  | nil => simp at he
  | cons e0 rest ih =>
    rcases List.mem_cons.mp he with h0 | h0
    · subst h0
      rw [mapGet_cons_self]
      exact fun h => Option.noConfusion h
    · rcases e0 with ⟨a, v⟩
      by_cases hq : a = e.1
      · subst hq
        rw [mapGet_cons_self]
        exact fun h => Option.noConfusion h
      · rw [mapGet_cons_ne _ _ _ _ hq]
        exact ih h0

theorem mapGet_none_of_mapDelete {α : Type} {m : List (String × α)} {x k : String}
    (h : mapGet m x = none) : mapGet (mapDelete m k) x = none := by
  apply mapGet_eq_none_of_not_mem_keys
  intro hmem
  rcases List.mem_map.mp hmem with ⟨e, he, hx⟩
  exact mapGet_ne_none_of_mem (mem_of_mem_mapDelete he) (hx ▸ h)

theorem notInTree_setChildrenAt {x : String} {s : ReplayState}
    (parentId : ParentId) {cs : List String} (h : notInTree x s)
    (hx : x ∉ cs) : notInTree x (setChildrenAt s parentId cs) := by
  obtain ⟨hroot, hch, hpar⟩ := h
  cases parentId with
  | none => exact ⟨hx, hch, hpar⟩
  | some pid =>
    refine ⟨?_, ?_, ?_⟩
    · rw [setChildrenAt_root_some]; exact hroot
    · intro e he
      simp only [setChildrenAt] at he
      cases hm : mapGet s.nodes pid with
      | none =>
        rw [hm] at he
        exact hch e he
      | some nd =>
        rw [hm] at he
        rcases mem_of_mem_mapSet he with h0 | h0
        · exact hch e h0
        · subst h0
          exact hx
    · rw [setChildrenAt_parents]; exact hpar

theorem exists_entry_of_mapGet_some {α : Type} {m : List (String × α)}
    {k : String} {v : α} (h : mapGet m k = some v) :
    ∃ e ∈ m, e.1 = k ∧ e.2 = v := by
  rw [mapGet] at h
  rcases Option.map_eq_some'.mp h with ⟨e, he, hev⟩
  have hk : e.1 = k := by
    have := List.find?_some he
    simpa using this
  exact ⟨e, List.mem_of_find?_eq_some he, hk, hev⟩

/-- If `x` is in none of the lists of `s`, it is in no resolved sibling
list. -/
theorem not_mem_getChildren {x : String} {s : ReplayState}
    (h : notInTree x s) {parentId : ParentId} {sibs : List String}
    (hg : getChildren s parentId = some sibs) : x ∉ sibs := by
  cases hp : parentId with
  | none =>
    rw [hp] at hg
    simp only [getChildren, Option.some.injEq] at hg
    exact hg ▸ h.1
  | some pid =>
    rw [hp] at hg
    simp only [getChildren] at hg
    rcases Option.map_eq_some'.mp hg with ⟨nd, hnd, hc⟩
    rcases exists_entry_of_mapGet_some hnd with ⟨e, hmem, _, hev⟩
    have := h.2.1 e hmem
    rw [hev] at this
    rw [← hc]
    exact this

theorem notInTree_insertNode {x : String} {s : ReplayState} {nodeId : String}
    (parentId : ParentId) (index : Int) (h : notInTree x s) (hid : nodeId ≠ x) :
    notInTree x (insertNode s nodeId parentId index) := by
  cases hg : getChildren s parentId with
  | none =>
    rw [insertNode_of_getChildren_none _ _ _ _ hg]
    exact h
  | some sibs =>
    have hsibs : x ∉ sibs := not_mem_getChildren h hg
    rw [insertNode_eq s nodeId parentId index sibs hg]
    have hnotIns : x ∉ sibs.insertIdx ((max index 0).toNat.min sibs.length) nodeId := by
      intro hmem
      rcases mem_insertIdx_imp hmem with h0 | h0
      · exact hid h0.symm
      · exact hsibs h0
    have hafter := notInTree_setChildrenAt (x := x) (s := s) parentId h hnotIns
    obtain ⟨hroot, hch, hpar⟩ := hafter
    refine ⟨hroot, hch, ?_⟩
    show mapGet (mapSet (setChildrenAt s parentId _).parents nodeId parentId) x = none
    rw [mapGet_mapSet_ne _ _ _ _ hid]
    exact hpar

theorem notInTree_removeFromParent {x : String} {s s' : ReplayState}
    {id : String} (h : notInTree x s) (hr : removeFromParent s id = some s') :
    notInTree x s' := by
  rw [removeFromParent] at hr
  cases hg : getChildren s ((mapGet s.parents id).getD none) with
  | none =>
    simp only [hg] at hr
    exact Option.noConfusion hr
  | some sibs =>
    simp only [hg] at hr
    cases hi : sibs.findIdx? (· = id) with
    | none =>
      simp only [hi] at hr
      exact Option.noConfusion hr
    | some i =>
      simp only [hi, Option.some.injEq] at hr
      subst hr
      have hsibs : x ∉ sibs := not_mem_getChildren h hg
      exact notInTree_setChildrenAt _ h
        (fun hmem => hsibs (List.eraseIdx_subset _ _ hmem))

theorem mapGet_isSome_setChildrenAt {x : String} {s : ReplayState}
    (parentId : ParentId) (cs : List String)
    (h : (mapGet s.nodes x).isSome) :
    (mapGet (setChildrenAt s parentId cs).nodes x).isSome := by
  cases parentId with
  | none => exact h
  | some pid =>
    simp only [setChildrenAt]
    cases hm : mapGet s.nodes pid with
    | none => exact h
    | some nd =>
      by_cases hpx : pid = x
      · subst hpx
        rw [mapGet_mapSet_self]
        rfl
      · rw [mapGet_mapSet_ne _ _ _ _ hpx]
        exact h

theorem orphanInv_insertNode {x : String} {s : ReplayState} {nodeId : String}
    (parentId : ParentId) (index : Int) (h : orphanInv x s) (hid : nodeId ≠ x) :
    orphanInv x (insertNode s nodeId parentId index) := by
  obtain ⟨h1, hT⟩ := h
  refine ⟨?_, notInTree_insertNode parentId index hT hid⟩
  cases hg : getChildren s parentId with
  | none =>
    rw [insertNode_of_getChildren_none _ _ _ _ hg]
    exact h1
  | some sibs =>
    rw [insertNode_eq s nodeId parentId index sibs hg]
    exact mapGet_isSome_setChildrenAt parentId _ h1

theorem orphanInv_removeFromParent {x : String} {s s' : ReplayState}
    {id : String} (h : orphanInv x s) (hr : removeFromParent s id = some s') :
    orphanInv x s' := by
  obtain ⟨h1, hT⟩ := h
  refine ⟨?_, notInTree_removeFromParent hT hr⟩
  rw [removeFromParent] at hr
  cases hg : getChildren s ((mapGet s.parents id).getD none) with
  | none =>
    simp only [hg] at hr
    exact Option.noConfusion hr
  | some sibs =>
    simp only [hg] at hr
    cases hi : sibs.findIdx? (· = id) with
    | none =>
      simp only [hi] at hr
      exact Option.noConfusion hr
    | some i =>
      simp only [hi, Option.some.injEq] at hr
      subst hr
      exact mapGet_isSome_setChildrenAt _ _ h1

/-- `removeFromParent` cannot find a node that is in no sibling list. -/
theorem removeFromParent_of_notInTree {x : String} {s : ReplayState}
    (h : notInTree x s) : removeFromParent s x = none := by
  rw [removeFromParent, h.2.2]
  show (match getChildren s none with
    | none => none
    | some siblings =>
      match siblings.findIdx? (· = x) with
      | none => none
      | some i => some (setChildrenAt s none (siblings.eraseIdx i))) = none
  show (match s.root.findIdx? (· = x) with
    | none => none
    | some i => some (setChildrenAt s none (s.root.eraseIdx i))) = none
  rw [findIdx?_eq_none_of_not_mem h.1]

theorem notInTree_updateNodeData {x : String} {s : ReplayState} {id : String}
    {f : NodeData → NodeData} (h : notInTree x s)
    (hf : ∀ nd, (f nd).children = nd.children) :
    notInTree x (updateNodeData s id f) := by
  rw [updateNodeData]
  cases hm : mapGet s.nodes id with
  | none => exact h
  | some nd =>
    obtain ⟨hroot, hch, hpar⟩ := h
    refine ⟨hroot, ?_, hpar⟩
    intro e he
    rcases mem_of_mem_mapSet he with h0 | h0
    · exact hch e h0
    · subst h0
      show x ∉ (f nd).children
      rw [hf nd]
      rcases Option.map_eq_some'.mp
        (show (s.nodes.find? (fun e => e.1 = id)).map (·.2) = some nd from hm)
        with ⟨e0, he0, hev⟩
      have hmem : e0 ∈ s.nodes := List.mem_of_find?_eq_some he0
      have := hch e0 hmem
      rw [hev] at this
      exact this

theorem orphanInv_updateNodeData {x : String} {s : ReplayState} {id : String}
    {f : NodeData → NodeData} (h : orphanInv x s)
    (hf : ∀ nd, (f nd).children = nd.children) :
    orphanInv x (updateNodeData s id f) := by
  obtain ⟨h1, hT⟩ := h
  refine ⟨?_, notInTree_updateNodeData hT hf⟩
  rw [updateNodeData]
  cases hm : mapGet s.nodes id with
  | none => exact h1
  | some nd =>
    by_cases hix : id = x
    · subst hix
      show (mapGet (mapSet s.nodes id (f nd)) id).isSome
      rw [mapGet_mapSet_self]
      rfl
    · show (mapGet (mapSet s.nodes id (f nd)) x).isSome
      rw [mapGet_mapSet_ne _ _ _ _ hix]
      exact h1

theorem orphanInv_deleteSubtree (x : String) :
    ∀ (fuel : Nat) (s : ReplayState) (k : String),
      orphanInv x s → k ≠ x → orphanInv x (deleteSubtree fuel s k)
  | 0, _, _, h, _ => h
  | fuel + 1, s, k, h, hk => by
    obtain ⟨h1, hroot, hch, hpar⟩ := h
    rw [deleteSubtree]
    have hcs : ∀ c ∈ ((mapGet s.nodes k).map (·.children)).getD [], c ≠ x := by
      cases hm : mapGet s.nodes k with
      | none => intro c hc; simp at hc
      | some nd =>
        intro c hc hcx
        simp only [Option.map_some', Option.getD_some] at hc
        rcases Option.map_eq_some'.mp
          (show (s.nodes.find? (fun e => e.1 = k)).map (·.2) = some nd from hm)
          with ⟨e0, he0, hev⟩
        have hmem : e0 ∈ s.nodes := List.mem_of_find?_eq_some he0
        have := hch e0 hmem
        rw [hev] at this
        exact this (hcx ▸ hc)
    have h1' : orphanInv x
        ⟨s.root, mapDelete s.nodes k, mapDelete s.parents k⟩ := by
      refine ⟨?_, hroot, ?_, ?_⟩
      · show (mapGet (mapDelete s.nodes k) x).isSome
        rw [mapGet_mapDelete_ne _ _ _ hk]
        exact h1
      · intro e he
        exact hch e (mem_of_mem_mapDelete he)
      · exact mapGet_none_of_mapDelete hpar
    have aux : ∀ (ids : List String) (t : ReplayState),
        orphanInv x t → (∀ c ∈ ids, c ≠ x) →
        orphanInv x (ids.foldl (deleteSubtree fuel) t) := by
      intro ids
      induction ids with
      | nil => intro t ht _; exact ht
      | cons c cs ih =>
        intro t ht hcs'
        rw [List.foldl_cons]
        exact ih _ (orphanInv_deleteSubtree x fuel t c ht
          (hcs' c (List.mem_cons_self _ _)))
          (fun d hd => hcs' d (List.mem_cons_of_mem _ hd))
    exact aux _ _ h1' hcs

theorem unknownIn_deleteSubtree (x : String) :
    ∀ (fuel : Nat) (s : ReplayState) (k : String),
      unknownIn x s → unknownIn x (deleteSubtree fuel s k)
  | 0, _, _, h => h
  | fuel + 1, s, k, h => by
    obtain ⟨h1, hroot, hch, hpar⟩ := h
    rw [deleteSubtree]
    have h1' : unknownIn x
        ⟨s.root, mapDelete s.nodes k, mapDelete s.parents k⟩ := by
      refine ⟨mapGet_none_of_mapDelete h1, hroot, ?_, mapGet_none_of_mapDelete hpar⟩
      intro e he
      exact hch e (mem_of_mem_mapDelete he)
    have aux : ∀ (ids : List String) (t : ReplayState),
        unknownIn x t → unknownIn x (ids.foldl (deleteSubtree fuel) t) := by
      intro ids
      induction ids with
      | nil => intro t ht; exact ht
      | cons c cs ih =>
        intro t ht
        rw [List.foldl_cons]
        exact ih _ (unknownIn_deleteSubtree x fuel t c ht)
    exact aux _ _ h1'

theorem unknownIn_insertNode {x : String} {s : ReplayState} {nodeId : String}
    (parentId : ParentId) (index : Int) (h : unknownIn x s) (hid : nodeId ≠ x) :
    unknownIn x (insertNode s nodeId parentId index) := by
  obtain ⟨h1, hT⟩ := h
  refine ⟨?_, notInTree_insertNode parentId index hT hid⟩
  cases hg : getChildren s parentId with
  | none =>
    rw [insertNode_of_getChildren_none _ _ _ _ hg]
    exact h1
  | some sibs =>
    rw [insertNode_eq s nodeId parentId index sibs hg]
    exact mapGet_setChildrenAt_nodes_fresh s parentId _ x h1

theorem unknownIn_removeFromParent {x : String} {s s' : ReplayState}
    {id : String} (h : unknownIn x s) (hr : removeFromParent s id = some s') :
    unknownIn x s' := by
  obtain ⟨h1, hT⟩ := h
  refine ⟨?_, notInTree_removeFromParent hT hr⟩
  rw [removeFromParent] at hr
  cases hg : getChildren s ((mapGet s.parents id).getD none) with
  | none =>
    simp only [hg] at hr
    exact Option.noConfusion hr
  | some sibs =>
    simp only [hg] at hr
    cases hi : sibs.findIdx? (· = id) with
    | none =>
      simp only [hi] at hr
      exact Option.noConfusion hr
    | some i =>
      simp only [hi, Option.some.injEq] at hr
      subst hr
      exact mapGet_setChildrenAt_nodes_fresh s _ _ x h1

theorem unknownIn_updateNodeData {x : String} {s : ReplayState} {id : String}
    {f : NodeData → NodeData} (h : unknownIn x s)
    (hf : ∀ nd, (f nd).children = nd.children) :
    unknownIn x (updateNodeData s id f) := by
  obtain ⟨h1, hT⟩ := h
  refine ⟨?_, notInTree_updateNodeData hT hf⟩
  rw [updateNodeData]
  cases hm : mapGet s.nodes id with
  | none => exact h1
  | some nd =>
    have hix : id ≠ x := by
      intro hc
      rw [hc, h1] at hm
      exact Option.noConfusion hm
    show mapGet (mapSet s.nodes id (f nd)) x = none
    rw [mapGet_mapSet_ne _ _ _ _ hix]
    exact h1

/-- The orphan invariant is preserved by replaying any further event: an id
registered in the node map but in no list can never re-enter a list. -/
theorem orphanInv_applyEvent (x : String) (s : ReplayState) (e : EventRecord)
    (h : orphanInv x s) : orphanInv x (applyEvent s e) := by
  obtain ⟨ty, pl, ts⟩ := e
  cases ty with
  | bullet_created =>
    cases pl with
    | encrypted iv data => exact h
    | plain p =>
      cases p <;> try exact h
      rename_i q
      show orphanInv x (ensureNode s q)
      rw [ensureNode]
      by_cases hknown : (mapGet s.nodes q.id).isSome
      · rw [if_pos hknown]
        exact h
      · rw [if_neg hknown]
        have hqx : q.id ≠ x := by
          intro hc
          rw [hc] at hknown
          exact hknown h.1
        have h1 : orphanInv x
            { s with nodes := (mapSet s.nodes q.id
                ⟨q.content, q.context, q.collapsed, false, q.createdAt, []⟩) } := by
          refine ⟨?_, h.2.1, ?_, h.2.2.2⟩
          · show (mapGet (mapSet s.nodes q.id _) x).isSome
            rw [mapGet_mapSet_ne _ _ _ _ hqx]
            exact h.1
          · intro e0 he0
            rcases mem_of_mem_mapSet he0 with h0 | h0
            · exact h.2.2.1 e0 h0
            · subst h0
              simp
        exact orphanInv_insertNode _ _ h1 hqx
  | bullet_deleted =>
    cases pl with
    | encrypted iv data => exact h
    | plain p =>
      cases p <;> try exact h
      rename_i id pid idx
      show orphanInv x (applyBulletDeleted s id)
      rw [applyBulletDeleted]
      cases hr : removeFromParent s id with
      | none => exact h
      | some s1 =>
        have hid : id ≠ x := by
          intro hc
          subst hc
          rw [removeFromParent_of_notInTree h.2] at hr
          exact Option.noConfusion hr
        exact orphanInv_deleteSubtree x _ s1 id
          (orphanInv_removeFromParent h hr) hid
  | bullet_moved =>
    cases pl with
    | encrypted iv data => exact h
    | plain p =>
      cases p <;> try exact h
      rename_i id pid fi ti
      show orphanInv x (applyMove s id pid ti)
      rw [applyMove]
      cases hr : removeFromParent s id with
      | none => exact h
      | some s1 =>
        have hid : id ≠ x := by
          intro hc
          subst hc
          rw [removeFromParent_of_notInTree h.2] at hr
          exact Option.noConfusion hr
        exact orphanInv_insertNode _ _ (orphanInv_removeFromParent h hr) hid
  | bullet_indented =>
    cases pl with
    | encrypted iv data => exact h
    | plain p =>
      cases p <;> try exact h
      rename_i id fp fi tp ti
      show orphanInv x (applyMove s id (some tp) ti)
      rw [applyMove]
      cases hr : removeFromParent s id with
      | none => exact h
      | some s1 =>
        have hid : id ≠ x := by
          intro hc
          subst hc
          rw [removeFromParent_of_notInTree h.2] at hr
          exact Option.noConfusion hr
        exact orphanInv_insertNode _ _ (orphanInv_removeFromParent h hr) hid
  | bullet_outdented =>
    cases pl with
    | encrypted iv data => exact h
    | plain p =>
      cases p <;> try exact h
      rename_i id fp fi tp ti
      show orphanInv x (applyMove s id tp ti)
      rw [applyMove]
      cases hr : removeFromParent s id with
      | none => exact h
      | some s1 =>
        have hid : id ≠ x := by
          intro hc
          subst hc
          rw [removeFromParent_of_notInTree h.2] at hr
          exact Option.noConfusion hr
        exact orphanInv_insertNode _ _ (orphanInv_removeFromParent h hr) hid
  | bullet_content_updated =>
    cases pl with
    | encrypted iv data => exact h
    | plain p =>
      cases p <;> try exact h
      rename_i id c0
      exact orphanInv_updateNodeData h (fun nd => rfl)
  | bullet_context_updated =>
    cases pl with
    | encrypted iv data => exact h
    | plain p =>
      cases p <;> try exact h
      rename_i id c0
      exact orphanInv_updateNodeData h (fun nd => rfl)
  | bullet_collapsed_updated =>
    cases pl with
    | encrypted iv data => exact h
    | plain p =>
      cases p <;> try exact h
      rename_i id c0
      exact orphanInv_updateNodeData h (fun nd => rfl)
  | bullet_checked_updated =>
    cases pl with
    | encrypted iv data => exact h
    | plain p =>
      cases p <;> try exact h
      rename_i id c0
      exact orphanInv_updateNodeData h (fun nd => rfl)
  | workspace_created => exact h
  | workspace_renamed => exact h
  | workspace_deleted => exact h

/-- An id that no event has created yet stays completely unknown as long as
no event creates it. -/
theorem unknownIn_applyEvent (x : String) (s : ReplayState) (e : EventRecord)
    (h : unknownIn x s) (hnc : createdIdOf e ≠ some x) :
    unknownIn x (applyEvent s e) := by
  obtain ⟨ty, pl, ts⟩ := e
  cases ty with
  | bullet_created =>
    cases pl with
    | encrypted iv data => exact h
    | plain p =>
      cases p <;> try exact h
      rename_i q
      have hqx : q.id ≠ x := by
        intro hc
        exact hnc ((show createdIdOf
          ⟨.bullet_created, .plain (.created q), ts⟩ = some q.id from rfl).trans
          (congrArg some hc))
      show unknownIn x (ensureNode s q)
      rw [ensureNode]
      by_cases hknown : (mapGet s.nodes q.id).isSome
      · rw [if_pos hknown]
        exact h
      · rw [if_neg hknown]
        have h1 : unknownIn x
            { s with nodes := (mapSet s.nodes q.id
                ⟨q.content, q.context, q.collapsed, false, q.createdAt, []⟩) } := by
          refine ⟨?_, h.2.1, ?_, h.2.2.2⟩
          · show mapGet (mapSet s.nodes q.id _) x = none
            rw [mapGet_mapSet_ne _ _ _ _ hqx]
            exact h.1
          · intro e0 he0
            rcases mem_of_mem_mapSet he0 with h0 | h0
            · exact h.2.2.1 e0 h0
            · subst h0
              simp
        exact unknownIn_insertNode _ _ h1 hqx
  | bullet_deleted =>
    cases pl with
    | encrypted iv data => exact h
    | plain p =>
      cases p <;> try exact h
      rename_i id pid idx
      show unknownIn x (applyBulletDeleted s id)
      rw [applyBulletDeleted]
      cases hr : removeFromParent s id with
      | none => exact h
      | some s1 =>
        exact unknownIn_deleteSubtree x _ s1 id (unknownIn_removeFromParent h hr)
  | bullet_moved =>
    cases pl with
    | encrypted iv data => exact h
    | plain p =>
      cases p <;> try exact h
      rename_i id pid fi ti
      show unknownIn x (applyMove s id pid ti)
      rw [applyMove]
      cases hr : removeFromParent s id with
      | none => exact h
      | some s1 =>
        have hid : id ≠ x := by
          intro hc
          subst hc
          rw [removeFromParent_of_notInTree h.2] at hr
          exact Option.noConfusion hr
        exact unknownIn_insertNode _ _ (unknownIn_removeFromParent h hr) hid
  | bullet_indented =>
    cases pl with
    | encrypted iv data => exact h
    | plain p =>
      cases p <;> try exact h
      rename_i id fp fi tp ti
      show unknownIn x (applyMove s id (some tp) ti)
      rw [applyMove]
      cases hr : removeFromParent s id with
      | none => exact h
      | some s1 =>
        have hid : id ≠ x := by
          intro hc
          subst hc
          rw [removeFromParent_of_notInTree h.2] at hr
          exact Option.noConfusion hr
        exact unknownIn_insertNode _ _ (unknownIn_removeFromParent h hr) hid
  | bullet_outdented =>
    cases pl with
    | encrypted iv data => exact h
    | plain p =>
      cases p <;> try exact h
      rename_i id fp fi tp ti
      show unknownIn x (applyMove s id tp ti)
      rw [applyMove]
      cases hr : removeFromParent s id with
      | none => exact h
      | some s1 =>
        have hid : id ≠ x := by
          intro hc
          subst hc
          rw [removeFromParent_of_notInTree h.2] at hr
          exact Option.noConfusion hr
        exact unknownIn_insertNode _ _ (unknownIn_removeFromParent h hr) hid
  | bullet_content_updated =>
    cases pl with
    | encrypted iv data => exact h
    | plain p =>
      cases p <;> try exact h
      rename_i id c0
      exact unknownIn_updateNodeData h (fun nd => rfl)
  | bullet_context_updated =>
    cases pl with
    | encrypted iv data => exact h
    | plain p =>
      cases p <;> try exact h
      rename_i id c0
      exact unknownIn_updateNodeData h (fun nd => rfl)
  | bullet_collapsed_updated =>
    cases pl with
    | encrypted iv data => exact h
    | plain p =>
      cases p <;> try exact h
      rename_i id c0
      exact unknownIn_updateNodeData h (fun nd => rfl)
  | bullet_checked_updated =>
    cases pl with
    | encrypted iv data => exact h
    | plain p =>
      cases p <;> try exact h
      rename_i id c0
      exact unknownIn_updateNodeData h (fun nd => rfl)
  | workspace_created => exact h
  | workspace_renamed => exact h
  | workspace_deleted => exact h

theorem orphanInv_foldl (x : String) (evs : List EventRecord) (s : ReplayState)
    (h : orphanInv x s) : orphanInv x (evs.foldl applyEvent s) := by
  induction evs generalizing s with
  | nil => exact h
  | cons e rest ih =>
    rw [List.foldl_cons]
    exact ih _ (orphanInv_applyEvent x s e h)

theorem unknownIn_foldl (x : String) (evs : List EventRecord) (s : ReplayState)
    (h : unknownIn x s) (hnc : ∀ e ∈ evs, createdIdOf e ≠ some x) :
    unknownIn x (evs.foldl applyEvent s) := by
  induction evs generalizing s with
  | nil => exact h
  | cons e rest ih =>
    rw [List.foldl_cons]
    exact ih _ (unknownIn_applyEvent x s e h (hnc e (List.mem_cons_self _ _)))
      (fun e0 he0 => hnc e0 (List.mem_cons_of_mem _ he0))

mutual

/-- A materialized tree rooted at an id other than `x` never contains `x`
when `x` occurs in no child list of the heap. -/
theorem nodeAt_no_orphan (x : String) :
    ∀ (fuel : Nat) (s : ReplayState),
      (∀ e ∈ s.nodes, x ∉ e.2.children) →
      ∀ (id : String), id ≠ x → ∀ b, nodeAt fuel s id = some b → x ∉ idsOfB b
  | 0, s, _, id, _, b, hb => by
    rw [nodeAt] at hb
    exact Option.noConfusion hb
  | fuel + 1, s, hcl, id, hne, b, hb => by
    rw [nodeAt] at hb
    cases hm : mapGet s.nodes id with
    | none =>
      rw [hm] at hb
      exact Option.noConfusion hb
    | some nd =>
      rw [hm, Option.map_some'] at hb
      injection hb with hb
      subst hb
      rw [idsOfB]
      intro hmem
      rcases List.mem_cons.mp hmem with hEq | hmem'
      · exact hne hEq.symm
      · have hcs : ∀ c ∈ nd.children, c ≠ x := by
          intro c hc hcx
          rcases exists_entry_of_mapGet_some hm with ⟨e0, hmem0, _, hev⟩
          have := hcl e0 hmem0
          rw [hev] at this
          exact this (hcx ▸ hc)
        exact filterMap_no_orphan x fuel s hcl nd.children hcs hmem'

theorem filterMap_no_orphan (x : String) :
    ∀ (fuel : Nat) (s : ReplayState),
      (∀ e ∈ s.nodes, x ∉ e.2.children) →
      ∀ (ids : List String), (∀ c ∈ ids, c ≠ x) →
      x ∉ idsOfF (ids.filterMap (nodeAt fuel s))
  | _, _, _, [], _ => by
    intro hmem
    simp [idsOfF] at hmem
  | fuel, s, hcl, c :: cs, hids => by
    rw [List.filterMap_cons]
    cases hc : nodeAt fuel s c with
    | none =>
      exact filterMap_no_orphan x fuel s hcl cs
        (fun d hd => hids d (List.mem_cons_of_mem _ hd))
    | some b =>
      show x ∉ idsOfF (b :: List.filterMap (nodeAt fuel s) cs)
      rw [idsOfF]
      intro hmem
      rcases List.mem_append.mp hmem with hmem' | hmem'
      · exact nodeAt_no_orphan x fuel s hcl c
          (hids c (List.mem_cons_self _ _)) b hc hmem'
      · exact filterMap_no_orphan x fuel s hcl cs
          (fun d hd => hids d (List.mem_cons_of_mem _ hd)) hmem'

end

/-- C10: a `bullet_created` event whose `parentId` names no node created so
far (the payload parent is neither a previously created id nor the id being
created) contributes no node to the replayed forest: the id is absent from
the result of `replayEvents`, whatever events follow. -/
theorem claim_C10 (pre post : List EventRecord) (q : CreatedPayload)
    (ts : Nat) (pid : String)
    (hpid : q.parentId = some pid)
    (hpidne : pid ≠ q.id)
    (hnew : ∀ e ∈ pre, createdIdOf e ≠ some q.id)
    (hparent :
      mapGet (pre.foldl applyEvent ReplayState.initial).nodes pid = none) :
    q.id ∉ idsOfF (replayEvents
      (pre ++ ⟨.bullet_created, .plain (.created q), ts⟩ :: post)) := by
  have hinit : unknownIn q.id ReplayState.initial := by
    refine ⟨rfl, ?_, ?_, rfl⟩
    · intro hmem
      simp [ReplayState.initial] at hmem
    · intro e he
      simp [ReplayState.initial] at he
  have hunk : unknownIn q.id (pre.foldl applyEvent ReplayState.initial) :=
    unknownIn_foldl q.id pre ReplayState.initial hinit hnew
  have hstep : applyEvent (pre.foldl applyEvent ReplayState.initial)
      ⟨.bullet_created, .plain (.created q), ts⟩ =
      { pre.foldl applyEvent ReplayState.initial with
        nodes := (mapSet (pre.foldl applyEvent ReplayState.initial).nodes q.id
          ⟨q.content, q.context, q.collapsed, false, q.createdAt, []⟩) } := by
    show ensureNode _ q = _
    rw [ensureNode]
    rw [if_neg (by simp [hunk.1])]
    apply insertNode_of_getChildren_none
    rw [hpid]
    simp only [getChildren]
    show Option.map _ (mapGet (mapSet _ q.id _) pid) = none
    rw [mapGet_mapSet_ne _ _ _ _ (Ne.symm hpidne), hparent]
    rfl
  have horph : orphanInv q.id (applyEvent
      (pre.foldl applyEvent ReplayState.initial)
      ⟨.bullet_created, .plain (.created q), ts⟩) := by
    rw [hstep]
    refine ⟨?_, hunk.2.1, ?_, hunk.2.2.2⟩
    · show (mapGet (mapSet _ q.id _) q.id).isSome
      rw [mapGet_mapSet_self]
      rfl
    · intro e0 he0
      rcases mem_of_mem_mapSet he0 with h0 | h0
      · exact hunk.2.2.1 e0 h0
      · subst h0
        simp
  have hfin : orphanInv q.id
      ((pre ++ ⟨.bullet_created, .plain (.created q), ts⟩ :: post).foldl
        applyEvent ReplayState.initial) := by
    rw [List.foldl_append, List.foldl_cons]
    exact orphanInv_foldl q.id post _ horph
  show q.id ∉ idsOfF
    ((((pre ++ ⟨.bullet_created, .plain (.created q), ts⟩ :: post).foldl
        applyEvent ReplayState.initial)).root.filterMap
      (nodeAt ((((pre ++ ⟨.bullet_created, .plain (.created q), ts⟩ :: post).foldl
        applyEvent ReplayState.initial)).nodes.length + 1)
        (((pre ++ ⟨.bullet_created, .plain (.created q), ts⟩ :: post).foldl
          applyEvent ReplayState.initial))))
  apply filterMap_no_orphan q.id _ _ hfin.2.2.1
  intro c hc hcx
  exact hfin.2.1 (hcx ▸ hc)

/-- Witness for C10: creating `x` under the unknown parent `ghost`, then a
later root bullet `y`, yields a forest in which `x` does not occur. -/
theorem claim_C10_witness :
    "x" ∉ idsOfF (replayEvents
      ([] ++ (⟨.bullet_created, .plain (.created
          ⟨"x", some "ghost", 0, "X", "", false, 1⟩), 1⟩ : EventRecord) ::
        [⟨.bullet_created, .plain (.created ⟨"y", none, 0, "Y", "", false, 2⟩), 2⟩])) :=
  claim_C10 [] [⟨.bullet_created, .plain (.created ⟨"y", none, 0, "Y", "", false, 2⟩), 2⟩]
    ⟨"x", some "ghost", 0, "X", "", false, 1⟩ 1 "ghost" rfl (by decide)
    (by intro e he; simp at he) rfl

/-! ## Claims C6/C7: document-store tree commands (`src/lib/store.ts`)

The mobx-state-tree `Bullet` model carries the same fields as
`PersistedBullet`; the in-memory forest is modelled as
`List PersistedBullet`.  `findBulletWithContext` performs a depth-first
search (check a node, then its subtree, then the next sibling); the
commands below fuse that search order with the mutation the action performs
on the found context, so each function rewrites the first DFS occurrence of
the id exactly as the source mutates the located nodes. -/

/-- Result of a fused search-and-rewrite: id not found anywhere, found but
the operation refuses (`return false` in the source), or the rewritten
forest. -/
inductive FindRes : Type where
  | notFound
  | fail
  | ok (l : List PersistedBullet)
  deriving DecidableEq

theorem sizeOf_children_lt (b : PersistedBullet) : sizeOf b.children < sizeOf b := by
  cases b with
  | mk i c x cl ch ca cs =>
    simp [PersistedBullet.children]

mutual

/-- `indentBullet` scan of a sibling list whose head is at index 0: a match
on the head fails (`index === 0`), otherwise the head's subtree is searched
and then the tail with the head as previous sibling. -/
def indentTop : List PersistedBullet → String → FindRes
  | [], _ => .notFound
  | .mk i c x cl ch ca cs :: rest, id =>
    if i = id then .fail
    else
      match indentTop cs id with
      | .ok cs' => .ok (.mk i c x cl ch ca cs' :: rest)
      | .fail => .fail
      | .notFound => indentAfter (.mk i c x cl ch ca cs) rest id
  termination_by l _ => sizeOf l
  decreasing_by
  all_goals simp
  all_goals omega

/-- Scan of the remaining siblings with `prev` the element just before the
list: a match detaches the node and appends it as the last child of
`prev` (`prevBullet.addChild(detach(bullet))`). -/
def indentAfter : PersistedBullet → List PersistedBullet → String → FindRes
  | _, [], _ => .notFound
  | prev, .mk i c x cl ch ca cs :: rest, id =>
    if i = id then
      .ok (prev.setChildren (prev.children ++ [.mk i c x cl ch ca cs]) :: rest)
    else
      match indentTop cs id with
      | .ok cs' => .ok (prev :: .mk i c x cl ch ca cs' :: rest)
      | .fail => .fail
      | .notFound =>
        match indentAfter (.mk i c x cl ch ca cs) rest id with
        | .ok l => .ok (prev :: l)
        | r => r
  termination_by _ l _ => sizeOf l
  decreasing_by
  all_goals simp
  all_goals omega

end

/-- `indentBullet`: `true` plus the new forest on success, `false` leaving
the forest untouched when the id is missing or is first among its
siblings. -/
def indentBullet (l : List PersistedBullet) (id : String) :
    Bool × List PersistedBullet :=
  match indentTop l id with
  | .ok l' => (true, l')
  | _ => (false, l)

/-- Search-and-rewrite result for `outdentBullet` inside a child list: the
`escape` case carries the list with the node detached plus the node itself,
to be reinserted by the owner's parent right after the owner
(`targetIndex = parentContext.index + 1`). -/
inductive ORes : Type where
  | notFound
  | ok (cs : List PersistedBullet)
  | escape (cs : List PersistedBullet) (moved : PersistedBullet)
  deriving DecidableEq

def outdentChildren : List PersistedBullet → String → ORes
  | [], _ => .notFound
  | .mk i c x cl ch ca cs :: rest, id =>
    if i = id then .escape rest (.mk i c x cl ch ca cs)
    else
      match outdentChildren cs id with
      | .ok cs' => .ok (.mk i c x cl ch ca cs' :: rest)
      | .escape cs' moved => .ok (.mk i c x cl ch ca cs' :: moved :: rest)
      | .notFound =>
        match outdentChildren rest id with
        | .ok l => .ok (.mk i c x cl ch ca cs :: l)
        | .escape l moved => .escape (.mk i c x cl ch ca cs :: l) moved
        | .notFound => .notFound
  termination_by l _ => sizeOf l
  decreasing_by
  all_goals simp
  all_goals omega

/-- `outdentBullet` scan of the root list: a top-level match fails (no
parent), an escape from a subtree inserts the moved node right after its
former parent. -/
def outdentTop : List PersistedBullet → String → FindRes
  | [], _ => .notFound
  | .mk i c x cl ch ca cs :: rest, id =>
    if i = id then .fail
    else
      match outdentChildren cs id with
      | .ok cs' => .ok (.mk i c x cl ch ca cs' :: rest)
      | .escape cs' moved => .ok (.mk i c x cl ch ca cs' :: moved :: rest)
      | .notFound =>
        match outdentTop rest id with
        | .ok l => .ok (.mk i c x cl ch ca cs :: l)
        | r => r
  termination_by l _ => sizeOf l
  decreasing_by
  all_goals simp

def outdentBullet (l : List PersistedBullet) (id : String) :
    Bool × List PersistedBullet :=
  match outdentTop l id with
  | .ok l' => (true, l')
  | _ => (false, l)

/-- The head of a sibling list has this id. -/
def headIs (l : List PersistedBullet) (id : String) : Bool :=
  match l with
  | [] => false
  | b :: _ => b.id = id

/-- Some (non-head) element of the list has this id: the node at `id` has a
previous sibling within this list. -/
def inTail (l : List PersistedBullet) (id : String) : Bool :=
  match l with
  | [] => false
  | _ :: rest => rest.any (fun b => b.id = id)

/-- Any top-level element of the list has this id. -/
def topAny (l : List PersistedBullet) (id : String) : Bool :=
  l.any (fun b => b.id = id)

mutual

def firstSibB : PersistedBullet → String → Bool
  | .mk _ _ _ _ _ _ cs, id => headIs cs id || firstSibF cs id

def firstSibF : List PersistedBullet → String → Bool
  | [], _ => false
  | b :: rest, id => firstSibB b id || firstSibF rest id

end

/-- The node with this id sits at index 0 of its sibling list. -/
def isFirstSibling (l : List PersistedBullet) (id : String) : Bool :=
  headIs l id || firstSibF l id

mutual

def prevSibB : PersistedBullet → String → Bool
  | .mk _ _ _ _ _ _ cs, id => inTail cs id || prevSibF cs id

def prevSibF : List PersistedBullet → String → Bool
  | [], _ => false
  | b :: rest, id => prevSibB b id || prevSibF rest id

end

/-- The node with this id has a previous sibling. -/
def hasPrevSibling (l : List PersistedBullet) (id : String) : Bool :=
  inTail l id || prevSibF l id


/-! Unfolding equations for the id lists, used throughout the C6 proofs. -/

theorem idsOfF_nil : idsOfF [] = [] := by rw [idsOfF]

theorem idsOfF_cons (b : PersistedBullet) (rest : List PersistedBullet) :
    idsOfF (b :: rest) = idsOfB b ++ idsOfF rest := by rw [idsOfF]

theorem idsOfB_mk (i c x : String) (cl ch : Bool) (ca : Int)
    (cs : List PersistedBullet) :
    idsOfB (.mk i c x cl ch ca cs) = i :: idsOfF cs := by rw [idsOfB]

/-- Splitting a `count ≤ 1` bound over an append: each side keeps the bound
and a hit on the left excludes the right. -/
theorem uniq_parts {id : String} {xs ys : List String}
    (h : (xs ++ ys).count id ≤ 1) :
    xs.count id ≤ 1 ∧ ys.count id ≤ 1 ∧ (id ∈ xs → id ∉ ys) := by
  rw [List.count_append] at h
  refine ⟨by omega, by omega, fun hx hy => ?_⟩
  have h1 : 0 < xs.count id := List.count_pos_iff.mpr hx
  have h2 : 0 < ys.count id := List.count_pos_iff.mpr hy
  omega

/-- A `count ≤ 1` bound on a forest splits over the head node's id, the
head's subtree and the remaining siblings. -/
theorem uniq_head {id i c x : String} {cl ch : Bool} {ca : Int}
    {cs rest : List PersistedBullet}
    (h : (idsOfF (.mk i c x cl ch ca cs :: rest)).count id ≤ 1) :
    (idsOfF cs).count id ≤ 1 ∧ (idsOfF rest).count id ≤ 1 ∧
      (id ∈ idsOfF cs → i ≠ id ∧ id ∉ idsOfF rest) ∧
      (id ∈ idsOfF rest → i ≠ id ∧ id ∉ idsOfF cs) ∧
      (i = id → id ∉ idsOfF cs ∧ id ∉ idsOfF rest) := by
  rw [idsOfF_cons, idsOfB_mk, List.count_append, List.count_cons] at h
  have hcs := fun hm => List.count_pos_iff.mpr (hm : id ∈ idsOfF cs)
  have hrest := fun hm => List.count_pos_iff.mpr (hm : id ∈ idsOfF rest)
  refine ⟨?_, ?_, fun hm => ⟨fun he => ?_, fun hr => ?_⟩,
    fun hm => ⟨fun he => ?_, fun hc => ?_⟩, fun he => ⟨fun hc => ?_, fun hr => ?_⟩⟩
  · have := hcs; omega
  · have := hrest; omega
  · have := hcs hm; simp [he] at h; omega
  · have := hcs hm; have := hrest hr; omega
  · have := hrest hm; simp [he] at h; omega
  · have := hrest hm; have := hcs hc; omega
  · have := hcs hc; simp [he] at h; omega
  · have := hrest hr; simp [he] at h; omega

/-! Membership facts for the position predicates: a positive test means the
id occurs in the forest. -/

theorem topAny_mem : ∀ (l : List PersistedBullet) (id : String),
    topAny l id = true → id ∈ idsOfF l := by
  intro l id h
  induction l with
  | nil => simp [topAny] at h
  | cons b rest ih =>
    cases b with
    | mk i c x cl ch ca cs =>
      simp [topAny] at h
      rw [idsOfF_cons, idsOfB_mk]
      rcases h with h | h
      · simp [h]
      · have := ih (by simpa [topAny] using h)
        simp [this]

theorem headIs_mem (l : List PersistedBullet) (id : String)
    (h : headIs l id = true) : id ∈ idsOfF l := by
  cases l with
  | nil => simp [headIs] at h
  | cons b rest =>
    cases b with
    | mk i c x cl ch ca cs =>
      simp [headIs] at h
      rw [idsOfF_cons, idsOfB_mk]
      simp [h]

theorem inTail_mem (l : List PersistedBullet) (id : String)
    (h : inTail l id = true) : id ∈ idsOfF l := by
  cases l with
  | nil => simp [inTail] at h
  | cons b rest =>
    have : id ∈ idsOfF rest := topAny_mem rest id (by simpa [inTail, topAny] using h)
    rw [idsOfF_cons]
    simp [this]

mutual

theorem prevSibB_mem : ∀ (b : PersistedBullet) (id : String),
    prevSibB b id = true → id ∈ idsOfB b
  | .mk i c x cl ch ca cs, id, h => by
    rw [prevSibB] at h
    rw [idsOfB_mk]
    rw [Bool.or_eq_true] at h
    rcases h with h | h
    · simp [inTail_mem cs id h]
    · simp [prevSibF_mem cs id h]

theorem prevSibF_mem : ∀ (l : List PersistedBullet) (id : String),
    prevSibF l id = true → id ∈ idsOfF l
  | [], id, h => by rw [prevSibF] at h; cases h
  | b :: rest, id, h => by
    rw [prevSibF] at h
    rw [idsOfF_cons]
    rw [Bool.or_eq_true] at h
    rcases h with h | h
    · simp [prevSibB_mem b id h]
    · simp [prevSibF_mem rest id h]

end

mutual

theorem firstSibB_mem : ∀ (b : PersistedBullet) (id : String),
    firstSibB b id = true → id ∈ idsOfB b
  | .mk i c x cl ch ca cs, id, h => by
    rw [firstSibB] at h
    rw [idsOfB_mk]
    rw [Bool.or_eq_true] at h
    rcases h with h | h
    · simp [headIs_mem cs id h]
    · simp [firstSibF_mem cs id h]

theorem firstSibF_mem : ∀ (l : List PersistedBullet) (id : String),
    firstSibF l id = true → id ∈ idsOfF l
  | [], id, h => by rw [firstSibF] at h; cases h
  | b :: rest, id, h => by
    rw [firstSibF] at h
    rw [idsOfF_cons]
    rw [Bool.or_eq_true] at h
    rcases h with h | h
    · simp [firstSibB_mem b id h]
    · simp [firstSibF_mem rest id h]

end

/-- A forest whose id list misses `id` tests negative at the top level. -/
theorem topAny_eq_false (l : List PersistedBullet) (id : String)
    (h : id ∉ idsOfF l) : topAny l id = false := by
  cases htop : topAny l id with
  | false => rfl
  | true => exact absurd (topAny_mem l id htop) h

/-- The indent scan reports `notFound` exactly when the id is absent from
the scanned forest (the previous-sibling argument is irrelevant). -/
theorem indent_notFound_aux :
    ∀ (n : Nat) (l : List PersistedBullet) (id : String), sizeOf l ≤ n →
      ((indentTop l id = .notFound ↔ id ∉ idsOfF l) ∧
       ∀ prev : PersistedBullet,
         (indentAfter prev l id = .notFound ↔ id ∉ idsOfF l)) := by
  intro n
  induction n with
  | zero =>
    intro l id h
    cases l with
    | nil => simp at h
    | cons b rest => simp at h
  | succ n ih =>
    intro l id h
    cases l with
    | nil =>
      constructor
      · rw [indentTop]; simp [idsOfF_nil]
      · intro prev; rw [indentAfter]; simp [idsOfF_nil]
    | cons b rest =>
      cases b with
      | mk i c x cl ch ca cs =>
        have hcs : sizeOf cs ≤ n := by simp at h; omega
        have hrest : sizeOf rest ≤ n := by simp at h; omega
        obtain ⟨ihT, ihA⟩ := ih cs id hcs
        obtain ⟨ihTr, ihAr⟩ := ih rest id hrest
        constructor
        · rw [indentTop]
          by_cases hid : i = id
          · rw [if_pos hid]
            simp [idsOfF_cons, idsOfB_mk, hid]
          · rw [if_neg hid]
            cases hcsr : indentTop cs id with
            | ok cs' =>
              have hmem : id ∈ idsOfF cs := by
                by_contra hmem
                rw [ihT.mpr hmem] at hcsr
                cases hcsr
              simp [idsOfF_cons, idsOfB_mk, hmem]
            | fail =>
              have hmem : id ∈ idsOfF cs := by
                by_contra hmem
                rw [ihT.mpr hmem] at hcsr
                cases hcsr
              simp [idsOfF_cons, idsOfB_mk, hmem]
            | notFound =>
              have hncs : id ∉ idsOfF cs := ihT.mp hcsr
              rw [ihAr (.mk i c x cl ch ca cs)]
              simp [idsOfF_cons, idsOfB_mk, hncs, Ne.symm hid]
        · intro prev
          rw [indentAfter]
          by_cases hid : i = id
          · rw [if_pos hid]
            simp [idsOfF_cons, idsOfB_mk, hid]
          · rw [if_neg hid]
            cases hcsr : indentTop cs id with
            | ok cs' =>
              have hmem : id ∈ idsOfF cs := by
                by_contra hmem
                rw [ihT.mpr hmem] at hcsr
                cases hcsr
              simp [idsOfF_cons, idsOfB_mk, hmem]
            | fail =>
              have hmem : id ∈ idsOfF cs := by
                by_contra hmem
                rw [ihT.mpr hmem] at hcsr
                cases hcsr
              simp [idsOfF_cons, idsOfB_mk, hmem]
            | notFound =>
              have hncs : id ∉ idsOfF cs := ihT.mp hcsr
              cases har : indentAfter (.mk i c x cl ch ca cs) rest id with
              | ok m =>
                have hmem : id ∈ idsOfF rest := by
                  by_contra hmem
                  rw [(ihAr _).mpr hmem] at har
                  cases har
                simp [idsOfF_cons, idsOfB_mk, hmem]
              | fail =>
                have hmem : id ∈ idsOfF rest := by
                  by_contra hmem
                  rw [(ihAr _).mpr hmem] at har
                  cases har
                simp [idsOfF_cons, idsOfB_mk, hmem]
              | notFound =>
                have hnr : id ∉ idsOfF rest := (ihAr _).mp har
                simp [idsOfF_cons, idsOfB_mk, hncs, hnr, Ne.symm hid]

/-- `indentTop` reports `notFound` exactly when the id is absent. -/
theorem indentTop_notFound_iff (l : List PersistedBullet) (id : String) :
    indentTop l id = .notFound ↔ id ∉ idsOfF l :=
  (indent_notFound_aux (sizeOf l) l id le_rfl).1

/-- `indentAfter` reports `notFound` exactly when the id is absent from the
scanned tail. -/
theorem indentAfter_notFound_iff (prev : PersistedBullet)
    (l : List PersistedBullet) (id : String) :
    indentAfter prev l id = .notFound ↔ id ∉ idsOfF l :=
  (indent_notFound_aux (sizeOf l) l id le_rfl).2 prev


/-- The outdent scan of a child list misses an absent id. -/
theorem outdentChildren_notFound_aux :
    ∀ (n : Nat) (l : List PersistedBullet) (id : String), sizeOf l ≤ n →
      id ∉ idsOfF l → outdentChildren l id = .notFound := by
  intro n
  induction n with
  | zero =>
    intro l id h
    cases l with
    | nil => simp at h
    | cons b rest => simp at h
  | succ n ih =>
    intro l id h hmem
    cases l with
    | nil => rw [outdentChildren]
    | cons b rest =>
      cases b with
      | mk i c x cl ch ca cs =>
        have hcs : sizeOf cs ≤ n := by simp at h; omega
        have hrest : sizeOf rest ≤ n := by simp at h; omega
        rw [idsOfF_cons, idsOfB_mk] at hmem
        simp only [List.mem_append, List.mem_cons, not_or] at hmem
        rw [outdentChildren, if_neg (fun he => hmem.1.1 he.symm)]
        rw [ih cs id hcs hmem.1.2, ih rest id hrest hmem.2]

theorem outdentChildren_notMem (l : List PersistedBullet) (id : String)
    (h : id ∉ idsOfF l) : outdentChildren l id = .notFound :=
  outdentChildren_notFound_aux (sizeOf l) l id le_rfl h

/-- Scanning a list whose final element is the target and whose prefix
misses the id detaches the final element. -/
theorem outdentChildren_append (xs : List PersistedBullet)
    (bb : PersistedBullet) (id : String) (hmem : id ∉ idsOfF xs)
    (hbb : bb.id = id) : outdentChildren (xs ++ [bb]) id = .escape xs bb := by
  induction xs with
  | nil =>
    cases bb with
    | mk i c x cl ch ca cs =>
      simp only [List.nil_append]
      rw [outdentChildren, if_pos (by simpa using hbb)]
  | cons hd tl ih =>
    cases hd with
    | mk i c x cl ch ca cs =>
      rw [idsOfF_cons, idsOfB_mk] at hmem
      simp only [List.mem_append, List.mem_cons, not_or] at hmem
      rw [List.cons_append, outdentChildren,
        if_neg (fun he => hmem.1.1 he.symm),
        outdentChildren_notMem cs id hmem.1.2, ih hmem.2]

/-- When the id is not at the top level of the forest, a successful
`outdentChildren` scan and the root-level `outdentTop` scan agree. -/
theorem outdentTop_of_children :
    ∀ (l : List PersistedBullet) (id : String) (r : List PersistedBullet),
      topAny l id = false → outdentChildren l id = .ok r →
      outdentTop l id = .ok r := by
  intro l
  induction l with
  | nil =>
    intro id r _ hoc
    rw [outdentChildren] at hoc
    cases hoc
  | cons b rest ih =>
    intro id r htop hoc
    cases b with
    | mk i c x cl ch ca cs =>
      simp [topAny] at htop
      rw [outdentChildren, if_neg htop.1] at hoc
      rw [outdentTop, if_neg htop.1]
      cases hcs : outdentChildren cs id with
      | ok cs' =>
        rw [hcs] at hoc
        have hoc2 : ORes.ok (PersistedBullet.mk i c x cl ch ca cs' :: rest) =
            ORes.ok r := hoc
        cases hoc2
        rfl
      | escape cs' mv =>
        rw [hcs] at hoc
        have hoc2 : ORes.ok
            (PersistedBullet.mk i c x cl ch ca cs' :: mv :: rest) =
              ORes.ok r := hoc
        cases hoc2
        rfl
      | notFound =>
        rw [hcs] at hoc
        cases hr : outdentChildren rest id with
        | ok l2 =>
          rw [hr] at hoc
          have hoc2 : ORes.ok (PersistedBullet.mk i c x cl ch ca cs :: l2) =
              ORes.ok r := hoc
          cases hoc2
          have hrec := ih id l2 (by simpa [topAny] using htop.2) hr
          show (match outdentTop rest id with
            | FindRes.ok l => FindRes.ok (PersistedBullet.mk i c x cl ch ca cs :: l)
            | r => r) = _
          rw [hrec]
        | escape l2 mv =>
          rw [hr] at hoc
          have hoc2 : ORes.escape (PersistedBullet.mk i c x cl ch ca cs :: l2) mv =
              ORes.ok r := hoc
          cases hoc2
        | notFound =>
          rw [hr] at hoc
          have hoc2 : ORes.notFound = ORes.ok r := hoc
          cases hoc2


/-- Round-trip: a successful indent is undone by the outdent scan, and the
indented forest has no top-level occurrence of the id.  The second
conjunct covers the tail scan: the rewritten `prev :: l` comes back
exactly. -/
theorem indent_roundtrip_aux :
    ∀ (n : Nat) (l : List PersistedBullet) (id : String), sizeOf l ≤ n →
      (∀ l', (idsOfF l).count id ≤ 1 → indentTop l id = .ok l' →
        outdentChildren l' id = .ok l ∧ topAny l' id = false) ∧
      (∀ (prev : PersistedBullet) (m : List PersistedBullet),
        (idsOfF l).count id ≤ 1 → prev.id ≠ id → id ∉ idsOfF prev.children →
        indentAfter prev l id = .ok m →
        outdentChildren m id = .ok (prev :: l) ∧ topAny m id = false) := by
  intro n
  induction n with
  | zero =>
    intro l id h
    cases l with
    | nil => simp at h
    | cons b rest => simp at h
  | succ n ih =>
    intro l id h
    cases l with
    | nil =>
      constructor
      · intro l' _ hok
        rw [indentTop] at hok
        cases hok
      · intro prev m _ _ _ hok
        rw [indentAfter] at hok
        cases hok
    | cons b rest =>
      cases b with
      | mk i c x cl ch ca cs =>
        have hcsz : sizeOf cs ≤ n := by simp at h; omega
        have hrz : sizeOf rest ≤ n := by simp at h; omega
        constructor
        · intro l' hcount hok
          obtain ⟨hc_cs, hc_rest, hin_cs, hin_rest, hin_i⟩ := uniq_head hcount
          rw [indentTop] at hok
          by_cases hid : i = id
          · rw [if_pos hid] at hok
            cases hok
          · rw [if_neg hid] at hok
            cases hcs : indentTop cs id with
            | ok cs' =>
              rw [hcs] at hok
              have hok2 : FindRes.ok
                  (PersistedBullet.mk i c x cl ch ca cs' :: rest) =
                    FindRes.ok l' := hok
              cases hok2
              have hmemcs : id ∈ idsOfF cs := by
                by_contra hm
                rw [(indentTop_notFound_iff cs id).mpr hm] at hcs
                cases hcs
              have hnr : id ∉ idsOfF rest := (hin_cs hmemcs).2
              obtain ⟨hrt, _⟩ := (ih cs id hcsz).1 cs' hc_cs hcs
              constructor
              · rw [outdentChildren, if_neg hid, hrt]
              · have h1 : topAny rest id = false := topAny_eq_false rest id hnr
                simp [topAny] at h1 ⊢
                exact ⟨hid, h1⟩
            | fail =>
              rw [hcs] at hok
              cases hok
            | notFound =>
              rw [hcs] at hok
              have hncs : id ∉ idsOfF cs := (indentTop_notFound_iff cs id).mp hcs
              exact (ih rest id hrz).2 (PersistedBullet.mk i c x cl ch ca cs) l'
                hc_rest (by simpa using hid) (by simpa using hncs) hok
        · intro prev m hcount hprev hprevc hok
          obtain ⟨hc_cs, hc_rest, hin_cs, hin_rest, hin_i⟩ := uniq_head hcount
          rw [indentAfter] at hok
          by_cases hid : i = id
          · rw [if_pos hid] at hok
            have hok2 : FindRes.ok
                (prev.setChildren (prev.children ++
                  [PersistedBullet.mk i c x cl ch ca cs]) :: rest) =
                  FindRes.ok m := hok
            cases hok2
            have hnr : id ∉ idsOfF rest := (hin_i hid).2
            cases prev with
            | mk pi pc px pcl pch pca pcs =>
              have hprev2 : pi ≠ id := by simpa using hprev
              have hprevc2 : id ∉ idsOfF pcs := by simpa using hprevc
              constructor
              · show outdentChildren (PersistedBullet.mk pi pc px pcl pch pca
                    (pcs ++ [PersistedBullet.mk i c x cl ch ca cs]) :: rest)
                    id = _
                rw [outdentChildren, if_neg hprev2,
                  outdentChildren_append pcs _ id hprevc2 (by simp [hid])]
              · have h1 : topAny rest id = false := topAny_eq_false rest id hnr
                show topAny _ id = false
                simp [topAny] at h1 ⊢
                exact ⟨hprev2, h1⟩
          · rw [if_neg hid] at hok
            cases hcs : indentTop cs id with
            | ok cs' =>
              rw [hcs] at hok
              have hok2 : FindRes.ok
                  (prev :: PersistedBullet.mk i c x cl ch ca cs' :: rest) =
                    FindRes.ok m := hok
              cases hok2
              have hmemcs : id ∈ idsOfF cs := by
                by_contra hm
                rw [(indentTop_notFound_iff cs id).mpr hm] at hcs
                cases hcs
              have hnr : id ∉ idsOfF rest := (hin_cs hmemcs).2
              obtain ⟨hrt, _⟩ := (ih cs id hcsz).1 cs' hc_cs hcs
              cases prev with
              | mk pi pc px pcl pch pca pcs =>
                have hprev2 : pi ≠ id := by simpa using hprev
                have hprevc2 : id ∉ idsOfF pcs := by simpa using hprevc
                constructor
                · rw [outdentChildren, if_neg hprev2,
                    outdentChildren_notMem pcs id hprevc2]
                  rw [outdentChildren, if_neg hid, hrt]
                · have h1 : topAny rest id = false := topAny_eq_false rest id hnr
                  show topAny _ id = false
                  simp [topAny] at h1 ⊢
                  exact ⟨hprev2, hid, h1⟩
            | fail =>
              rw [hcs] at hok
              cases hok
            | notFound =>
              rw [hcs] at hok
              have hncs : id ∉ idsOfF cs := (indentTop_notFound_iff cs id).mp hcs
              cases har : indentAfter (PersistedBullet.mk i c x cl ch ca cs)
                  rest id with
              | ok l2 =>
                rw [har] at hok
                have hok2 : FindRes.ok (prev :: l2) = FindRes.ok m := hok
                cases hok2
                obtain ⟨hrt, htop2⟩ := (ih rest id hrz).2
                  (PersistedBullet.mk i c x cl ch ca cs) l2 hc_rest
                  (by simpa using hid) (by simpa using hncs) har
                cases prev with
                | mk pi pc px pcl pch pca pcs =>
                  have hprev2 : pi ≠ id := by simpa using hprev
                  have hprevc2 : id ∉ idsOfF pcs := by simpa using hprevc
                  constructor
                  · rw [outdentChildren, if_neg hprev2,
                      outdentChildren_notMem pcs id hprevc2, hrt]
                  · show topAny _ id = false
                    simp [topAny] at htop2 ⊢
                    exact ⟨hprev2, htop2⟩
              | fail =>
                rw [har] at hok
                cases hok
              | notFound =>
                rw [har] at hok
                cases hok


theorem topAny_cons (b : PersistedBullet) (rest : List PersistedBullet)
    (id : String) :
    topAny (b :: rest) id = (decide (b.id = id) || topAny rest id) := by
  simp [topAny]

/-- A bullet that sits behind a previous sibling somewhere in the forest is
successfully indented by the scan. -/
theorem indent_success_aux :
    ∀ (n : Nat) (l : List PersistedBullet) (id : String), sizeOf l ≤ n →
      ((idsOfF l).count id ≤ 1 →
        (inTail l id = true ∨ prevSibF l id = true) →
        ∃ l', indentTop l id = .ok l') ∧
      (∀ prev : PersistedBullet, (idsOfF l).count id ≤ 1 →
        (topAny l id = true ∨ prevSibF l id = true) →
        ∃ m, indentAfter prev l id = .ok m) := by
  intro n
  induction n with
  | zero =>
    intro l id h
    cases l with
    | nil => simp at h
    | cons b rest => simp at h
  | succ n ih =>
    intro l id h
    cases l with
    | nil =>
      constructor
      · intro _ hcase
        rcases hcase with hcase | hcase
        · simp [inTail] at hcase
        · rw [prevSibF] at hcase
          cases hcase
      · intro prev _ hcase
        rcases hcase with hcase | hcase
        · simp [topAny] at hcase
        · rw [prevSibF] at hcase
          cases hcase
    | cons b rest =>
      cases b with
      | mk i c x cl ch ca cs =>
        have hcsz : sizeOf cs ≤ n := by simp at h; omega
        have hrz : sizeOf rest ≤ n := by simp at h; omega
        constructor
        · intro hcount hcase
          obtain ⟨hc_cs, hc_rest, hin_cs, hin_rest, hin_i⟩ := uniq_head hcount
          rcases hcase with hcase | hcase
          · have htop : topAny rest id = true := by
              rw [inTail] at hcase
              exact hcase
            have hmem : id ∈ idsOfF rest := topAny_mem rest id htop
            have hii : i ≠ id := (hin_rest hmem).1
            have hncs : id ∉ idsOfF cs := (hin_rest hmem).2
            obtain ⟨m, hm⟩ := (ih rest id hrz).2
              (PersistedBullet.mk i c x cl ch ca cs) hc_rest (Or.inl htop)
            refine ⟨m, ?_⟩
            rw [indentTop, if_neg hii, (indentTop_notFound_iff cs id).mpr hncs,
              hm]
          · rw [prevSibF, Bool.or_eq_true] at hcase
            rcases hcase with hcase | hcase
            · rw [prevSibB, Bool.or_eq_true] at hcase
              have hmem : id ∈ idsOfF cs := by
                rcases hcase with hcase | hcase
                · exact inTail_mem cs id hcase
                · exact prevSibF_mem cs id hcase
              have hii : i ≠ id := (hin_cs hmem).1
              obtain ⟨cs', hcs⟩ := (ih cs id hcsz).1 hc_cs
                (by rcases hcase with hcase | hcase
                    · exact Or.inl hcase
                    · exact Or.inr hcase)
              refine ⟨PersistedBullet.mk i c x cl ch ca cs' :: rest, ?_⟩
              rw [indentTop, if_neg hii, hcs]
            · have hmem : id ∈ idsOfF rest := prevSibF_mem rest id hcase
              have hii : i ≠ id := (hin_rest hmem).1
              have hncs : id ∉ idsOfF cs := (hin_rest hmem).2
              obtain ⟨m, hm⟩ := (ih rest id hrz).2
                (PersistedBullet.mk i c x cl ch ca cs) hc_rest (Or.inr hcase)
              refine ⟨m, ?_⟩
              rw [indentTop, if_neg hii,
                (indentTop_notFound_iff cs id).mpr hncs, hm]
        · intro prev hcount hcase
          obtain ⟨hc_cs, hc_rest, hin_cs, hin_rest, hin_i⟩ := uniq_head hcount
          rcases hcase with hcase | hcase
          · rw [topAny_cons, Bool.or_eq_true, decide_eq_true_eq] at hcase
            by_cases hii : i = id
            · refine ⟨prev.setChildren (prev.children ++
                [PersistedBullet.mk i c x cl ch ca cs]) :: rest, ?_⟩
              rw [indentAfter, if_pos hii]
            · have htop : topAny rest id = true := by
                rcases hcase with hcase | hcase
                · exact absurd (by simpa using hcase) hii
                · exact hcase
              have hmem : id ∈ idsOfF rest := topAny_mem rest id htop
              have hncs : id ∉ idsOfF cs := (hin_rest hmem).2
              obtain ⟨m, hm⟩ := (ih rest id hrz).2
                (PersistedBullet.mk i c x cl ch ca cs) hc_rest (Or.inl htop)
              refine ⟨prev :: m, ?_⟩
              rw [indentAfter, if_neg hii,
                (indentTop_notFound_iff cs id).mpr hncs, hm]
          · rw [prevSibF, Bool.or_eq_true] at hcase
            rcases hcase with hcase | hcase
            · rw [prevSibB, Bool.or_eq_true] at hcase
              have hmem : id ∈ idsOfF cs := by
                rcases hcase with hcase | hcase
                · exact inTail_mem cs id hcase
                · exact prevSibF_mem cs id hcase
              have hii : i ≠ id := (hin_cs hmem).1
              obtain ⟨cs', hcs⟩ := (ih cs id hcsz).1 hc_cs
                (by rcases hcase with hcase | hcase
                    · exact Or.inl hcase
                    · exact Or.inr hcase)
              refine ⟨prev :: PersistedBullet.mk i c x cl ch ca cs' :: rest, ?_⟩
              rw [indentAfter, if_neg hii, hcs]
            · have hmem : id ∈ idsOfF rest := prevSibF_mem rest id hcase
              have hii : i ≠ id := (hin_rest hmem).1
              have hncs : id ∉ idsOfF cs := (hin_rest hmem).2
              obtain ⟨m, hm⟩ := (ih rest id hrz).2
                (PersistedBullet.mk i c x cl ch ca cs) hc_rest (Or.inr hcase)
              refine ⟨prev :: m, ?_⟩
              rw [indentAfter, if_neg hii,
                (indentTop_notFound_iff cs id).mpr hncs, hm]

/-- A bullet that sits first in its sibling list makes the indent scan
refuse (`index === 0` in the source). -/
theorem indent_first_aux :
    ∀ (n : Nat) (l : List PersistedBullet) (id : String), sizeOf l ≤ n →
      ((idsOfF l).count id ≤ 1 →
        (headIs l id = true ∨ firstSibF l id = true) →
        indentTop l id = .fail) ∧
      (∀ prev : PersistedBullet, (idsOfF l).count id ≤ 1 →
        firstSibF l id = true → indentAfter prev l id = .fail) := by
  intro n
  induction n with
  | zero =>
    intro l id h
    cases l with
    | nil => simp at h
    | cons b rest => simp at h
  | succ n ih =>
    intro l id h
    cases l with
    | nil =>
      constructor
      · intro _ hcase
        rcases hcase with hcase | hcase
        · simp [headIs] at hcase
        · rw [firstSibF] at hcase
          cases hcase
      · intro prev _ hcase
        rw [firstSibF] at hcase
        cases hcase
    | cons b rest =>
      cases b with
      | mk i c x cl ch ca cs =>
        have hcsz : sizeOf cs ≤ n := by simp at h; omega
        have hrz : sizeOf rest ≤ n := by simp at h; omega
        constructor
        · intro hcount hcase
          obtain ⟨hc_cs, hc_rest, hin_cs, hin_rest, hin_i⟩ := uniq_head hcount
          rcases hcase with hcase | hcase
          · have hii : i = id := by simpa [headIs] using hcase
            rw [indentTop, if_pos hii]
          · rw [firstSibF, Bool.or_eq_true] at hcase
            rcases hcase with hcase | hcase
            · rw [firstSibB, Bool.or_eq_true] at hcase
              have hmem : id ∈ idsOfF cs := by
                rcases hcase with hcase | hcase
                · exact headIs_mem cs id hcase
                · exact firstSibF_mem cs id hcase
              have hii : i ≠ id := (hin_cs hmem).1
              have hf : indentTop cs id = .fail := (ih cs id hcsz).1 hc_cs
                (by rcases hcase with hcase | hcase
                    · exact Or.inl hcase
                    · exact Or.inr hcase)
              rw [indentTop, if_neg hii, hf]
            · have hmem : id ∈ idsOfF rest := firstSibF_mem rest id hcase
              have hii : i ≠ id := (hin_rest hmem).1
              have hncs : id ∉ idsOfF cs := (hin_rest hmem).2
              rw [indentTop, if_neg hii,
                (indentTop_notFound_iff cs id).mpr hncs]
              exact (ih rest id hrz).2 (PersistedBullet.mk i c x cl ch ca cs)
                hc_rest hcase
        · intro prev hcount hcase
          obtain ⟨hc_cs, hc_rest, hin_cs, hin_rest, hin_i⟩ := uniq_head hcount
          rw [firstSibF, Bool.or_eq_true] at hcase
          rcases hcase with hcase | hcase
          · rw [firstSibB, Bool.or_eq_true] at hcase
            have hmem : id ∈ idsOfF cs := by
              rcases hcase with hcase | hcase
              · exact headIs_mem cs id hcase
              · exact firstSibF_mem cs id hcase
            have hii : i ≠ id := (hin_cs hmem).1
            have hf : indentTop cs id = .fail := (ih cs id hcsz).1 hc_cs
              (by rcases hcase with hcase | hcase
                  · exact Or.inl hcase
                  · exact Or.inr hcase)
            rw [indentAfter, if_neg hii, hf]
          · have hmem : id ∈ idsOfF rest := firstSibF_mem rest id hcase
            have hii : i ≠ id := (hin_rest hmem).1
            have hncs : id ∉ idsOfF cs := (hin_rest hmem).2
            have hf := (ih rest id hrz).2 (PersistedBullet.mk i c x cl ch ca cs)
              hc_rest hcase
            rw [indentAfter, if_neg hii,
              (indentTop_notFound_iff cs id).mpr hncs, hf]


/-- **C6.** Under the tree invariant that the id occurs at most once in the
forest: a bullet with a previous sibling is indented successfully
(`indentBullet` returns `true`), and outdenting it afterwards restores the
original forest exactly — the bullet is back under its original parent at
its original index, immediately after its former previous sibling; and
`indentBullet` on a bullet that is first among its siblings returns `false`
and leaves the forest unchanged. -/
theorem claim_C6 (l : List PersistedBullet) (id : String)
    (hu : (idsOfF l).count id ≤ 1) :
    (hasPrevSibling l id = true →
      ∃ l', indentBullet l id = (true, l') ∧
        outdentBullet l' id = (true, l)) ∧
    (isFirstSibling l id = true → indentBullet l id = (false, l)) := by
  constructor
  · intro hp
    rw [hasPrevSibling, Bool.or_eq_true] at hp
    obtain ⟨l', hok⟩ := (indent_success_aux (sizeOf l) l id le_rfl).1 hu hp
    obtain ⟨hrt, htop⟩ :=
      (indent_roundtrip_aux (sizeOf l) l id le_rfl).1 l' hu hok
    have hot : outdentTop l' id = .ok l :=
      outdentTop_of_children l' id l htop hrt
    refine ⟨l', ?_, ?_⟩
    · rw [indentBullet, hok]
    · rw [outdentBullet, hot]
  · intro hf
    rw [isFirstSibling, Bool.or_eq_true] at hf
    have hfail : indentTop l id = .fail :=
      (indent_first_aux (sizeOf l) l id le_rfl).1 hu hf
    rw [indentBullet, hfail]

/-- Witness for C6 on the two-root forest `[a, b]` with target `b`. -/
theorem claim_C6_witness :
    (idsOfF [PersistedBullet.mk "a" "" "" false false 0 [],
      PersistedBullet.mk "b" "" "" false false 0 []]).count "b" ≤ 1 ∧
    ((hasPrevSibling [PersistedBullet.mk "a" "" "" false false 0 [],
        PersistedBullet.mk "b" "" "" false false 0 []] "b" = true →
      ∃ l', indentBullet [PersistedBullet.mk "a" "" "" false false 0 [],
          PersistedBullet.mk "b" "" "" false false 0 []] "b" = (true, l') ∧
        outdentBullet l' "b" =
          (true, [PersistedBullet.mk "a" "" "" false false 0 [],
            PersistedBullet.mk "b" "" "" false false 0 []])) ∧
     (isFirstSibling [PersistedBullet.mk "a" "" "" false false 0 [],
        PersistedBullet.mk "b" "" "" false false 0 []] "b" = true →
      indentBullet [PersistedBullet.mk "a" "" "" false false 0 [],
          PersistedBullet.mk "b" "" "" false false 0 []] "b" =
        (false, [PersistedBullet.mk "a" "" "" false false 0 [],
          PersistedBullet.mk "b" "" "" false false 0 []]))) :=
  ⟨by decide, claim_C6 _ "b" (by decide)⟩


/-! ## Claim C7: `deleteBullet` on the sole bullet of the zoom level

The mobx-state-tree store mutates `Bullet` instances in place; the pure
model rewrites the first occurrence (in `findBulletById` depth-first
order) of the mutated instance's id, which is the instance the store
located.  `generateBulletId()` and `Date.now()` are environment inputs and
enter as the `newId` / `now` parameters. -/

/-- The store state relevant to `deleteBullet`: the bullet forest and the
current zoom target. -/
structure BulletStore where
  bullets : List PersistedBullet
  zoomedBulletId : Option String

/-- Result record of `deleteBullet` (`newBulletId` is present only on the
auto-create paths). -/
structure DeleteResult where
  success : Bool
  hasChildren : Bool
  newBulletId : Option String

/-- The context record `findBulletWithContext` returns, with the parent
instance replaced by its id (`null` at root level). -/
structure FindCtx where
  bullet : PersistedBullet
  parentId : Option String
  index : Nat

mutual

/-- `findBulletById` on one bullet: the bullet itself, else its subtree. -/
def findByIdB : PersistedBullet → String → Option PersistedBullet
  | .mk i c x cl ch ca cs, z =>
    if i = z then some (.mk i c x cl ch ca cs) else findByIdF cs z

/-- `findBulletById(id, bullets)`: first match in depth-first order. -/
def findByIdF : List PersistedBullet → String → Option PersistedBullet
  | [], _ => none
  | b :: rest, z =>
    match findByIdB b z with
    | some r => some r
    | none => findByIdF rest z

end

mutual

/-- Rewrite with `f` the first bullet (in `findBulletById` order) whose id
is `z`: the pure counterpart of mutating the instance `findBulletById`
returned. -/
def updNodeB : PersistedBullet → String → (PersistedBullet → PersistedBullet) →
    Option PersistedBullet
  | .mk i c x cl ch ca cs, z, f =>
    if i = z then some (f (.mk i c x cl ch ca cs))
    else
      match updNodeF cs z f with
      | some cs' => some (.mk i c x cl ch ca cs')
      | none => none

def updNodeF : List PersistedBullet → String →
    (PersistedBullet → PersistedBullet) → Option (List PersistedBullet)
  | [], _, _ => none
  | b :: rest, z, f =>
    match updNodeB b z f with
    | some b' => some (b' :: rest)
    | none =>
      match updNodeF rest z f with
      | some rest' => some (b :: rest')
      | none => none

end

/-- `findBulletWithContext` (store.ts:338): depth-first scan carrying the
parent id and the index within the current sibling list. -/
def findCtxF : Option String → List PersistedBullet → Nat → String →
    Option FindCtx
  | _, [], _, _ => none
  | parent, .mk i c x cl ch ca cs :: rest, k, id =>
    if i = id then some ⟨.mk i c x cl ch ca cs, parent, k⟩
    else
      match findCtxF (some i) cs 0 id with
      | some r => some r
      | none => findCtxF parent rest (k + 1) id
  termination_by _ l _ _ => sizeOf l
  decreasing_by
  all_goals simp
  all_goals omega

/-- `Bullet.removeChild`: drop the first child with this id, if present
(`findIndex` then `splice(index, 1)`). -/
def removeChild (cs : List PersistedBullet) (id : String) :
    List PersistedBullet :=
  match cs.findIdx? (fun child => child.id = id) with
  | some k => cs.eraseIdx k
  | none => cs

/-- The bullet `createEmptyBullet` builds: empty content and context, no
children, fresh id and creation time. -/
def emptyBullet (newId : String) (now : Int) : PersistedBullet :=
  .mk newId "" "" false false now []

/-- The bullets visible at the current zoom level: the zoomed bullet's
children when zoomed, the root list otherwise. -/
def levelBullets (s : BulletStore) : List PersistedBullet :=
  match s.zoomedBulletId with
  | some z =>
    match findByIdF s.bullets z with
    | some zb => zb.children
    | none => []
  | none => s.bullets

/-- The fall-through branch of `deleteBullet` ("normal deletion"):
`parent.removeChild(bullet.id)` when a parent exists, else `findIndex` and
`splice` on the root list. -/
def normalDelete (s : BulletStore) (ctx : FindCtx) :
    DeleteResult × BulletStore :=
  match ctx.parentId with
  | some pid =>
    (⟨true, false, none⟩,
      { s with bullets := ((updNodeF s.bullets pid (fun p =>
          p.setChildren (removeChild p.children ctx.bullet.id))).getD
            s.bullets) })
  | none =>
    (⟨true, false, none⟩,
      { s with bullets :=
          (match s.bullets.findIdx? (fun bb => bb.id = ctx.bullet.id) with
           | some k => s.bullets.eraseIdx k
           | none => s.bullets) })

/-- `deleteBullet` (store.ts:1190): locate the bullet, bail out for a
children confirmation, then either the zoomed-sole-child branch, the
sole-root branch (both of which delete and auto-create one empty bullet
via `createEmptyBullet`) or normal deletion. -/
def deleteBullet (s : BulletStore) (bulletId : String)
    (skipConfirmation : Bool) (newId : String) (now : Int) :
    DeleteResult × BulletStore :=
  match findCtxF none s.bullets 0 bulletId with
  | none => (⟨false, false, none⟩, s)
  | some ctx =>
    if decide (0 < ctx.bullet.children.length) && !skipConfirmation then
      (⟨false, true, none⟩, s)
    else
      match s.zoomedBulletId with
      | some zid =>
        match findByIdF s.bullets zid with
        | some zb =>
          if decide (zb.children.length = 1) &&
              (match zb.children with
               | cb :: _ => decide (cb.id = bulletId)
               | [] => false) then
            let l1 := (updNodeF s.bullets zid (fun u =>
              u.setChildren (removeChild u.children bulletId))).getD s.bullets
            let l2 := (updNodeF l1 zid (fun u =>
              u.setChildren (u.children ++ [emptyBullet newId now]))).getD l1
            (⟨true, false, some newId⟩, { s with bullets := l2 })
          else normalDelete s ctx
        | none => normalDelete s ctx
      | none =>
        if decide (s.bullets.length = 1) &&
            (match s.bullets with
             | b0 :: _ => decide (b0.id = bulletId)
             | [] => false) then
          (⟨true, false, some newId⟩,
            { s with bullets :=
                (s.bullets.eraseIdx 0 ++ [emptyBullet newId now]) })
        else normalDelete s ctx

mutual

/-- A bullet occurs (as a subtree) in a tree. -/
def hasNodeB (t : PersistedBullet) : PersistedBullet → Prop
  | .mk i c x cl ch ca cs => t = .mk i c x cl ch ca cs ∨ hasNodeF t cs

/-- A bullet occurs (as a subtree) in a forest. -/
def hasNodeF (t : PersistedBullet) : List PersistedBullet → Prop
  | [] => False
  | b :: rest => hasNodeB t b ∨ hasNodeF t rest

end


theorem id_setChildren (u : PersistedBullet) (cs : List PersistedBullet) :
    (u.setChildren cs).id = u.id := by
  cases u
  rfl

theorem hasNodeB_self (t : PersistedBullet) : hasNodeB t t := by
  cases t with
  | mk i c x cl ch ca cs =>
    rw [hasNodeB]
    exact Or.inl rfl

mutual

theorem hasNodeB_id_mem : ∀ (t u : PersistedBullet),
    hasNodeB t u → t.id ∈ idsOfB u
  | t, .mk i c x cl ch ca cs, h => by
    rw [hasNodeB] at h
    rw [idsOfB_mk]
    rcases h with h | h
    · simp [h]
    · simp [hasNodeF_id_mem t cs h]

theorem hasNodeF_id_mem : ∀ (t : PersistedBullet) (l : List PersistedBullet),
    hasNodeF t l → t.id ∈ idsOfF l
  | t, [], h => by rw [hasNodeF] at h; cases h
  | t, b :: rest, h => by
    rw [hasNodeF] at h
    rw [idsOfF_cons]
    rcases h with h | h
    · simp [hasNodeB_id_mem t b h]
    · simp [hasNodeF_id_mem t rest h]

end

mutual

theorem hasNodeB_trans : ∀ (t u v : PersistedBullet),
    hasNodeB t u → hasNodeB u v → hasNodeB t v
  | t, u, .mk i c x cl ch ca cs, htu, huv => by
    rw [hasNodeB] at huv ⊢
    rcases huv with huv | huv
    · subst huv
      rw [hasNodeB] at htu
      exact htu
    · exact Or.inr (hasNodeF_trans t u cs htu huv)

theorem hasNodeF_trans : ∀ (t u : PersistedBullet)
    (l : List PersistedBullet), hasNodeB t u → hasNodeF u l → hasNodeF t l
  | t, u, [], _, hul => by rw [hasNodeF] at hul; cases hul
  | t, u, b :: rest, htu, hul => by
    rw [hasNodeF] at hul ⊢
    rcases hul with hul | hul
    · exact Or.inl (hasNodeB_trans t u b htu hul)
    · exact Or.inr (hasNodeF_trans t u rest htu hul)

end

mutual

theorem findByIdB_hasNode : ∀ (u : PersistedBullet) (z : String)
    (zb : PersistedBullet), findByIdB u z = some zb → hasNodeB zb u
  | .mk i c x cl ch ca cs, z, zb, h => by
    rw [findByIdB] at h
    rw [hasNodeB]
    by_cases hz : i = z
    · rw [if_pos hz] at h
      cases h
      exact Or.inl rfl
    · rw [if_neg hz] at h
      exact Or.inr (findByIdF_hasNode cs z zb h)

theorem findByIdF_hasNode : ∀ (l : List PersistedBullet) (z : String)
    (zb : PersistedBullet), findByIdF l z = some zb → hasNodeF zb l
  | [], z, zb, h => by rw [findByIdF] at h; cases h
  | b :: rest, z, zb, h => by
    rw [findByIdF] at h
    rw [hasNodeF]
    cases hb : findByIdB b z with
    | some r =>
      rw [hb] at h
      cases h
      exact Or.inl (findByIdB_hasNode b z zb hb)
    | none =>
      rw [hb] at h
      exact Or.inr (findByIdF_hasNode rest z zb h)

end

mutual

/-- Two distinct subtree occurrences carrying the same id force that id to
occur at least twice in the tree's id list. -/
theorem hasNodeB_two : ∀ (t t' u : PersistedBullet) (id : String),
    hasNodeB t u → hasNodeB t' u → t ≠ t' → t.id = id → t'.id = id →
    2 ≤ (idsOfB u).count id
  | t, t', .mk i c x cl ch ca cs, id, ht, ht', hne, hid, hid' => by
    rw [hasNodeB] at ht ht'
    rw [idsOfB_mk, List.count_cons]
    rcases ht with ht | ht
    · rcases ht' with ht' | ht'
      · exact absurd (ht.trans ht'.symm) hne
      · have h1 : id ∈ idsOfF cs := hid' ▸ hasNodeF_id_mem t' cs ht'
        have h2 : 0 < (idsOfF cs).count id := List.count_pos_iff.mpr h1
        have h3 : id = i := by rw [← hid, ht]; simp
        rw [if_pos (by simp [h3] : (i == id) = true)]
        omega
    · rcases ht' with ht' | ht'
      · have h1 : id ∈ idsOfF cs := hid ▸ hasNodeF_id_mem t cs ht
        have h2 : 0 < (idsOfF cs).count id := List.count_pos_iff.mpr h1
        have h3 : id = i := by rw [← hid', ht']; simp
        rw [if_pos (by simp [h3] : (i == id) = true)]
        omega
      · have := hasNodeF_two t t' cs id ht ht' hne hid hid'
        omega

theorem hasNodeF_two : ∀ (t t' : PersistedBullet)
    (l : List PersistedBullet) (id : String),
    hasNodeF t l → hasNodeF t' l → t ≠ t' → t.id = id → t'.id = id →
    2 ≤ (idsOfF l).count id
  | t, t', [], id, ht, _, _, _, _ => by rw [hasNodeF] at ht; cases ht
  | t, t', b :: rest, id, ht, ht', hne, hid, hid' => by
    rw [hasNodeF] at ht ht'
    rw [idsOfF_cons, List.count_append]
    rcases ht with ht | ht
    · rcases ht' with ht' | ht'
      · have := hasNodeB_two t t' b id ht ht' hne hid hid'
        omega
      · have h1 : 0 < (idsOfB b).count id :=
          List.count_pos_iff.mpr (hid ▸ hasNodeB_id_mem t b ht)
        have h2 : 0 < (idsOfF rest).count id :=
          List.count_pos_iff.mpr (hid' ▸ hasNodeF_id_mem t' rest ht')
        omega
    · rcases ht' with ht' | ht'
      · have h1 : 0 < (idsOfB b).count id :=
          List.count_pos_iff.mpr (hid' ▸ hasNodeB_id_mem t' b ht')
        have h2 : 0 < (idsOfF rest).count id :=
          List.count_pos_iff.mpr (hid ▸ hasNodeF_id_mem t rest ht)
        omega
      · have := hasNodeF_two t t' rest id ht ht' hne hid hid'
        omega

end

/-- `findBulletWithContext` finds something whenever the id occurs, and
whatever it reports is an occurrence in the forest carrying the id. -/
theorem findCtx_aux :
    ∀ (n : Nat) (l : List PersistedBullet), sizeOf l ≤ n →
      ∀ (parent : Option String) (k : Nat) (id : String),
        (id ∈ idsOfF l → (findCtxF parent l k id).isSome) ∧
        (∀ ctx, findCtxF parent l k id = some ctx →
          ctx.bullet.id = id ∧ hasNodeF ctx.bullet l) := by
  intro n
  induction n with
  | zero =>
    intro l hsz
    cases l with
    | nil => simp at hsz
    | cons b rest => simp at hsz
  | succ n ih =>
    intro l hsz
    cases l with
    | nil =>
      intro parent k id
      constructor
      · intro hmem
        rw [idsOfF_nil] at hmem
        cases hmem
      · intro ctx hctx
        rw [findCtxF] at hctx
        cases hctx
    | cons b rest =>
      cases b with
      | mk i c x cl ch ca cs =>
        have hcsz : sizeOf cs ≤ n := by simp at hsz; omega
        have hrz : sizeOf rest ≤ n := by simp at hsz; omega
        intro parent k id
        constructor
        · intro hmem
          rw [findCtxF]
          by_cases hid : i = id
          · rw [if_pos hid]
            rfl
          · rw [if_neg hid]
            rw [idsOfF_cons, idsOfB_mk] at hmem
            rcases List.mem_append.mp hmem with hmem | hmem
            · rcases List.mem_cons.mp hmem with hmem | hmem
              · exact absurd hmem.symm hid
              · have := (ih cs hcsz (some i) 0 id).1 hmem
                cases hcs : findCtxF (some i) cs 0 id with
                | some r => rfl
                | none => rw [hcs] at this; cases this
            · cases hcs : findCtxF (some i) cs 0 id with
              | some r => rfl
              | none => exact (ih rest hrz parent (k + 1) id).1 hmem
        · intro ctx hctx
          rw [findCtxF] at hctx
          by_cases hid : i = id
          · rw [if_pos hid] at hctx
            cases hctx
            refine ⟨hid, ?_⟩
            rw [hasNodeF]
            exact Or.inl (hasNodeB_self _)
          · rw [if_neg hid] at hctx
            cases hcs : findCtxF (some i) cs 0 id with
            | some r =>
              rw [hcs] at hctx
              cases hctx
              obtain ⟨h1, h2⟩ := (ih cs hcsz (some i) 0 id).2 ctx hcs
              refine ⟨h1, ?_⟩
              rw [hasNodeF]
              exact Or.inl (by rw [hasNodeB]; exact Or.inr h2)
            | none =>
              rw [hcs] at hctx
              obtain ⟨h1, h2⟩ := (ih rest hrz parent (k + 1) id).2 ctx hctx
              refine ⟨h1, ?_⟩
              rw [hasNodeF]
              exact Or.inr h2

mutual

/-- Where `findBulletById` finds nothing there is nothing to rewrite. -/
theorem updNodeB_none : ∀ (u : PersistedBullet) (z : String)
    (f : PersistedBullet → PersistedBullet),
    findByIdB u z = none → updNodeB u z f = none
  | .mk i c x cl ch ca cs, z, f, h => by
    rw [findByIdB] at h
    by_cases hz : i = z
    · rw [if_pos hz] at h
      cases h
    · rw [if_neg hz] at h
      rw [updNodeB, if_neg hz, updNodeF_none cs z f h]

theorem updNodeF_none : ∀ (l : List PersistedBullet) (z : String)
    (f : PersistedBullet → PersistedBullet),
    findByIdF l z = none → updNodeF l z f = none
  | [], z, f, _ => by rw [updNodeF]
  | b :: rest, z, f, h => by
    rw [findByIdF] at h
    cases hb : findByIdB b z with
    | some r => rw [hb] at h; cases h
    | none =>
      rw [hb] at h
      rw [updNodeF, updNodeB_none b z f hb, updNodeF_none rest z f h]

end

mutual

/-- Updating at an id that `findBulletById` resolves succeeds and, for an
id-preserving rewrite, the updated instance is what `findBulletById`
resolves afterwards. -/
theorem upd_of_findB : ∀ (u : PersistedBullet) (z : String)
    (f : PersistedBullet → PersistedBullet) (zb : PersistedBullet),
    (∀ v, (f v).id = v.id) → findByIdB u z = some zb →
    ∃ u', updNodeB u z f = some u' ∧ findByIdB u' z = some (f zb)
  | .mk i c x cl ch ca cs, z, f, zb, hf, h => by
    rw [findByIdB] at h
    by_cases hz : i = z
    · rw [if_pos hz] at h
      cases h
      refine ⟨f (.mk i c x cl ch ca cs), ?_, ?_⟩
      · rw [updNodeB, if_pos hz]
      · have hid : (f (PersistedBullet.mk i c x cl ch ca cs)).id = i := by
          rw [hf]
          rfl
        cases hfv : f (PersistedBullet.mk i c x cl ch ca cs) with
        | mk i2 c2 x2 cl2 ch2 ca2 cs2 =>
          rw [hfv] at hid
          rw [findByIdB, if_pos (by simpa using hid.trans hz)]
    · rw [if_neg hz] at h
      obtain ⟨cs', h1, h2⟩ := upd_of_findF cs z f zb hf h
      refine ⟨.mk i c x cl ch ca cs', ?_, ?_⟩
      · rw [updNodeB, if_neg hz, h1]
      · rw [findByIdB, if_neg hz]
        exact h2

theorem upd_of_findF : ∀ (l : List PersistedBullet) (z : String)
    (f : PersistedBullet → PersistedBullet) (zb : PersistedBullet),
    (∀ v, (f v).id = v.id) → findByIdF l z = some zb →
    ∃ l', updNodeF l z f = some l' ∧ findByIdF l' z = some (f zb)
  | [], z, f, zb, _, h => by rw [findByIdF] at h; cases h
  | b :: rest, z, f, zb, hf, h => by
    rw [findByIdF] at h
    cases hb : findByIdB b z with
    | some r =>
      rw [hb] at h
      cases h
      obtain ⟨b', h1, h2⟩ := upd_of_findB b z f zb hf hb
      refine ⟨b' :: rest, ?_, ?_⟩
      · rw [updNodeF, h1]
      · rw [findByIdF, h2]
    | none =>
      rw [hb] at h
      obtain ⟨rest', h1, h2⟩ := upd_of_findF rest z f zb hf h
      refine ⟨b :: rest', ?_, ?_⟩
      · rw [updNodeF, updNodeB_none b z f hb, h1]
      · rw [findByIdF, hb, h2]

end


theorem children_setChildren (u : PersistedBullet)
    (cs : List PersistedBullet) : (u.setChildren cs).children = cs := by
  cases u
  rfl

/-- **C7.** Deleting the only bullet at the current zoom level — the sole
child of the zoomed bullet when zoomed, the sole root bullet otherwise —
succeeds, and afterwards exactly one bullet exists at that level: the
freshly auto-created empty bullet.  (The call must get past the
children-confirmation gate: confirmation skipped or no children; the
bullet id is unique in the forest, the store's tree invariant.) -/
theorem claim_C7 (s : BulletStore) (b : PersistedBullet)
    (bid newId : String) (now : Int) (skip : Bool)
    (hlevel : levelBullets s = [b])
    (hbid : b.id = bid)
    (hcount : (idsOfF s.bullets).count bid ≤ 1)
    (hskip : skip = true ∨ b.children = []) :
    ∃ r s', deleteBullet s bid skip newId now = (r, s') ∧
      r.success = true ∧ levelBullets s' = [emptyBullet newId now] := by
  cases hz : s.zoomedBulletId with
  | none =>
    have hbul : s.bullets = [b] := by
      rw [levelBullets, hz] at hlevel
      exact hlevel
    cases b with
    | mk i c x cl ch ca cs =>
      have hib : i = bid := by simpa using hbid
      have hctx : findCtxF none s.bullets 0 bid =
          some ⟨.mk i c x cl ch ca cs, none, 0⟩ := by
        rw [hbul, findCtxF, if_pos hib]
      refine ⟨⟨true, false, some newId⟩,
        { s with bullets :=
            (s.bullets.eraseIdx 0 ++ [emptyBullet newId now]) }, ?_, rfl, ?_⟩
      · simp only [deleteBullet, hctx]
        rcases hskip with hskip | hskip
        · subst hskip
          simp [hz, hbul, hib]
        · simp only [PersistedBullet.children_mk] at hskip
          subst hskip
          simp [hz, hbul, hib]
      · rw [levelBullets]
        simp only [hz]
        simp [hbul, emptyBullet]
  | some z =>
    have hzb : ∃ zb, findByIdF s.bullets z = some zb ∧ zb.children = [b] := by
      simp only [levelBullets, hz] at hlevel
      cases hfz : findByIdF s.bullets z with
      | some zb =>
        rw [hfz] at hlevel
        exact ⟨zb, rfl, hlevel⟩
      | none =>
        rw [hfz] at hlevel
        simp at hlevel
    obtain ⟨zb, hfz, hzc⟩ := hzb
    have hnzb : hasNodeF zb s.bullets := findByIdF_hasNode _ _ _ hfz
    have hnb : hasNodeB b zb := by
      cases zb with
      | mk zi zc zx zcl zch zca zcs =>
        rw [hasNodeB]
        right
        rw [show zcs = [b] from by simpa using hzc, hasNodeF]
        exact Or.inl (hasNodeB_self b)
    have hnbf : hasNodeF b s.bullets := hasNodeF_trans b zb s.bullets hnb hnzb
    have hmem : bid ∈ idsOfF s.bullets :=
      hbid ▸ hasNodeF_id_mem b s.bullets hnbf
    have hsome :=
      (findCtx_aux (sizeOf s.bullets) s.bullets le_rfl none 0 bid).1 hmem
    cases hctx : findCtxF none s.bullets 0 bid with
    | none =>
      rw [hctx] at hsome
      cases hsome
    | some ctx =>
      obtain ⟨hcid, hcnode⟩ :=
        (findCtx_aux (sizeOf s.bullets) s.bullets le_rfl none 0 bid).2 ctx hctx
      have hcb : ctx.bullet = b := by
        by_contra hne
        have := hasNodeF_two ctx.bullet b s.bullets bid hcnode hnbf hne
          hcid hbid
        omega
      obtain ⟨l1, hu1, hf1⟩ := upd_of_findF s.bullets z
        (fun u => u.setChildren (removeChild u.children bid)) zb
        (fun v => id_setChildren v _) hfz
      obtain ⟨l2, hu2, hf2⟩ := upd_of_findF l1 z
        (fun u => u.setChildren (u.children ++ [emptyBullet newId now]))
        (zb.setChildren (removeChild zb.children bid))
        (fun v => id_setChildren v _) hf1
      refine ⟨⟨true, false, some newId⟩, { s with bullets := l2 }, ?_, rfl, ?_⟩
      · have hgate : (decide (0 < ctx.bullet.children.length) && !skip)
            = false := by
          rcases hskip with hskip | hskip
          · simp [hskip]
          · simp [hcb, hskip]
        have hcond : (decide (zb.children.length = 1) &&
            (match zb.children with
             | cb :: _ => decide (cb.id = bid)
             | [] => false)) = true := by
          rw [hzc]
          simp [hbid]
        simp only [deleteBullet, hctx, hgate, Bool.false_eq_true, if_false,
          hz, hfz, hcond, if_true]
        simp [hu1, hu2]
      · rw [levelBullets]
        simp only [hz]
        simp only [hf2]
        rw [children_setChildren, children_setChildren, hzc]
        have hrm : removeChild [b] bid = [] := by
          rw [removeChild]
          simp [List.findIdx?, hbid]
        rw [hrm]
        rfl


/-- Witness for C7: an unzoomed store holding the single root bullet
`a`. -/
theorem claim_C7_witness :
    (levelBullets ⟨[PersistedBullet.mk "a" "" "" false false 0 []], none⟩ =
      [PersistedBullet.mk "a" "" "" false false 0 []]) ∧
    ((PersistedBullet.mk "a" "" "" false false 0 []).id = "a") ∧
    ((idsOfF [PersistedBullet.mk "a" "" "" false false 0 []]).count "a"
      ≤ 1) ∧
    (false = true ∨
      (PersistedBullet.mk "a" "" "" false false 0 []).children = []) ∧
    (∃ r s',
      deleteBullet ⟨[PersistedBullet.mk "a" "" "" false false 0 []], none⟩
        "a" false "n" 5 = (r, s') ∧ r.success = true ∧
      levelBullets s' = [emptyBullet "n" 5]) :=
  ⟨rfl, rfl, by decide, Or.inr rfl,
    claim_C7 _ _ "a" "n" 5 false rfl rfl (by decide) (Or.inr rfl)⟩


/-! ## Claim C8: `listWorkspaces` ordering (`src/Home.tsx:655`)

`listWorkspaces` reads the raw workspace rows from IndexedDB, normalizes
them (`ensureWorkspaceId`, default name, numeric timestamps defaulting to
`Date.now()` resp. `createdAt`) and sorts the copy with
`(a, b) => a.createdAt - b.createdAt`.  `Date.now()` enters as the `now`
parameter and the raw rows as the `items` list (the store's `getAll`
result on the available-IndexedDB path).  JavaScript `Array.prototype.sort`
is stable, so the comparator sorts by `createdAt` alone and rows with
equal `createdAt` keep their relative order; the model uses a stable
insertion sort, which agrees with every stable sort under this
comparator. -/

/-- `WorkspaceRecord` (Home.tsx:290). -/
structure WorkspaceRecord where
  id : String
  name : String
  createdAt : Int
  updatedAt : Int
  deriving DecidableEq, Repr

/-- A raw IndexedDB row: every field may be missing or non-truthy
(`record?.id` guards), timestamps may be non-numeric (`typeof` guards). -/
structure RawRecord where
  id : Option String
  name : Option String
  createdAt : Option Int
  updatedAt : Option Int
  deriving DecidableEq, Repr

/-- `id.startsWith('w_')`, spelled on the character list so it
evaluates. -/
def hasWsTag (s : String) : Bool :=
  match s.data with
  | 'w' :: '_' :: _ => true
  | _ => false

/-- `ensureWorkspaceId` (event store id helpers): prepend `w_` unless
already present. -/
def ensureWorkspaceId (id : String) : String :=
  if hasWsTag id then id else "w_" ++ id

/-- A truthy string: present and non-empty (`record?.id ?` / `?.name ?`). -/
def truthy : Option String → Option String
  | some s => if s = "" then none else some s
  | none => none

/-- The per-row normalization inside `listWorkspaces`. -/
def normalizeRecord (now : Int) (r : RawRecord) : WorkspaceRecord :=
  let id := match truthy r.id with
    | some s => ensureWorkspaceId s
    | none => "w_default"
  let name := match truthy r.name with
    | some s => s
    | none => "Default"
  let createdAt := match r.createdAt with
    | some t => t
    | none => now
  let updatedAt := match r.updatedAt with
    | some t => t
    | none => createdAt
  ⟨id, name, createdAt, updatedAt⟩

/-- Stable insertion into a list: the new record goes after every record
with a strictly smaller `createdAt` and before the first with an equal or
larger one, preserving the relative order of equal keys. -/
def insertByCreatedAt (r : WorkspaceRecord) :
    List WorkspaceRecord → List WorkspaceRecord
  | [] => [r]
  | x :: xs =>
    if x.createdAt < r.createdAt then x :: insertByCreatedAt r xs
    else r :: x :: xs

/-- Stable sort by `createdAt`: the unique stable result of
`sort((a, b) => a.createdAt - b.createdAt)`. -/
def sortByCreatedAt : List WorkspaceRecord → List WorkspaceRecord
  | [] => []
  | r :: rest => insertByCreatedAt r (sortByCreatedAt rest)

/-- `listWorkspaces` on the IndexedDB-available path: normalize every raw
row, then sort the copy by `createdAt`. -/
def listWorkspaces (now : Int) (items : List RawRecord) :
    List WorkspaceRecord :=
  sortByCreatedAt (items.map (normalizeRecord now))

/-- Lexicographic comparison of strings by character code, the ordinary
"ordered by name" reading. -/
def strLeB : List Char → List Char → Bool
  | [], _ => true
  | _ :: _, [] => false
  | c :: cs, d :: ds =>
    if c.val < d.val then true
    else if d.val < c.val then false
    else strLeB cs ds

/-- The ordering the specification claims, between adjacent records:
`createdAt` ascending with ties broken by `name`. -/
def sortedByCreatedAtName : List WorkspaceRecord → Bool
  | [] => true
  | [_] => true
  | a :: b :: rest =>
    (decide (a.createdAt < b.createdAt) ||
      (decide (a.createdAt = b.createdAt) &&
        strLeB a.name.data b.name.data)) &&
    sortedByCreatedAtName (b :: rest)

theorem mem_insertByCreatedAt (r y : WorkspaceRecord)
    (l : List WorkspaceRecord) (h : y ∈ insertByCreatedAt r l) :
    y = r ∨ y ∈ l := by
  induction l with
  | nil =>
    rw [insertByCreatedAt] at h
    simpa using h
  | cons x xs ih =>
    rw [insertByCreatedAt] at h
    by_cases hx : x.createdAt < r.createdAt
    · rw [if_pos hx] at h
      rcases List.mem_cons.mp h with h | h
      · exact Or.inr (List.mem_cons.mpr (Or.inl h))
      · rcases ih h with h | h
        · exact Or.inl h
        · exact Or.inr (List.mem_cons.mpr (Or.inr h))
    · rw [if_neg hx] at h
      rcases List.mem_cons.mp h with h | h
      · exact Or.inl h
      · exact Or.inr h

theorem sorted_insertByCreatedAt (r : WorkspaceRecord)
    (l : List WorkspaceRecord)
    (h : l.Pairwise (fun a b => a.createdAt ≤ b.createdAt)) :
    (insertByCreatedAt r l).Pairwise
      (fun a b => a.createdAt ≤ b.createdAt) := by
  induction l with
  | nil =>
    rw [insertByCreatedAt]
    simp
  | cons x xs ih =>
    rw [insertByCreatedAt]
    rcases List.pairwise_cons.mp h with ⟨hx, hxs⟩
    by_cases hlt : x.createdAt < r.createdAt
    · rw [if_pos hlt]
      refine List.pairwise_cons.mpr ⟨?_, ih hxs⟩
      intro y hy
      rcases mem_insertByCreatedAt r y xs hy with hy | hy
      · subst hy
        omega
      · exact hx y hy
    · rw [if_neg hlt]
      refine List.pairwise_cons.mpr ⟨?_, h⟩
      intro y hy
      rcases List.mem_cons.mp hy with hy | hy
      · subst hy
        omega
      · have := hx y hy
        omega

theorem perm_insertByCreatedAt (r : WorkspaceRecord)
    (l : List WorkspaceRecord) :
    (insertByCreatedAt r l).Perm (r :: l) := by
  induction l with
  | nil =>
    rw [insertByCreatedAt]
  | cons x xs ih =>
    rw [insertByCreatedAt]
    by_cases hlt : x.createdAt < r.createdAt
    · rw [if_pos hlt]
      exact ((ih.cons x).trans (List.Perm.swap r x xs))
    · rw [if_neg hlt]

theorem filter_insertByCreatedAt (r : WorkspaceRecord)
    (l : List WorkspaceRecord) (t : Int) :
    (insertByCreatedAt r l).filter (fun y => y.createdAt = t) =
      (r :: l).filter (fun y => y.createdAt = t) := by
  induction l with
  | nil =>
    rw [insertByCreatedAt]
  | cons x xs ih =>
    rw [insertByCreatedAt]
    by_cases hlt : x.createdAt < r.createdAt
    · rw [if_pos hlt]
      by_cases hrt : r.createdAt = t
      · have hxt : ¬ x.createdAt = t := by omega
        simp only [List.filter_cons]
        simp only [decide_eq_true_eq] at *
        rw [if_neg (by simpa using hxt)]
        rw [show (insertByCreatedAt r xs).filter
            (fun y => decide (y.createdAt = t)) =
          ((r :: xs).filter (fun y => decide (y.createdAt = t))) from ih]
        simp [hrt, hxt]
      · simp only [List.filter_cons]
        rw [show (insertByCreatedAt r xs).filter
            (fun y => decide (y.createdAt = t)) =
          ((r :: xs).filter (fun y => decide (y.createdAt = t))) from ih]
        simp [hrt]
    · rw [if_neg hlt]

theorem sorted_sortByCreatedAt (l : List WorkspaceRecord) :
    (sortByCreatedAt l).Pairwise (fun a b => a.createdAt ≤ b.createdAt) := by
  induction l with
  | nil =>
    rw [sortByCreatedAt]
    exact List.Pairwise.nil
  | cons r rest ih =>
    rw [sortByCreatedAt]
    exact sorted_insertByCreatedAt r _ ih

theorem perm_sortByCreatedAt (l : List WorkspaceRecord) :
    (sortByCreatedAt l).Perm l := by
  induction l with
  | nil => rw [sortByCreatedAt]
  | cons r rest ih =>
    rw [sortByCreatedAt]
    exact (perm_insertByCreatedAt r _).trans (ih.cons r)

theorem filter_sortByCreatedAt (l : List WorkspaceRecord) (t : Int) :
    (sortByCreatedAt l).filter (fun y => y.createdAt = t) =
      l.filter (fun y => y.createdAt = t) := by
  induction l with
  | nil => rw [sortByCreatedAt]
  | cons r rest ih =>
    rw [sortByCreatedAt, filter_insertByCreatedAt]
    simp only [List.filter_cons]
    rw [ih]

/-- **C8, counterexample.** Two stored rows share `createdAt = 1` with
names out of order; `listWorkspaces` keeps their stored order (stable
sort by `createdAt` only, Home.tsx:681), so the result is not ordered by
name within the tie. -/
theorem claim_C8_counterexample :
    ¬ sortedByCreatedAtName (listWorkspaces 0
      [⟨some "w_b", some "bee", some 1, some 1⟩,
       ⟨some "w_a", some "aaa", some 1, some 1⟩]) = true := by
  decide

/-- **C8, amended.** `listWorkspaces` returns the normalized rows sorted
by `createdAt` ascending; it is a permutation of the normalized input in
which rows with equal `createdAt` keep their stored relative order (JS
sort stability) — they are not reordered by name. -/
theorem claim_C8_amended (now : Int) (items : List RawRecord) :
    (listWorkspaces now items).Pairwise
      (fun a b => a.createdAt ≤ b.createdAt) ∧
    (listWorkspaces now items).Perm (items.map (normalizeRecord now)) ∧
    (∀ t : Int, (listWorkspaces now items).filter
        (fun y => y.createdAt = t) =
      (items.map (normalizeRecord now)).filter
        (fun y => y.createdAt = t)) := by
  refine ⟨sorted_sortByCreatedAt _, perm_sortByCreatedAt _, fun t => ?_⟩
  exact filter_sortByCreatedAt _ t


mutual

theorem plainTextBeq_iff : ∀ a b : PlainText, PlainText.beq a b = true ↔ a = b
  | .str a, .str b => by
    rw [PlainText.beq]
    simp [beq_iff_eq]
  | .str _, .payloadJson _ => by rw [PlainText.beq]; simp
  | .str _, .envelopeJson _ _ => by rw [PlainText.beq]; simp
  | .payloadJson _, .str _ => by rw [PlainText.beq]; simp
  | .payloadJson a, .payloadJson b => by
    rw [PlainText.beq]
    simp [beq_iff_eq]
  | .payloadJson _, .envelopeJson _ _ => by rw [PlainText.beq]; simp
  | .envelopeJson _ _, .str _ => by rw [PlainText.beq]; simp
  | .envelopeJson _ _, .payloadJson _ => by rw [PlainText.beq]; simp
  | .envelopeJson i a, .envelopeJson j b => by
    rw [PlainText.beq]
    rw [Bool.and_eq_true, beq_iff_eq, ciphertextBeq_iff a b]
    simp

theorem ciphertextBeq_iff : ∀ a b : Ciphertext, Ciphertext.beq a b = true ↔ a = b
  | .mk k i p, .mk k' i' p' => by
    rw [Ciphertext.beq]
    rw [Bool.and_eq_true, Bool.and_eq_true, beq_iff_eq, beq_iff_eq,
      plainTextBeq_iff p p']
    simp [and_assoc]

end

instance : DecidableEq PlainText := fun a b =>
  decidable_of_iff _ (plainTextBeq_iff a b)

instance : DecidableEq Ciphertext := fun a b =>
  decidable_of_iff _ (ciphertextBeq_iff a b)

instance : DecidableEq StorePayload := fun a b =>
  match a, b with
  | .plain p, .plain q => decidable_of_iff (p = q) (by simp)
  | .plain _, .encrypted _ _ => isFalse (by intro h; cases h)
  | .encrypted _ _, .plain _ => isFalse (by intro h; cases h)
  | .encrypted i d, .encrypted j e =>
    decidable_of_iff (i = j ∧ d = e) (by
      constructor
      · intro ⟨h1, h2⟩
        rw [h1, h2]
      · intro h
        cases h
        exact ⟨rfl, rfl⟩)

instance : DecidableEq EventRecord := fun a b =>
  decidable_of_iff (a.type = b.type ∧ a.payload = b.payload ∧
    a.timestamp = b.timestamp) (by
    constructor
    · intro ⟨h1, h2, h3⟩
      cases a
      cases b
      simp only at h1 h2 h3
      rw [h1, h2, h3]
    · intro h
      cases h
      exact ⟨rfl, rfl, rfl⟩)

/-! ## Claims C1, C2, C9: the workspace lock protocol (`src/lib/store.ts`)

`lockWorkspace` / `unlockWorkspace` act on one workspace: its persisted
event log (`getAllEvents` / `replaceWorkspaceEvents`) and the lock fields
of its workspace record.  The flows keep the persisted record and the
in-memory `target` mirrored (every `updateWorkspaceLockState` write is
copied onto `target`), so the model carries one copy.  The id trimming
and the `workspaces.find` lookup select which workspace acts; the model
is already per-workspace, so those guards (and their `WORKSPACE_NOT_FOUND`
path) stay outside it.  WebCrypto and randomness enter as parameters: the
salt, the verification token and the per-call nonces (`ivs`) are inputs,
and `CryptoHost.deriveOk` records for which inputs the PBKDF2 derivation
promise resolves (`deriveKey` can reject at runtime).  AES-GCM is the
standard symbolic AEAD: a ciphertext remembers key, nonce and plaintext,
and `decryptString` succeeds exactly when key and nonce match. -/

/-- The parsed `lockTestValue` (`LockVerificationPayload` in store.ts:195):
`{salt, iv, data}`.  The store keeps it JSON-encoded;
`parseVerificationPayload` recovers exactly this shape or fails, so the
model stores the parsed form and `none` for absent/corrupt. -/
structure LockVerification : Type where
  salt : String
  iv : String
  data : Ciphertext
  deriving DecidableEq

/-- The persisted state of one workspace that the lock protocol touches:
its event log and the lock fields of its record. -/
structure WorkspaceState : Type where
  events : List EventRecord
  locked : Bool
  lockTestName : Option String
  lockTestValue : Option LockVerification
  deriving DecidableEq

/-- The WebCrypto environment: whether the event store is reachable and on
which (password, salt) inputs key derivation resolves. -/
structure CryptoHost : Type where
  storeAvailable : Bool
  deriveOk : String → String → Bool

/-- Error codes attached to errors thrown by the lock flows; `uncoded` is
an exception with no `code` field (e.g. a rethrown derivation failure in
`lockWorkspace`). -/
inductive StoreErrorCode : Type where
  | WORKSPACE_PASSWORD_REQUIRED
  | EVENT_STORE_UNAVAILABLE
  | WORKSPACE_LOCK_METADATA_MISSING
  | WORKSPACE_UNLOCK_FAILED
  | uncoded
  deriving DecidableEq, Repr

/-- Outcome of a lock-protocol flow: normal return (`some true` for
success, `none` for the silent early returns) or a thrown error, each
with the workspace state as left behind by the call. -/
inductive LockOutcome : Type where
  | ok (returned : Option Bool) (s : WorkspaceState)
  | err (code : StoreErrorCode) (s : WorkspaceState)
  deriving DecidableEq

/-- `deriveKey(password, salt)`: PBKDF2 is deterministic in password and
salt, so a resolved derivation is the pair; the promise rejects when the
host fails. -/
def deriveKey (host : CryptoHost) (password salt : String) :
    Option DerivedKey :=
  if host.deriveOk password salt then some ⟨password, salt⟩ else none

/-- `encryptString(key, plaintext)` with nonce `iv`: the symbolic AES-GCM
ciphertext. -/
def encryptString (key : DerivedKey) (iv : String) (pt : PlainText) :
    Ciphertext :=
  .mk key iv pt

/-- `decryptString(key, data, iv)`: authenticated decryption succeeds
exactly when key and nonce match the ones the ciphertext was built
with. -/
def decryptString (key : DerivedKey) (data : Ciphertext) (iv : String) :
    Option PlainText :=
  match data with
  | .mk k i pt => if k = key ∧ i = iv then some pt else none

/-- `JSON.stringify(event.payload)`: a stored payload serializes to the
string image of its JSON value. -/
def jsonStringify : StorePayload → PlainText
  | .plain p => .payloadJson p
  | .encrypted iv d => .envelopeJson iv d

/-- `JSON.parse` of a decrypted payload string: inverts the two stringify
images and fails on a raw token (a random base64 string is not JSON). -/
def jsonParse : PlainText → Option StorePayload
  | .str _ => none
  | .payloadJson p => some (.plain p)
  | .envelopeJson iv d => some (.encrypted iv d)

/-- `isEncryptedPayload` (store.ts:224): the payload is the tagged envelope
`{__encrypted: true, iv, data}` (plain `EventPayloadMap` payloads never
carry `__encrypted`). -/
def isEncryptedPayload : StorePayload → Bool
  | .plain _ => false
  | .encrypted _ _ => true

/-- `replaceWorkspaceEvents(id, events)` (event-store.ts:318): replaces the
workspace's event history atomically (clear then bulk insert). -/
def replaceWorkspaceEvents (s : WorkspaceState) (evts : List EventRecord) :
    WorkspaceState :=
  { s with events := evts }

/-- Modelled from the spec: `getWorkspaceRecord(id)` returns the persisted
workspace record; the flows keep the in-memory copy mirrored, so the model
reads the single record. -/
def getWorkspaceRecord (s : WorkspaceState) : WorkspaceState := s

/-- Modelled from the spec: `updateWorkspaceLockState(id, fields)` is a
partial update restricted to the lock fields of the workspace record. -/
def updateWorkspaceLockState (s : WorkspaceState) (locked : Bool)
    (name : Option String) (value : Option LockVerification) :
    WorkspaceState :=
  { s with locked := locked, lockTestName := name, lockTestValue := value }

/-- The encryption loop of `lockWorkspace` (store.ts:784–805): `workspace_*`
events pass through untouched, every other payload is JSON-serialized and
encrypted under a fresh nonce (`ivs k`, advancing per encrypted event). -/
def encryptEvents (key : DerivedKey) (ivs : Nat → String) :
    Nat → List EventRecord → List EventRecord
  | _, [] => []
  | k, e :: rest =>
    if e.type.isWorkspaceType then e :: encryptEvents key ivs k rest
    else
      { type := e.type,
        payload := .encrypted (ivs k)
          (encryptString key (ivs k) (jsonStringify e.payload)),
        timestamp := e.timestamp } :: encryptEvents key ivs (k + 1) rest

/-- The decryption loop of `unlockWorkspace` (store.ts:913–948): stops with
the first failure — a non-envelope payload, an authentication failure or
an unparsable plaintext, each thrown as `WORKSPACE_UNLOCK_FAILED`. -/
def decryptEvents (key : DerivedKey) :
    List EventRecord → Except StoreErrorCode (List EventRecord)
  | [] => .ok []
  | e :: rest =>
    if e.type.isWorkspaceType then
      (decryptEvents key rest).map (fun l => e :: l)
    else if isEncryptedPayload e.payload then
      match e.payload with
      | .plain _ => .error .WORKSPACE_UNLOCK_FAILED
      | .encrypted iv data =>
        match decryptString key data iv with
        | none => .error .WORKSPACE_UNLOCK_FAILED
        | some pt =>
          match jsonParse pt with
          | none => .error .WORKSPACE_UNLOCK_FAILED
          | some payload =>
            (decryptEvents key rest).map (fun l =>
              { type := e.type, payload := payload,
                timestamp := e.timestamp } :: l)
    else .error .WORKSPACE_UNLOCK_FAILED

/-- `lockWorkspace` (store.ts:743–842) for one workspace, with the fresh
salt, verification token and nonce stream as inputs: password and
availability guards, then encrypt the verification token and every
non-`workspace_*` payload, replace the history and set the lock fields. -/
def lockWorkspace (host : CryptoHost) (s : WorkspaceState)
    (password salt verName : String) (ivs : Nat → String) : LockOutcome :=
  if password = "" then .err .WORKSPACE_PASSWORD_REQUIRED s
  else if s.locked then .ok none s
  else if !host.storeAvailable then .err .EVENT_STORE_UNAVAILABLE s
  else
    match deriveKey host password salt with
    | none => .err .uncoded s
    | some key =>
      let verCt := encryptString key (ivs 0) (.str verName)
      let s1 := replaceWorkspaceEvents s (encryptEvents key ivs 1 s.events)
      let s2 := updateWorkspaceLockState s1 true (some verName)
        (some ⟨salt, ivs 0, verCt⟩)
      .ok (some true) s2

/-- `unlockWorkspace` (store.ts:843–988) for one workspace: locked,
password and availability guards, read the lock metadata, re-derive the
key, decrypt and compare the verification token (all three failures
uniformly `WORKSPACE_UNLOCK_FAILED`), then decrypt the history, replace it
and clear the lock fields. -/
def unlockWorkspace (host : CryptoHost) (s : WorkspaceState)
    (password : String) : LockOutcome :=
  if !s.locked then .ok none s
  else if password = "" then .err .WORKSPACE_PASSWORD_REQUIRED s
  else if !host.storeAvailable then .err .EVENT_STORE_UNAVAILABLE s
  else
    match (getWorkspaceRecord s).lockTestName,
        (getWorkspaceRecord s).lockTestValue with
    | some verName, some ver =>
      match deriveKey host password ver.salt with
      | none => .err .WORKSPACE_UNLOCK_FAILED s
      | some key =>
        match decryptString key ver.data ver.iv with
        | none => .err .WORKSPACE_UNLOCK_FAILED s
        | some verResult =>
          if verResult ≠ PlainText.str verName then
            .err .WORKSPACE_UNLOCK_FAILED s
          else
            match decryptEvents key s.events with
            | .error code => .err code s
            | .ok decrypted =>
              let s1 := replaceWorkspaceEvents s decrypted
              let s2 := updateWorkspaceLockState s1 false none none
              .ok (some true) s2
    | _, _ => .err .WORKSPACE_LOCK_METADATA_MISSING s


theorem jsonParse_stringify (p : StorePayload) :
    jsonParse (jsonStringify p) = some p := by
  cases p <;> rfl

theorem decryptEvents_nil (key : DerivedKey) :
    decryptEvents key [] = .ok [] := by
  rw [decryptEvents]

theorem decryptEvents_cons_ws (key : DerivedKey) (e : EventRecord)
    (rest : List EventRecord) (hw : e.type.isWorkspaceType = true) :
    decryptEvents key (e :: rest) =
      (decryptEvents key rest).map (fun l => e :: l) := by
  rw [decryptEvents, if_pos hw]

theorem decryptEvents_cons_plain (key : DerivedKey) (e : EventRecord)
    (rest : List EventRecord) (p : PlainPayload)
    (hw : e.type.isWorkspaceType = false) (hp : e.payload = .plain p) :
    decryptEvents key (e :: rest) = .error .WORKSPACE_UNLOCK_FAILED := by
  rw [decryptEvents, if_neg (by simp [hw]),
    if_neg (by rw [hp, isEncryptedPayload]; simp)]

theorem decryptEvents_cons_enc (key : DerivedKey) (e : EventRecord)
    (rest : List EventRecord) (iv : String) (data : Ciphertext)
    (hw : e.type.isWorkspaceType = false)
    (hp : e.payload = .encrypted iv data) :
    decryptEvents key (e :: rest) =
      (match decryptString key data iv with
       | none => .error .WORKSPACE_UNLOCK_FAILED
       | some pt =>
         match jsonParse pt with
         | none => .error .WORKSPACE_UNLOCK_FAILED
         | some payload =>
           (decryptEvents key rest).map (fun l =>
             { type := e.type, payload := payload,
               timestamp := e.timestamp } :: l)) := by
  rw [decryptEvents, if_neg (by simp [hw]),
    if_pos (by rw [hp, isEncryptedPayload])]
  rw [hp]

theorem decryptEvents_cons_enc_none (key : DerivedKey) (e : EventRecord)
    (rest : List EventRecord) (iv : String) (data : Ciphertext)
    (hw : e.type.isWorkspaceType = false)
    (hp : e.payload = .encrypted iv data)
    (hd : decryptString key data iv = none) :
    decryptEvents key (e :: rest) = .error .WORKSPACE_UNLOCK_FAILED := by
  rw [decryptEvents_cons_enc key e rest iv data hw hp, hd]

theorem decryptEvents_cons_enc_raw (key : DerivedKey) (e : EventRecord)
    (rest : List EventRecord) (iv : String) (data : Ciphertext)
    (pt : PlainText) (hw : e.type.isWorkspaceType = false)
    (hp : e.payload = .encrypted iv data)
    (hd : decryptString key data iv = some pt)
    (hj : jsonParse pt = none) :
    decryptEvents key (e :: rest) = .error .WORKSPACE_UNLOCK_FAILED := by
  rw [decryptEvents_cons_enc key e rest iv data hw hp, hd]
  simp [hj]

theorem decryptEvents_cons_enc_parsed (key : DerivedKey) (e : EventRecord)
    (rest : List EventRecord) (iv : String) (data : Ciphertext)
    (pt : PlainText) (payload : StorePayload)
    (hw : e.type.isWorkspaceType = false)
    (hp : e.payload = .encrypted iv data)
    (hd : decryptString key data iv = some pt)
    (hj : jsonParse pt = some payload) :
    decryptEvents key (e :: rest) =
      (decryptEvents key rest).map (fun l =>
        { type := e.type, payload := payload,
          timestamp := e.timestamp } :: l) := by
  rw [decryptEvents_cons_enc key e rest iv data hw hp, hd]
  simp [hj]

/-- Encrypt-then-decrypt over the event loop is the identity: the claims'
"byte-for-byte after JSON re-serialization" is exact equality here because
the symbolic `JSON.parse` inverts `JSON.stringify`. -/
theorem decrypt_encrypt (key : DerivedKey) (ivs : Nat → String) :
    ∀ (l : List EventRecord) (k : Nat),
      decryptEvents key (encryptEvents key ivs k l) = .ok l := by
  intro l
  induction l with
  | nil => intro k; rw [encryptEvents, decryptEvents]
  | cons e rest ih =>
    intro k
    cases hw : e.type.isWorkspaceType with
    | true =>
      rw [encryptEvents, if_pos hw, decryptEvents_cons_ws _ _ _ hw, ih k]
      rfl
    | false =>
      rw [encryptEvents, if_neg (by simp [hw])]
      rw [decryptEvents_cons_enc_parsed key
        { type := e.type,
          payload := .encrypted (ivs k)
            (encryptString key (ivs k) (jsonStringify e.payload)),
          timestamp := e.timestamp }
        (encryptEvents key ivs (k + 1) rest) (ivs k)
        (encryptString key (ivs k) (jsonStringify e.payload))
        (jsonStringify e.payload) e.payload hw rfl
        (by rw [encryptString, decryptString, if_pos ⟨rfl, rfl⟩])
        (jsonParse_stringify e.payload)]
      rw [ih (k + 1)]
      rfl

theorem encryptEvents_map_type (key : DerivedKey) (ivs : Nat → String) :
    ∀ (l : List EventRecord) (k : Nat),
      (encryptEvents key ivs k l).map EventRecord.type =
        l.map EventRecord.type := by
  intro l
  induction l with
  | nil => intro k; rw [encryptEvents]
  | cons e rest ih =>
    intro k
    cases hw : e.type.isWorkspaceType with
    | true => rw [encryptEvents, if_pos hw, List.map_cons, List.map_cons, ih]
    | false =>
      rw [encryptEvents, if_neg (by simp [hw]), List.map_cons, List.map_cons,
        ih]

theorem encryptEvents_map_timestamp (key : DerivedKey) (ivs : Nat → String) :
    ∀ (l : List EventRecord) (k : Nat),
      (encryptEvents key ivs k l).map EventRecord.timestamp =
        l.map EventRecord.timestamp := by
  intro l
  induction l with
  | nil => intro k; rw [encryptEvents]
  | cons e rest ih =>
    intro k
    cases hw : e.type.isWorkspaceType with
    | true => rw [encryptEvents, if_pos hw, List.map_cons, List.map_cons, ih]
    | false =>
      rw [encryptEvents, if_neg (by simp [hw]), List.map_cons, List.map_cons,
        ih]

theorem encryptEvents_workspace_eq (key : DerivedKey) (ivs : Nat → String) :
    ∀ (l : List EventRecord) (k i : Nat) (e e' : EventRecord),
      l[i]? = some e → (encryptEvents key ivs k l)[i]? = some e' →
      e.type.isWorkspaceType = true → e' = e := by
  intro l
  induction l with
  | nil =>
    intro k i e e' h
    simp at h
  | cons hd rest ih =>
    intro k i e e' h h' hw
    cases hwh : hd.type.isWorkspaceType with
    | true =>
      rw [encryptEvents, if_pos hwh] at h'
      cases i with
      | zero =>
        simp at h h'
        rw [← h, ← h']
      | succ j =>
        simp at h h'
        exact ih k j e e' h h' hw
    | false =>
      rw [encryptEvents, if_neg (by simp [hwh])] at h'
      cases i with
      | zero =>
        simp at h h'
        rw [← h] at hw
        rw [hwh] at hw
        cases hw
      | succ j =>
        simp at h h'
        exact ih (k + 1) j e e' h h' hw

/-- Every error the decryption loop throws carries
`WORKSPACE_UNLOCK_FAILED`. -/
theorem decryptEvents_error_code (key : DerivedKey) :
    ∀ (l : List EventRecord) (c : StoreErrorCode),
      decryptEvents key l = .error c → c = .WORKSPACE_UNLOCK_FAILED := by
  intro l
  induction l with
  | nil =>
    intro c h
    rw [decryptEvents_nil] at h
    cases h
  | cons e rest ih =>
    intro c h
    cases hw : e.type.isWorkspaceType with
    | true =>
      rw [decryptEvents_cons_ws _ _ _ hw] at h
      cases hr : decryptEvents key rest with
      | ok out =>
        rw [hr] at h
        simp only [Except.map] at h
        cases h
      | error c2 =>
        rw [hr] at h
        simp only [Except.map] at h
        cases h
        exact ih _ hr
    | false =>
      cases hp : e.payload with
      | plain p =>
        rw [decryptEvents_cons_plain _ _ _ p hw hp] at h
        cases h
        rfl
      | encrypted iv data =>
        cases hd : decryptString key data iv with
        | none =>
          rw [decryptEvents_cons_enc_none _ _ _ iv data hw hp hd] at h
          cases h
          rfl
        | some pt =>
          cases hj : jsonParse pt with
          | none =>
            rw [decryptEvents_cons_enc_raw _ _ _ iv data pt hw hp hd hj] at h
            cases h
            rfl
          | some payload =>
            rw [decryptEvents_cons_enc_parsed _ _ _ iv data pt payload
              hw hp hd hj] at h
            cases hr : decryptEvents key rest with
            | ok out =>
              rw [hr] at h
              simp only [Except.map] at h
              cases h
            | error c2 =>
              rw [hr] at h
              simp only [Except.map] at h
              cases h
              exact ih _ hr

/-- A decryption loop that finishes saw only envelopes on
non-`workspace_*` events. -/
theorem decryptEvents_ok_encrypted (key : DerivedKey) :
    ∀ (l out : List EventRecord), decryptEvents key l = .ok out →
      ∀ e ∈ l, e.type.isWorkspaceType = false →
        isEncryptedPayload e.payload = true := by
  intro l
  induction l with
  | nil =>
    intro out _ e he
    cases he
  | cons hd rest ih =>
    intro out h e he hw
    cases hwh : hd.type.isWorkspaceType with
    | true =>
      rw [decryptEvents_cons_ws _ _ _ hwh] at h
      rcases List.mem_cons.mp he with he | he
      · subst he
        rw [hw] at hwh
        cases hwh
      · cases hr : decryptEvents key rest with
        | ok out2 => exact ih out2 hr e he hw
        | error c =>
          rw [hr] at h
          simp only [Except.map] at h
          cases h
    | false =>
      cases hp : hd.payload with
      | plain p =>
        rw [decryptEvents_cons_plain _ _ _ p hwh hp] at h
        cases h
      | encrypted iv data =>
        rcases List.mem_cons.mp he with he | he
        · subst he
          rw [hp, isEncryptedPayload]
        · cases hd2 : decryptString key data iv with
          | none =>
            rw [decryptEvents_cons_enc_none _ _ _ iv data hwh hp hd2] at h
            cases h
          | some pt =>
            cases hj : jsonParse pt with
            | none =>
              rw [decryptEvents_cons_enc_raw _ _ _ iv data pt hwh hp
                hd2 hj] at h
              cases h
            | some payload =>
              rw [decryptEvents_cons_enc_parsed _ _ _ iv data pt payload
                hwh hp hd2 hj] at h
              cases hr : decryptEvents key rest with
              | ok out2 => exact ih out2 hr e he hw
              | error c =>
                rw [hr] at h
                simp only [Except.map] at h
                cases h


/-- **C1.** For a workspace whose log is stored in plaintext and a
non-empty password, locking and then unlocking with the same password
succeeds and restores the stored history exactly (the symbolic JSON
round-trip makes "up to re-serialization" an equality): same events in the
same order, and along the way the lock transform keeps every type and
timestamp and leaves `workspace_*` events untouched. -/
theorem claim_C1 (host : CryptoHost) (s : WorkspaceState)
    (password salt verName : String) (ivs : Nat → String)
    (hunlocked : s.locked = false)
    (hpw : password ≠ "")
    (havail : host.storeAvailable = true)
    (hderive : host.deriveOk password salt = true) :
    ∃ s1 s2,
      lockWorkspace host s password salt verName ivs = .ok (some true) s1 ∧
      unlockWorkspace host s1 password = .ok (some true) s2 ∧
      s2.events = s.events ∧ s2.locked = false ∧
      s1.events.map EventRecord.type = s.events.map EventRecord.type ∧
      s1.events.map EventRecord.timestamp =
        s.events.map EventRecord.timestamp ∧
      (∀ (i : Nat) (e e' : EventRecord), s.events[i]? = some e →
        s1.events[i]? = some e' → e.type.isWorkspaceType = true →
        e' = e) := by
  have hkey : deriveKey host password salt = some ⟨password, salt⟩ := by
    rw [deriveKey, if_pos hderive]
  refine ⟨updateWorkspaceLockState
      (replaceWorkspaceEvents s
        (encryptEvents (DerivedKey.mk password salt) ivs 1 s.events))
      true (some verName)
      (some (LockVerification.mk salt (ivs 0)
        (encryptString (DerivedKey.mk password salt) (ivs 0)
          (.str verName)))),
    updateWorkspaceLockState (replaceWorkspaceEvents s s.events) false
      none none, ?_, ?_, rfl, rfl, ?_, ?_, ?_⟩
  · rw [lockWorkspace, if_neg hpw, if_neg (by rw [hunlocked]; simp),
      if_neg (by rw [havail]; simp), hkey]
  · have hdec : decryptString (DerivedKey.mk password salt)
        (encryptString (DerivedKey.mk password salt) (ivs 0)
          (.str verName)) (ivs 0) = some (.str verName) := by
      rw [encryptString, decryptString, if_pos ⟨rfl, rfl⟩]
    simp [unlockWorkspace, getWorkspaceRecord, updateWorkspaceLockState,
      replaceWorkspaceEvents, hkey, hdec, decrypt_encrypt, hpw, havail]
  · exact encryptEvents_map_type _ _ _ _
  · exact encryptEvents_map_timestamp _ _ _ _
  · intro i e e' h h' hw
    exact encryptEvents_workspace_eq _ _ s.events 1 i e e' h h' hw


/-- Witness for C1: an unlocked workspace holding one plain event, locked
and unlocked with password `pw`. -/
theorem claim_C1_witness :
    (({ events := [⟨.bullet_content_updated,
          .plain (.contentUpdated "b" "hi"), 3⟩], locked := false,
        lockTestName := none, lockTestValue := none } :
          WorkspaceState).locked = false) ∧
    ("pw" ≠ "") ∧
    ((⟨true, fun _ _ => true⟩ : CryptoHost).storeAvailable = true) ∧
    ((⟨true, fun _ _ => true⟩ : CryptoHost).deriveOk "pw" "salt" = true) ∧
    (∃ s1 s2,
      lockWorkspace ⟨true, fun _ _ => true⟩
        { events := [⟨.bullet_content_updated,
            .plain (.contentUpdated "b" "hi"), 3⟩], locked := false,
          lockTestName := none, lockTestValue := none }
        "pw" "salt" "token" (fun _ => "iv") = .ok (some true) s1 ∧
      unlockWorkspace ⟨true, fun _ _ => true⟩ s1 "pw" = .ok (some true) s2 ∧
      s2.events = [⟨.bullet_content_updated,
        .plain (.contentUpdated "b" "hi"), 3⟩] ∧ s2.locked = false ∧
      s1.events.map EventRecord.type = [.bullet_content_updated] ∧
      s1.events.map EventRecord.timestamp = [3] ∧
      (∀ (i : Nat) (e e' : EventRecord),
        ([⟨.bullet_content_updated,
          .plain (.contentUpdated "b" "hi"), 3⟩] :
            List EventRecord)[i]? = some e →
        s1.events[i]? = some e' → e.type.isWorkspaceType = true →
        e' = e)) :=
  ⟨rfl, by decide, rfl, rfl,
    claim_C1 ⟨true, fun _ _ => true⟩
      { events := [⟨.bullet_content_updated,
          .plain (.contentUpdated "b" "hi"), 3⟩], locked := false,
        lockTestName := none, lockTestValue := none }
      "pw" "salt" "token" (fun _ => "iv") rfl (by decide) rfl rfl⟩

/-- **C2.** On a locked workspace with its lock metadata present, a failed
key derivation, a failed decryption of the stored verification ciphertext,
or a decrypted value different from the stored verification token all
throw the single code `WORKSPACE_UNLOCK_FAILED`, and the workspace state —
stored events and lock fields — is exactly the one the call started
with. -/
theorem claim_C2 (host : CryptoHost) (s : WorkspaceState)
    (password verName : String) (ver : LockVerification)
    (hlocked : s.locked = true)
    (hpw : password ≠ "")
    (havail : host.storeAvailable = true)
    (hname : s.lockTestName = some verName)
    (hvalue : s.lockTestValue = some ver)
    (hfail :
      deriveKey host password ver.salt = none ∨
      (∀ key, deriveKey host password ver.salt = some key →
        decryptString key ver.data ver.iv = none) ∨
      (∀ key pt, deriveKey host password ver.salt = some key →
        decryptString key ver.data ver.iv = some pt →
        pt ≠ PlainText.str verName)) :
    unlockWorkspace host s password = .err .WORKSPACE_UNLOCK_FAILED s := by
  cases hk : deriveKey host password ver.salt with
  | none =>
    simp [unlockWorkspace, getWorkspaceRecord, hname, hvalue, hk, hlocked,
      hpw, havail]
  | some key =>
    cases hd : decryptString key ver.data ver.iv with
    | none =>
      simp [unlockWorkspace, getWorkspaceRecord, hname, hvalue, hk, hd,
        hlocked, hpw, havail]
    | some pt =>
      have hne : pt ≠ PlainText.str verName := by
        rcases hfail with hfail | hfail | hfail
        · rw [hfail] at hk
          cases hk
        · rw [hfail key hk] at hd
          cases hd
        · exact hfail key pt hk hd
      simp [unlockWorkspace, getWorkspaceRecord, hname, hvalue, hk, hd,
        hne, hlocked, hpw, havail]

/-- Witness for C2: a locked workspace whose host rejects the key
derivation. -/
theorem claim_C2_witness :
    (({ events := [], locked := true, lockTestName := some "token",
        lockTestValue := (some (LockVerification.mk "salt" "iv"
          (Ciphertext.mk (DerivedKey.mk "pw" "salt") "iv"
            (.str "token")))) } : WorkspaceState).locked = true) ∧
    ("wrong" ≠ "") ∧
    ((⟨true, fun _ _ => false⟩ : CryptoHost).storeAvailable = true) ∧
    (deriveKey ⟨true, fun _ _ => false⟩ "wrong" "salt" = none) ∧
    (unlockWorkspace ⟨true, fun _ _ => false⟩
      { events := [], locked := true, lockTestName := some "token",
        lockTestValue := (some (LockVerification.mk "salt" "iv"
          (Ciphertext.mk (DerivedKey.mk "pw" "salt") "iv"
            (.str "token")))) } "wrong" =
      .err .WORKSPACE_UNLOCK_FAILED
        { events := [], locked := true, lockTestName := some "token",
          lockTestValue := (some (LockVerification.mk "salt" "iv"
            (Ciphertext.mk (DerivedKey.mk "pw" "salt") "iv"
              (.str "token")))) }) :=
  ⟨rfl, by decide, rfl, rfl,
    claim_C2 ⟨true, fun _ _ => false⟩ _ "wrong" "token" _ rfl (by decide)
      rfl rfl rfl (Or.inl rfl)⟩

/-- **C9.** When unlocking a locked workspace whose password verification
passes, a non-`workspace_*` event whose stored payload is not the tagged
envelope `{__encrypted: true, iv, data}` makes the flow throw
`WORKSPACE_UNLOCK_FAILED` before any write-back: the returned state — the
stored event history and the lock fields — is exactly the input state. -/
theorem claim_C9 (host : CryptoHost) (s : WorkspaceState)
    (password verName : String) (ver : LockVerification)
    (hlocked : s.locked = true)
    (hpw : password ≠ "")
    (havail : host.storeAvailable = true)
    (hname : s.lockTestName = some verName)
    (hvalue : s.lockTestValue = some ver)
    (hderive : host.deriveOk password ver.salt = true)
    (hverok : decryptString (DerivedKey.mk password ver.salt) ver.data
      ver.iv = some (.str verName))
    (hbad : ∃ e ∈ s.events, e.type.isWorkspaceType = false ∧
      isEncryptedPayload e.payload = false) :
    unlockWorkspace host s password = .err .WORKSPACE_UNLOCK_FAILED s := by
  have hkey : deriveKey host password ver.salt =
      some (DerivedKey.mk password ver.salt) := by
    rw [deriveKey, if_pos hderive]
  cases hde : decryptEvents (DerivedKey.mk password ver.salt) s.events with
  | error c =>
    have hc := decryptEvents_error_code _ _ _ hde
    subst hc
    simp [unlockWorkspace, getWorkspaceRecord, hname, hvalue, hkey, hverok,
      hde, hlocked, hpw, havail]
  | ok out =>
    obtain ⟨e, he, hw, hp⟩ := hbad
    have := decryptEvents_ok_encrypted _ _ _ hde e he hw
    rw [hp] at this
    cases this

/-- Witness for C9: verification passes but the single stored bullet event
still has a plain payload. -/
theorem claim_C9_witness :
    (({ events := [⟨.bullet_content_updated,
          .plain (.contentUpdated "b" "hi"), 3⟩], locked := true,
        lockTestName := some "token",
        lockTestValue := (some (LockVerification.mk "salt" "iv"
          (Ciphertext.mk (DerivedKey.mk "pw" "salt") "iv"
            (.str "token")))) } : WorkspaceState).locked = true) ∧
    ("pw" ≠ "") ∧
    ((⟨true, fun _ _ => true⟩ : CryptoHost).storeAvailable = true) ∧
    ((⟨true, fun _ _ => true⟩ : CryptoHost).deriveOk "pw" "salt" = true) ∧
    (decryptString (DerivedKey.mk "pw" "salt")
      (Ciphertext.mk (DerivedKey.mk "pw" "salt") "iv" (.str "token"))
      "iv" = some (.str "token")) ∧
    (∃ e ∈ ([⟨.bullet_content_updated,
        .plain (.contentUpdated "b" "hi"), 3⟩] : List EventRecord),
      e.type.isWorkspaceType = false ∧
      isEncryptedPayload e.payload = false) ∧
    (unlockWorkspace ⟨true, fun _ _ => true⟩
      { events := [⟨.bullet_content_updated,
          .plain (.contentUpdated "b" "hi"), 3⟩], locked := true,
        lockTestName := some "token",
        lockTestValue := (some (LockVerification.mk "salt" "iv"
          (Ciphertext.mk (DerivedKey.mk "pw" "salt") "iv"
            (.str "token")))) } "pw" =
      .err .WORKSPACE_UNLOCK_FAILED
        { events := [⟨.bullet_content_updated,
            .plain (.contentUpdated "b" "hi"), 3⟩], locked := true,
          lockTestName := some "token",
          lockTestValue := (some (LockVerification.mk "salt" "iv"
            (Ciphertext.mk (DerivedKey.mk "pw" "salt") "iv"
              (.str "token")))) }) :=
  ⟨rfl, by decide, rfl, rfl, by decide,
    ⟨⟨.bullet_content_updated, .plain (.contentUpdated "b" "hi"), 3⟩,
      by simp, rfl, rfl⟩,
    claim_C9 ⟨true, fun _ _ => true⟩ _ "pw" "token" _ rfl (by decide) rfl
      rfl rfl rfl (by decide)
      ⟨⟨.bullet_content_updated, .plain (.contentUpdated "b" "hi"), 3⟩,
        by simp, rfl, rfl⟩⟩

end Focus
